import Mathlib

/-!
Shallow embedding of the steppable multi-algorithm search engine of the
AI Pathfinder repository (src/pathfinder/algorithms.py, with state layout
and run initialisation from src/pathfinder/app.py and the colour mapping
from src/pathfinder/ui.py).

Modelling conventions:
* Python ints are `Int`; step counters and depths are `Nat`.
* Python floats are `ℚ` (the only literals are 1.0 and 1.414).
* A Python dict is an association list; assignment prepends a new entry and
  lookup returns the first match, so later writes shadow earlier ones.
* A Python set is a duplicate-free list (`sadd` inserts only when absent).
* `collections.deque` used as a FIFO queue is a list popped at the head and
  appended at the tail.
* A Python list used as a LIFO stack (`append`/`pop`) is stored reversed:
  the top of the stack is the head of the Lean list.
* The `heapq` priority queue is a list popped at its lexicographically
  least `(cost, node)` element.  The code pushes a node only on a strict
  cost improvement, so all heap entries are pairwise distinct and the heap
  minimum is unique; hence pop-the-minimum reproduces `heapq.heappop`.
* The grid and the visual overlay are total functions on coordinates;
  the Python code indexes them only inside the bounds it checks first.
* The single dynamically-typed `app.frontier` field is split into one
  field per element type (`frontier` for BFS/DFS, `frontier_pq` for UCS,
  `frontier_d` for DLS/IDDFS); each algorithm touches exactly one of them,
  as in the source, where the field is re-initialised per run.
-/

namespace Pathfinder

/-- Cell kinds of the grid (constants.py, class CellType). -/
inductive CellType where
  | EMPTY
  | WALL
  | START
  | TARGET
deriving DecidableEq, Repr

/-- Overlay states of a cell (constants.py, class CellState). -/
inductive CellState where
  | NONE
  | FRONTIER
  | EXPLORED
  | PATH
  | FRONTIER2
  | EXPLORED2
deriving DecidableEq, Repr

/-- A node is an integer (row, col) pair. -/
abbrev Node := Int × Int

/-- The grid: extent plus cell-kind lookup (app.rows, app.cols, app.grid). -/
structure Grid where
  rows : Int
  cols : Int
  cell : Int → Int → CellType

/-- Movement offsets of the six-direction neighbor model
(algorithms.py line 15). -/
def movements : List (Int × Int) :=
  [(-1, 0), (0, 1), (1, 0), (1, 1), (0, -1), (-1, -1)]

/-- get_neighbors (algorithms.py lines 11-22): offsets filtered to grid
bounds and non-wall cells, in movement order. -/
def get_neighbors (g : Grid) (node : Node) : List Node :=
  movements.filterMap (fun d =>
    let new_row := node.1 + d.1
    let new_col := node.2 + d.2
    if 0 ≤ new_row ∧ new_row < g.rows ∧ 0 ≤ new_col ∧ new_col < g.cols ∧
        g.cell new_row new_col ≠ CellType.WALL then
      some (new_row, new_col)
    else none)

/-- get_move_cost (algorithms.py lines 25-31): 1.414 when
abs(r1-r2)+abs(c1-c2) == 2, else 1.0. -/
def get_move_cost (from_node to_node : Node) : ℚ :=
  if |from_node.1 - to_node.1| + |from_node.2 - to_node.2| = 2 then
    1414 / 1000
  else 1

/-- Association-list lookup: first matching entry, mirroring a dict where
assignment prepends. -/
def lookupA {α β : Type} [DecidableEq α] : List (α × β) → α → Option β
  | [], _ => none
  | (k, v) :: rest, x => if x = k then some v else lookupA rest x

/-- Predecessor map: node to optional predecessor (None for the start). -/
abbrev CameFrom := List (Node × Option Node)

/-- Set insertion for the visited sets (`set.add`): add only when absent. -/
def sadd (s : List Node) (x : Node) : List Node :=
  if x ∈ s then s else x :: s

/-- Overlay update for one cell. -/
def setCell (cs : Int → Int → CellState) (n : Node) (v : CellState) :
    Int → Int → CellState :=
  fun r c => if r = n.1 ∧ c = n.2 then v else cs r c

/-- The shared mutable application state threaded through every step call
(fields of PathfinderApp in app.py that the search core touches). -/
structure App where
  grid : Grid
  start : Node
  target : Node
  frontier : List Node
  frontier_pq : List (ℚ × Node)
  frontier_d : List (Node × Nat)
  frontier_forward : List Node
  frontier_backward : List Node
  explored : List Node
  explored_forward : List Node
  explored_backward : List Node
  came_from : CameFrom
  came_from_forward : CameFrom
  came_from_backward : CameFrom
  cost_so_far : List (Node × ℚ)
  final_path : List Node
  cell_states : Int → Int → CellState
  searching : Bool
  search_complete : Bool
  success : Bool
  step_count : Nat
  depth_limit : Nat
  current_depth_limit : Nat
  meeting_point : Option Node

/-- finish_search (app.py lines 248-274): flips the lifecycle flags and
records the outcome (the status text itself is out of scope). -/
def finish_search (app : App) (found : Bool) : App :=
  { app with search_complete := true, searching := false, success := found }

/-- The `while current in came_from` walk of reconstruct_path, with fuel.
Visiting node `c` conses it onto the accumulator, so the accumulator ends
up already reversed, exactly like the final `reverse()` in the source.
Fuel at least the map length is always sufficient for the walks the code
performs. -/
def walkCF (cf : CameFrom) : Nat → Option Node → List Node → List Node
  | 0, _, acc => acc
  | _ + 1, none, acc => acc
  | fuel + 1, some c, acc =>
    match lookupA cf c with
    | none => acc
    | some pred => walkCF cf fuel pred (c :: acc)

/-- mark_path (algorithms.py lines 75-79). -/
def mark_path (app : App) : App :=
  { app with cell_states := app.final_path.foldl (fun cs node =>
      if node ≠ app.start ∧ node ≠ app.target then
        setCell cs node CellState.PATH
      else cs) app.cell_states }

/-- reconstruct_path (algorithms.py lines 36-45): walk the predecessor map
from the target, then append the start and reverse.  Note that the start is
a key of the map (it maps to None), so the walk already ends with the
start; the extra append duplicates it. -/
def reconstruct_path (app : App) : App :=
  let fp := app.start ::
    walkCF app.came_from (app.came_from.length + 1) (some app.target) []
  mark_path { app with final_path := fp }

/-- The un-reversed backward walk of reconstruct_bidirectional_path. -/
def walkBack (cf : CameFrom) : Nat → Option Node → List Node
  | 0, _ => []
  | _ + 1, none => []
  | fuel + 1, some c =>
    match lookupA cf c with
    | none => []
    | some pred => c :: walkBack cf fuel pred

/-- reconstruct_bidirectional_path (algorithms.py lines 48-72).  The
backward branch runs only when the meeting point has a truthy backward
predecessor (`came_from_backward[current]` is a node, not None). -/
def reconstruct_bidirectional_path (app : App) : App :=
  match app.meeting_point with
  | none => app
  | some m =>
    let forward_path := app.start ::
      walkCF app.came_from_forward (app.came_from_forward.length + 1) (some m) []
    let backward_path :=
      match lookupA app.came_from_backward m with
      | some (some p) =>
        walkBack app.came_from_backward (app.came_from_backward.length + 1)
          (some p) ++ [app.target]
      | _ => []
    mark_path { app with final_path := forward_path ++ backward_path }

/-- One iteration of the neighbor loop of bfs_step (algorithms.py lines
101-105): enqueue and record a predecessor when the neighbor is in neither
the explored set nor the frontier; paint it FRONTIER unless it is the
target. -/
def bfs_push (current : Node) (a : App) (neighbor : Node) : App :=
  if neighbor ∉ a.explored ∧ neighbor ∉ a.frontier then
    let a1 := { a with frontier := a.frontier ++ [neighbor],
                       came_from := (neighbor, some current) :: a.came_from }
    if neighbor ≠ a1.target then
      { a1 with cell_states := setCell a1.cell_states neighbor CellState.FRONTIER }
    else a1
  else a

/-- The neighbor loop of bfs_step (algorithms.py lines 100-105). -/
def bfs_expand (app : App) (current : Node) : App :=
  (get_neighbors app.grid current).foldl (bfs_push current) app

/-- bfs_step (algorithms.py lines 84-107). -/
def bfs_step (app : App) : App :=
  match app.frontier with
  | [] => finish_search app false
  | current :: rest =>
    let a := { app with frontier := rest,
                        explored := sadd app.explored current }
    let a :=
      if current ≠ a.start ∧ current ≠ a.target then
        { a with cell_states := setCell a.cell_states current CellState.EXPLORED }
      else a
    if current = a.target then
      finish_search (reconstruct_path a) true
    else
      let a := bfs_expand a current
      { a with step_count := a.step_count + 1 }

/-- One iteration of the neighbor loop of dfs_step (algorithms.py lines
131-137): a push happens only when the neighbor is not explored and not
already in the frontier, and the predecessor is recorded only when
absent. -/
def dfs_push (current : Node) (a : App) (neighbor : Node) : App :=
  if neighbor ∉ a.explored then
    if neighbor ∉ a.frontier then
      let a1 := { a with frontier := neighbor :: a.frontier }
      let a2 :=
        if lookupA a1.came_from neighbor = none then
          { a1 with came_from := (neighbor, some current) :: a1.came_from }
        else a1
      if neighbor ≠ a2.target then
        { a2 with cell_states := setCell a2.cell_states neighbor CellState.FRONTIER }
      else a2
    else a
  else a

/-- The neighbor loop of dfs_step (algorithms.py lines 130-137): the
neighbors are iterated in reverse order. -/
def dfs_expand (app : App) (current : Node) : App :=
  (get_neighbors app.grid current).reverse.foldl (dfs_push current) app

/-- dfs_step (algorithms.py lines 110-139). -/
def dfs_step (app : App) : App :=
  match app.frontier with
  | [] => finish_search app false
  | current :: rest =>
    let a := { app with frontier := rest }
    if current ∈ a.explored then a
    else
      let a := { a with explored := sadd a.explored current }
      let a :=
        if current ≠ a.start ∧ current ≠ a.target then
          { a with cell_states := setCell a.cell_states current CellState.EXPLORED }
        else a
      if current = a.target then
        finish_search (reconstruct_path a) true
      else
        let a := dfs_expand a current
        { a with step_count := a.step_count + 1 }

/-- Strict lexicographic order on heap entries, as Python compares the
`(cost, node)` tuples. -/
def tupLt (a b : ℚ × Node) : Prop :=
  a.1 < b.1 ∨ (a.1 = b.1 ∧ (a.2.1 < b.2.1 ∨ (a.2.1 = b.2.1 ∧ a.2.2 < b.2.2)))

instance (a b : ℚ × Node) : Decidable (tupLt a b) :=
  inferInstanceAs (Decidable (a.1 < b.1 ∨ (a.1 = b.1 ∧
    (a.2.1 < b.2.1 ∨ (a.2.1 = b.2.1 ∧ a.2.2 < b.2.2)))))

/-- Leftmost minimal entry of the heap list. -/
def heapFindMin : List (ℚ × Node) → Option (ℚ × Node)
  | [] => none
  | x :: rest =>
    match heapFindMin rest with
    | none => some x
    | some m => if tupLt m x then some m else some x

/-- Remove the first occurrence of an entry. -/
def removeFirst : List (ℚ × Node) → (ℚ × Node) → List (ℚ × Node)
  | [], _ => []
  | x :: rest, y => if x = y then rest else x :: removeFirst rest y

/-- heapq.heappop on the model heap: the minimum entry and the rest. -/
def heappop (l : List (ℚ × Node)) : Option ((ℚ × Node) × List (ℚ × Node)) :=
  match heapFindMin l with
  | none => none
  | some m => some (m, removeFirst l m)

/-- One iteration of the relaxation loop of ucs_step (algorithms.py lines
163-171).  The source reads `app.cost_so_far[current]`, which is always
present for an expanded node; the `getD 0` default is never taken on
states the engine produces. -/
def ucs_push (current : Node) (a : App) (neighbor : Node) : App :=
  if neighbor ∉ a.explored then
    let new_cost := (lookupA a.cost_so_far current).getD 0 +
      get_move_cost current neighbor
    if (match lookupA a.cost_so_far neighbor with
        | none => true
        | some c => decide (new_cost < c)) then
      let a1 := { a with cost_so_far := (neighbor, new_cost) :: a.cost_so_far,
                         frontier_pq := (new_cost, neighbor) :: a.frontier_pq,
                         came_from := (neighbor, some current) :: a.came_from }
      if neighbor ≠ a1.target then
        { a1 with cell_states := setCell a1.cell_states neighbor CellState.FRONTIER }
      else a1
    else a
  else a

/-- The relaxation loop of ucs_step (algorithms.py lines 162-171). -/
def ucs_relax (app : App) (current : Node) : App :=
  (get_neighbors app.grid current).foldl (ucs_push current) app

/-- ucs_step (algorithms.py lines 142-173). -/
def ucs_step (app : App) : App :=
  match heappop app.frontier_pq with
  | none => finish_search app false
  | some ((_, current), rest) =>
    let a := { app with frontier_pq := rest }
    if current ∈ a.explored then a
    else
      let a := { a with explored := sadd a.explored current }
      let a :=
        if current ≠ a.start ∧ current ≠ a.target then
          { a with cell_states := setCell a.cell_states current CellState.EXPLORED }
        else a
      if current = a.target then
        finish_search (reconstruct_path a) true
      else
        let a := ucs_relax a current
        { a with step_count := a.step_count + 1 }

/-- One iteration of the neighbor loop shared verbatim by dls_step
(algorithms.py lines 197-203) and iddfs_step (lines 240-246): the push is
guarded only by the explored set (no frontier membership check), and the
predecessor is recorded only when absent. -/
def dls_push (current : Node) (depth : Nat) (a : App) (neighbor : Node) : App :=
  if neighbor ∉ a.explored then
    let a1 := { a with frontier_d := (neighbor, depth + 1) :: a.frontier_d }
    let a2 :=
      if lookupA a1.came_from neighbor = none then
        { a1 with came_from := (neighbor, some current) :: a1.came_from }
      else a1
    if neighbor ≠ a2.target then
      { a2 with cell_states := setCell a2.cell_states neighbor CellState.FRONTIER }
    else a2
  else a

/-- The neighbor loop shared by dls_step and iddfs_step: reversed
iteration order over the body above. -/
def dls_expand (app : App) (current : Node) (depth : Nat) : App :=
  (get_neighbors app.grid current).reverse.foldl (dls_push current depth) app

/-- dls_step (algorithms.py lines 176-205). -/
def dls_step (app : App) : App :=
  match app.frontier_d with
  | [] => finish_search app false
  | (current, depth) :: rest =>
    let a := { app with frontier_d := rest }
    if current ∈ a.explored then a
    else
      let a := { a with explored := sadd a.explored current }
      let a :=
        if current ≠ a.start ∧ current ≠ a.target then
          { a with cell_states := setCell a.cell_states current CellState.EXPLORED }
        else a
      if current = a.target then
        finish_search (reconstruct_path a) true
      else
        let a := if depth < a.depth_limit then dls_expand a current depth else a
        { a with step_count := a.step_count + 1 }

/-- iddfs_step (algorithms.py lines 208-248).  On an empty frontier the
depth limit is incremented first; past 50 the search fails, otherwise the
explored set, frontier, predecessor map and overlay are rebuilt and the
call returns without expanding. -/
def iddfs_step (app : App) : App :=
  match app.frontier_d with
  | [] =>
    let a := { app with current_depth_limit := app.current_depth_limit + 1 }
    if a.current_depth_limit > 50 then finish_search a false
    else
      { a with explored := [],
               frontier_d := [(a.start, 0)],
               came_from := [(a.start, none)],
               cell_states := setCell (fun _ _ => CellState.NONE) a.start
                 CellState.FRONTIER }
  | (current, depth) :: rest =>
    let a := { app with frontier_d := rest }
    if current ∈ a.explored then a
    else
      let a := { a with explored := sadd a.explored current }
      let a :=
        if current ≠ a.start ∧ current ≠ a.target then
          { a with cell_states := setCell a.cell_states current CellState.EXPLORED }
        else a
      if current = a.target then
        finish_search (reconstruct_path a) true
      else
        let a :=
          if depth < a.current_depth_limit then dls_expand a current depth else a
        { a with step_count := a.step_count + 1 }

/-- One iteration of the forward neighbor loop of bidirectional_step
(algorithms.py lines 272-277). -/
def bidi_push_forward (current : Node) (a : App) (neighbor : Node) : App :=
  if neighbor ∉ a.explored_forward ∧ neighbor ∉ a.frontier_forward then
    let a1 := { a with frontier_forward := a.frontier_forward ++ [neighbor],
                       came_from_forward := (neighbor, some current) :: a.came_from_forward }
    if neighbor ≠ a1.target then
      { a1 with cell_states := setCell a1.cell_states neighbor CellState.FRONTIER }
    else a1
  else a

/-- The forward neighbor loop of bidirectional_step (algorithms.py lines
272-277). -/
def bidi_expand_forward (app : App) (current : Node) : App :=
  (get_neighbors app.grid current).foldl (bidi_push_forward current) app

/-- One iteration of the backward neighbor loop of bidirectional_step
(algorithms.py lines 293-298). -/
def bidi_push_backward (current : Node) (a : App) (neighbor : Node) : App :=
  if neighbor ∉ a.explored_backward ∧ neighbor ∉ a.frontier_backward then
    let a1 := { a with frontier_backward := a.frontier_backward ++ [neighbor],
                       came_from_backward := (neighbor, some current) :: a.came_from_backward }
    if neighbor ≠ a1.start then
      { a1 with cell_states := setCell a1.cell_states neighbor CellState.FRONTIER2 }
    else a1
  else a

/-- The backward neighbor loop of bidirectional_step (algorithms.py lines
293-298). -/
def bidi_expand_backward (app : App) (current : Node) : App :=
  (get_neighbors app.grid current).foldl (bidi_push_backward current) app

/-- The forward branch of bidirectional_step (algorithms.py lines 258-277).
The caller guarantees a non-empty forward frontier. -/
def bidi_forward (app : App) : App :=
  match app.frontier_forward with
  | [] => app
  | current :: rest =>
    let a := { app with frontier_forward := rest,
                        explored_forward := sadd app.explored_forward current }
    let a :=
      if current ≠ a.start then
        { a with cell_states := setCell a.cell_states current CellState.EXPLORED }
      else a
    if current ∈ a.explored_backward then
      finish_search
        (reconstruct_bidirectional_path { a with meeting_point := some current }) true
    else
      let a := bidi_expand_forward a current
      { a with step_count := a.step_count + 1 }

/-- The backward branch of bidirectional_step (algorithms.py lines
279-298). -/
def bidi_backward (app : App) : App :=
  match app.frontier_backward with
  | [] => app
  | current :: rest =>
    let a := { app with frontier_backward := rest,
                        explored_backward := sadd app.explored_backward current }
    let a :=
      if current ≠ a.target then
        { a with cell_states := setCell a.cell_states current CellState.EXPLORED2 }
      else a
    if current ∈ a.explored_forward then
      finish_search
        (reconstruct_bidirectional_path { a with meeting_point := some current }) true
    else
      let a := bidi_expand_backward a current
      { a with step_count := a.step_count + 1 }

/-- bidirectional_step (algorithms.py lines 251-300).  When the parity
selects the forward side but its frontier is empty, the backward side runs;
when the parity selects the backward side and its frontier is empty, the
tick only increments the counter (the final `app.step_count += 1`). -/
def bidirectional_step (app : App) : App :=
  if app.frontier_forward = [] ∧ app.frontier_backward = [] then
    finish_search app false
  else if app.step_count % 2 = 0 ∧ app.frontier_forward ≠ [] then
    bidi_forward app
  else if app.frontier_backward ≠ [] then
    bidi_backward app
  else
    { app with step_count := app.step_count + 1 }

/-- The six algorithm identifiers (app.algorithms in app.py). -/
inductive Algo where
  | BFS
  | DFS
  | UCS
  | DLS
  | IDDFS
  | Bidirectional
deriving DecidableEq, Repr

/-- algorithm_step (algorithms.py lines 303-318). -/
def algorithm_step : Algo → App → App
  | Algo.BFS => bfs_step
  | Algo.DFS => dfs_step
  | Algo.UCS => ucs_step
  | Algo.DLS => dls_step
  | Algo.IDDFS => iddfs_step
  | Algo.Bidirectional => bidirectional_step

/-- The state right after clear_search (grid.py lines 33-52) and
create_cell_states, before the per-algorithm initialisation: every
run-scoped container empty.  `depth_limit` is the externally configured
DLS limit (app default 20, clamped to 5..100 by the configuration layer). -/
def clearedApp (g : Grid) (s t : Node) (dl : Nat) : App :=
  { grid := g, start := s, target := t,
    frontier := [], frontier_pq := [], frontier_d := [],
    frontier_forward := [], frontier_backward := [],
    explored := [], explored_forward := [], explored_backward := [],
    came_from := [], came_from_forward := [], came_from_backward := [],
    cost_so_far := [], final_path := [],
    cell_states := fun _ _ => CellState.NONE,
    searching := false, search_complete := false, success := false,
    step_count := 0, depth_limit := dl, current_depth_limit := 0,
    meeting_point := none }

/-- start_search (app.py lines 196-246): clear the run-scoped state, then
initialise the selected algorithm's frontier, predecessor map(s) and
overlay, and enter the Running state. -/
def start_search (algo : Algo) (g : Grid) (s t : Node) (dl : Nat) : App :=
  let base := clearedApp g s t dl
  let cs0 := setCell base.cell_states s CellState.FRONTIER
  match algo with
  | Algo.BFS =>
    { base with searching := true, frontier := [s],
                came_from := [(s, none)], cell_states := cs0 }
  | Algo.DFS =>
    { base with searching := true, frontier := [s],
                came_from := [(s, none)], cell_states := cs0 }
  | Algo.UCS =>
    { base with searching := true, frontier_pq := [(0, s)],
                came_from := [(s, none)], cost_so_far := [(s, 0)],
                cell_states := cs0 }
  | Algo.DLS =>
    { base with searching := true, frontier_d := [(s, 0)],
                came_from := [(s, none)], cell_states := cs0 }
  | Algo.IDDFS =>
    { base with searching := true, current_depth_limit := 0,
                frontier_d := [(s, 0)], came_from := [(s, none)],
                cell_states := cs0 }
  | Algo.Bidirectional =>
    { base with searching := true,
                frontier_forward := [s], frontier_backward := [t],
                came_from_forward := [(s, none)],
                came_from_backward := [(t, none)],
                cell_states := setCell cs0 t CellState.FRONTIER2 }

/-- One driver tick (app.py update, lines 383-389): the step function runs
only while the search is active. -/
def tick (f : App → App) (a : App) : App :=
  if a.searching then f a else a

/-- Repeated external ticks of the driver loop. -/
def run (f : App → App) : Nat → App → App
  | 0, a => a
  | n + 1, a => run f n (tick f a)

/-- Total per-step move cost summed along a node sequence. -/
def pathCost : List Node → ℚ
  | [] => 0
  | [_] => 0
  | a :: b :: rest => get_move_cost a b + pathCost (b :: rest)

/-- Hop count of a reported path: one less than its node count. -/
def pathHops (p : List Node) : Nat := p.length - 1

/-- One legal move of the neighbor model: `b` is among the neighbors the
model returns for `a`. -/
def Adj (g : Grid) (a b : Node) : Prop := b ∈ get_neighbors g a

instance (g : Grid) (a b : Node) : Decidable (Adj g a b) :=
  inferInstanceAs (Decidable (b ∈ get_neighbors g a))

/-- Boolean check that every consecutive pair of a node sequence is a
legal move. -/
def validWalkB (g : Grid) : List Node → Bool
  | [] => true
  | [_] => true
  | a :: b :: rest => decide (Adj g a b) && validWalkB g (b :: rest)

/-- A wall-avoiding walk: every consecutive pair is a legal move. -/
def ValidWalk (g : Grid) (l : List Node) : Prop := validWalkB g l = true

instance (g : Grid) (l : List Node) : Decidable (ValidWalk g l) :=
  inferInstanceAs (Decidable (validWalkB g l = true))

/-- Reachability in the six-direction neighbor model. -/
def Reaches (g : Grid) (s t : Node) : Prop :=
  Relation.ReflTransGen (Adj g) s t

/-- Colour triples used by the renderer (constants.py, class Colors). -/
abbrev Color := Nat × Nat × Nat

/-- Colors.START. -/
def colorSTART : Color := (39, 174, 96)

/-- Colors.TARGET. -/
def colorTARGET : Color := (231, 76, 60)

/-- Colors.FRONTIER. -/
def colorFRONTIER : Color := (243, 156, 18)

/-- Colors.EXPLORED. -/
def colorEXPLORED : Color := (52, 152, 219)

/-- Colors.PATH. -/
def colorPATH : Color := (155, 89, 182)

/-- Colors.FRONTIER2. -/
def colorFRONTIER2 : Color := (230, 126, 34)

/-- Colors.EXPLORED2. -/
def colorEXPLORED2 : Color := (26, 188, 156)

/-- Colors.WALL. -/
def colorWALL : Color := (44, 62, 80)

/-- Colors.EMPTY. -/
def colorEMPTY : Color := (255, 255, 255)

/-- get_cell_color (ui.py lines 41-62): the rendering precedence
Start/Target type, then Path, Frontier, Frontier2, Explored, Explored2,
Wall, Empty. -/
def get_cell_color (g : Grid) (cs : Int → Int → CellState) (row col : Int) :
    Color :=
  let cell_type := g.cell row col
  let cell_state := cs row col
  if cell_type = CellType.START then colorSTART
  else if cell_type = CellType.TARGET then colorTARGET
  else if cell_state = CellState.PATH then colorPATH
  else if cell_state = CellState.FRONTIER then colorFRONTIER
  else if cell_state = CellState.FRONTIER2 then colorFRONTIER2
  else if cell_state = CellState.EXPLORED then colorEXPLORED
  else if cell_state = CellState.EXPLORED2 then colorEXPLORED2
  else if cell_type = CellType.WALL then colorWALL
  else colorEMPTY

/-- A concrete grid builder for test configurations: start and target cell
kinds placed as the editor does, walls elsewhere from a list. -/
def mkGrid (rows cols : Int) (walls : List Node) (s t : Node) : Grid :=
  { rows := rows, cols := cols,
    cell := fun r c =>
      if (r, c) = t then CellType.TARGET
      else if (r, c) = s then CellType.START
      else if (r, c) ∈ walls then CellType.WALL
      else CellType.EMPTY }

/-- A 1x1 grid whose single cell is both Start and Target. -/
def grid1x1 : Grid := mkGrid 1 1 [] (0, 0) (0, 0)

/-- A 1x2 empty grid with Start (0,0) and Target (0,1). -/
def grid1x2 : Grid := mkGrid 1 2 [] (0, 0) (0, 1)

/-- A 2x2 empty grid with Start (0,0) and Target (1,0). -/
def grid2x2 : Grid := mkGrid 2 2 [] (0, 0) (1, 0)

/-- A 3x3 grid with walls separating the Target (2,0) from the Start
(0,0): the walls (1,0), (1,1), (2,1) enclose the target corner. -/
def grid3x3 : Grid := mkGrid 3 3 [(1, 0), (1, 1), (2, 1)] (0, 0) (2, 0)

/-- A 1x5 grid with a wall at (0,3) isolating the Target (0,4) from the
Start (0,0). -/
def grid1x5 : Grid := mkGrid 1 5 [(0, 3)] (0, 0) (0, 4)

/-- A 2x3 empty grid with Start (0,0) and Target (1,2). -/
def grid2x3 : Grid := mkGrid 2 3 [] (0, 0) (1, 2)

/-- A coordinate pair lying inside the grid extent. -/
def InBounds (g : Grid) (x : Node) : Prop :=
  0 ≤ x.1 ∧ x.1 < g.rows ∧ 0 ≤ x.2 ∧ x.2 < g.cols

instance (g : Grid) (x : Node) : Decidable (InBounds g x) :=
  inferInstanceAs (Decidable (0 ≤ x.1 ∧ x.1 < g.rows ∧ 0 ≤ x.2 ∧ x.2 < g.cols))

/-- The finite set of in-bounds coordinates of a grid. -/
def gridFinset (g : Grid) : Finset Node :=
  Finset.Icc 0 (g.rows - 1) ×ˢ Finset.Icc 0 (g.cols - 1)

/-- One more than the number of grid cells: an upper bound on the size of
any visited set (the start node may lie outside the grid in the model). -/
def searchBound (g : Grid) : Nat :=
  g.rows.toNat * g.cols.toNat + 1

/-- Termination measure for the single-frontier queue/stack algorithms. -/
def bfsMeasure (g : Grid) (a : App) : Nat :=
  (searchBound g - a.explored.length) * 7 + a.frontier.length

/-- Termination measure for uniform-cost search. -/
def ucsMeasure (g : Grid) (a : App) : Nat :=
  (searchBound g - a.explored.length) * 7 + a.frontier_pq.length

/-- Termination measure for depth-limited search. -/
def dlsMeasure (g : Grid) (a : App) : Nat :=
  (searchBound g - a.explored.length) * 7 + a.frontier_d.length

/-- Termination measure for iterative deepening: the depth bound is capped
at 50, and each bound phase is bounded like depth-limited search. -/
def iddfsMeasure (g : Grid) (a : App) : Nat :=
  (51 - a.current_depth_limit) * (7 * searchBound g + 8) + dlsMeasure g a

/-- Termination measure for bidirectional search; the parity term accounts
for the tick that only advances the counter. -/
def bidiMeasure (g : Grid) (a : App) : Nat :=
  (searchBound g - a.explored_forward.length) * 7 +
    (searchBound g - a.explored_backward.length) * 7 +
    a.frontier_forward.length + a.frontier_backward.length + a.step_count % 2

/-- Run invariant of the four unidirectional searches: the run is active
with no success recorded, the fixed parameters are intact, all frontier
and visited nodes are reachable from the start, every such node is the
start itself or in bounds, and the visited set is duplicate-free.
`frontierN` projects the algorithm-specific frontier to its node list. -/
structure SearchInv (g : Grid) (s t : Node) (frontierN : App → List Node)
    (a : App) : Prop where
  hgrid : a.grid = g
  hstart : a.start = s
  htarget : a.target = t
  hsearching : a.searching = true
  hsuccess : a.success = false
  fr_reach : ∀ x ∈ frontierN a, Reaches g s x
  fr_ok : ∀ x ∈ frontierN a, x = s ∨ InBounds g x
  ex_reach : ∀ x ∈ a.explored, Reaches g s x
  ex_ok : ∀ x ∈ a.explored, x = s ∨ InBounds g x
  ex_nodup : a.explored.Nodup

/-- Extra invariant of the breadth-first frontier: enqueue-time
suppression keeps it duplicate-free and disjoint from the visited set. -/
structure BfsInv (g : Grid) (s t : Node) (a : App) extends
    SearchInv g s t App.frontier a : Prop where
  fr_nodup : a.frontier.Nodup
  fr_fresh : ∀ x ∈ a.frontier, x ∉ a.explored

/-- Run invariant of bidirectional search: both sides carry breadth-first
frontier/visited invariants, forward from the start and backward from the
target. -/
structure BidiInv (g : Grid) (s t : Node) (a : App) : Prop where
  hgrid : a.grid = g
  hstart : a.start = s
  htarget : a.target = t
  hsearching : a.searching = true
  hsuccess : a.success = false
  ff_reach : ∀ x ∈ a.frontier_forward, Reaches g s x
  ff_ok : ∀ x ∈ a.frontier_forward, x = s ∨ InBounds g x
  ef_reach : ∀ x ∈ a.explored_forward, Reaches g s x
  ef_ok : ∀ x ∈ a.explored_forward, x = s ∨ InBounds g x
  ef_nodup : a.explored_forward.Nodup
  ff_nodup : a.frontier_forward.Nodup
  ff_fresh : ∀ x ∈ a.frontier_forward, x ∉ a.explored_forward
  fb_reach : ∀ x ∈ a.frontier_backward, Reaches g t x
  fb_ok : ∀ x ∈ a.frontier_backward, x = t ∨ InBounds g x
  eb_reach : ∀ x ∈ a.explored_backward, Reaches g t x
  eb_ok : ∀ x ∈ a.explored_backward, x = t ∨ InBounds g x
  eb_nodup : a.explored_backward.Nodup
  fb_nodup : a.frontier_backward.Nodup
  fb_fresh : ∀ x ∈ a.frontier_backward, x ∉ a.explored_backward

/-- A walk in the movement model: a non-empty node sequence from u to v
whose consecutive pairs are all legal moves. -/
def IsWalk (g : Grid) (u v : Node) (W : List Node) : Prop :=
  W.head? = some u ∧ W.getLast? = some v ∧ List.Chain' (Adj g) W

/-- The predecessor chain recorded for a node by a PredecessorMap: the
unique root-to-node key sequence the map's lookups produce.  A derivation
exists exactly when the lookup walk reaches a root entry. -/
inductive Chains (cf : CameFrom) : Node → List Node → Prop where
  | root (v : Node) : lookupA cf v = some none → Chains cf v [v]
  | step (v p : Node) (W : List Node) : lookupA cf v = some (some p) →
      Chains cf p W → Chains cf v (W ++ [v])

/-- Well-formedness of a unidirectional PredecessorMap over a run rooted
at `s`: every recorded node has a duplicate-free predecessor chain that is
a legal walk from the root, whose nodes before the endpoint already lie in
the visited set, every chain node being the root or an in-bounds non-wall
cell. -/
def CFOk (g : Grid) (s : Node) (cf : CameFrom) (ex : List Node) : Prop :=
  ∀ v q, lookupA cf v = some q →
    ∃ W, Chains cf v W ∧ W.Nodup ∧ IsWalk g s v W ∧
      (∀ x ∈ W.dropLast, x ∈ ex) ∧
      (∀ x ∈ W, x = s ∨ (InBounds g x ∧ g.cell x.1 x.2 ≠ CellType.WALL))

/-- Cost-aware well-formedness of the uniform-cost PredecessorMap: every
node of the CostMap carries a chain whose accumulated move cost equals its
recorded cost. -/
def CFCost (g : Grid) (s : Node) (cf : CameFrom) (csf : List (Node × ℚ))
    (ex : List Node) : Prop :=
  ∀ v cv, lookupA csf v = some cv →
    ∃ W, Chains cf v W ∧ W.Nodup ∧ IsWalk g s v W ∧ pathCost W = cv ∧
      (∀ x ∈ W.dropLast, x ∈ ex) ∧
      (∀ x ∈ W, x = s ∨ (InBounds g x ∧ g.cell x.1 x.2 ≠ CellType.WALL))

/-- What a terminal success state reports, for any algorithm: the path
cost is at least one (the duplicated start contributes a unit step), and,
when the Target cell is in bounds and not a wall, the reported cost
dominates 1 plus the cost of an actual legal Start-to-Target walk. -/
def PostAny (g : Grid) (s t : Node) (a : App) : Prop :=
  1 ≤ pathCost a.final_path ∧
  ((InBounds g t ∧ g.cell t.1 t.2 ≠ CellType.WALL) →
    ∃ W, IsWalk g s t W ∧ 1 + pathCost W ≤ pathCost a.final_path)

/-- What a terminal uniform-cost success state reports: 1 plus a
nonnegative cost that lower-bounds the cost of every legal Start-to-Target
walk, the Target being the Start or an in-bounds non-wall cell. -/
def PostUcs (g : Grid) (s t : Node) (a : App) : Prop :=
  ∃ ct : ℚ, pathCost a.final_path = 1 + ct ∧ 0 ≤ ct ∧
    (∀ W, IsWalk g s t W → ct ≤ pathCost W) ∧
    (t = s ∨ (InBounds g t ∧ g.cell t.1 t.2 ≠ CellType.WALL)) ∧
    (∃ W, IsWalk g s t W ∧ pathCost W = ct)

/-- Run invariant of the predecessor structure shared by the four
unidirectional algorithms, over the algorithm's frontier node
projection. -/
structure CfInv (g : Grid) (s t : Node) (frontierN : App → List Node)
    (a : App) : Prop where
  hgrid : a.grid = g
  hstart : a.start = s
  htarget : a.target = t
  hsuccess : a.success = false
  hinit : (a.explored = [] ∧ a.came_from = [(s, none)]) ∨ s ∈ a.explored
  frKeys : ∀ v ∈ frontierN a, ∃ q, lookupA a.came_from v = some q
  exKeys : ∀ v ∈ a.explored, ∃ q, lookupA a.came_from v = some q
  cfok : CFOk g s a.came_from a.explored

/-- Run invariant of uniform-cost search: the Dijkstra facts needed for
optimality of the reported path.  `exCost` freezes an optimal cost for
every visited node, `nb` bounds the cost of every boundary node, `entries`
and `freshEntry` tie the heap to the CostMap, and `chains` ties the
CostMap to the PredecessorMap. -/
structure UcsInv (g : Grid) (s t : Node) (a : App) : Prop where
  hgrid : a.grid = g
  hstart : a.start = s
  htarget : a.target = t
  hsuccess : a.success = false
  hinit : (a.explored = [] ∧ a.frontier_pq = [((0 : ℚ), s)]
            ∧ a.cost_so_far = [(s, 0)] ∧ a.came_from = [(s, none)])
          ∨ s ∈ a.explored
  exCost : ∀ u ∈ a.explored, ∃ cu, lookupA a.cost_so_far u = some cu ∧
    ∀ W, IsWalk g s u W → cu ≤ pathCost W
  nb : ∀ u ∈ a.explored, ∀ cu, lookupA a.cost_so_far u = some cu →
    ∀ v ∈ get_neighbors g u, v ∉ a.explored →
      ∃ cv, lookupA a.cost_so_far v = some cv ∧
        cv ≤ cu + get_move_cost u v
  entries : ∀ e v, (e, v) ∈ a.frontier_pq →
    ∃ cv, lookupA a.cost_so_far v = some cv ∧ cv ≤ e
  freshEntry : ∀ v cv, lookupA a.cost_so_far v = some cv →
    v ∉ a.explored → (cv, v) ∈ a.frontier_pq
  chains : CFCost g s a.came_from a.cost_so_far a.explored

/-- Run invariant of the two predecessor structures of bidirectional
search. -/
structure BidiCfInv (g : Grid) (s t : Node) (a : App) : Prop where
  hgrid : a.grid = g
  hstart : a.start = s
  htarget : a.target = t
  hsuccess : a.success = false
  hinitF : (a.explored_forward = [] ∧ a.came_from_forward = [(s, none)])
           ∨ s ∈ a.explored_forward
  hinitB : (a.explored_backward = [] ∧ a.came_from_backward = [(t, none)])
           ∨ t ∈ a.explored_backward
  frKeysF : ∀ v ∈ a.frontier_forward, ∃ q, lookupA a.came_from_forward v = some q
  exKeysF : ∀ v ∈ a.explored_forward, ∃ q, lookupA a.came_from_forward v = some q
  frKeysB : ∀ v ∈ a.frontier_backward, ∃ q, lookupA a.came_from_backward v = some q
  exKeysB : ∀ v ∈ a.explored_backward, ∃ q, lookupA a.came_from_backward v = some q
  cfokF : CFOk g s a.came_from_forward a.explored_forward
  cfokB : CFOk g t a.came_from_backward a.explored_backward

/-- The part of the uniform-cost invariant threaded through the
relaxation loop of one expansion: the expanded node keeps its recorded
cost, heap entries dominate recorded costs, every recorded unvisited node
has a live heap entry at its recorded cost, chains carry exact costs,
visited costs are optimal, and every visited-to-unvisited boundary move
is covered. -/
def UcsAux (g : Grid) (s c : Node) (cu : ℚ) (A : App) : Prop :=
  lookupA A.cost_so_far c = some cu ∧
  (∀ e v, (e, v) ∈ A.frontier_pq →
    ∃ cv, lookupA A.cost_so_far v = some cv ∧ cv ≤ e) ∧
  (∀ v cv, lookupA A.cost_so_far v = some cv → v ∉ A.explored →
    (cv, v) ∈ A.frontier_pq) ∧
  CFCost g s A.came_from A.cost_so_far A.explored ∧
  (∀ u ∈ A.explored, ∃ c2, lookupA A.cost_so_far u = some c2 ∧
    ∀ W, IsWalk g s u W → c2 ≤ pathCost W) ∧
  (∀ u ∈ A.explored, u ≠ c → ∀ c2, lookupA A.cost_so_far u = some c2 →
    ∀ v ∈ get_neighbors g u, v ∉ A.explored →
      ∃ cv, lookupA A.cost_so_far v = some cv ∧
        cv ≤ c2 + get_move_cost u v)

/-- C1: on the 1x2 empty grid, breadth-first search terminates with
success but reports the path [(0,0), (0,0), (0,1)] of hop-count 2, while
[(0,0), (0,1)] is a wall-avoiding walk from Start to Target of hop-count 1
under the six-direction model; the reported sequence is not even a valid
walk, because its first pair repeats the start.  The minimality claim
fails on the code because reconstruct_path appends the start after the
predecessor walk has already emitted it. -/
theorem bfs_reported_path_not_minimal_on_grid1x2 :
    (run (algorithm_step Algo.BFS) 2
        (start_search Algo.BFS grid1x2 (0, 0) (0, 1) 20)).success = true
    ∧ (run (algorithm_step Algo.BFS) 2
        (start_search Algo.BFS grid1x2 (0, 0) (0, 1) 20)).final_path =
        [(0, 0), (0, 0), (0, 1)]
    ∧ pathHops (run (algorithm_step Algo.BFS) 2
        (start_search Algo.BFS grid1x2 (0, 0) (0, 1) 20)).final_path = 2
    ∧ ¬ ValidWalk grid1x2 (run (algorithm_step Algo.BFS) 2
        (start_search Algo.BFS grid1x2 (0, 0) (0, 1) 20)).final_path
    ∧ ValidWalk grid1x2 [(0, 0), (0, 1)]
    ∧ pathHops [((0 : Int), (0 : Int)), (0, 1)] = 1 := by
  decide

/-- C3: with Start equal to Target on the 1x1 grid, every one of the six
algorithms reports success, but each reconstructed path is
[(0,0), (0,0)] of length 2 rather than 1, and the bidirectional variant
needs two ticks and finishes with step counter 1 rather than 0 (its first
tick expands the start before the backward pop detects the meeting). -/
theorem start_eq_target_reports_length_two_paths :
    ((run (algorithm_step Algo.BFS) 1
        (start_search Algo.BFS grid1x1 (0, 0) (0, 0) 20)).success = true
      ∧ (run (algorithm_step Algo.BFS) 1
        (start_search Algo.BFS grid1x1 (0, 0) (0, 0) 20)).final_path =
          [(0, 0), (0, 0)]
      ∧ (run (algorithm_step Algo.BFS) 1
        (start_search Algo.BFS grid1x1 (0, 0) (0, 0) 20)).step_count = 0)
    ∧ ((run (algorithm_step Algo.DFS) 1
        (start_search Algo.DFS grid1x1 (0, 0) (0, 0) 20)).success = true
      ∧ (run (algorithm_step Algo.DFS) 1
        (start_search Algo.DFS grid1x1 (0, 0) (0, 0) 20)).final_path =
          [(0, 0), (0, 0)]
      ∧ (run (algorithm_step Algo.DFS) 1
        (start_search Algo.DFS grid1x1 (0, 0) (0, 0) 20)).step_count = 0)
    ∧ ((run (algorithm_step Algo.UCS) 1
        (start_search Algo.UCS grid1x1 (0, 0) (0, 0) 20)).success = true
      ∧ (run (algorithm_step Algo.UCS) 1
        (start_search Algo.UCS grid1x1 (0, 0) (0, 0) 20)).final_path =
          [(0, 0), (0, 0)]
      ∧ (run (algorithm_step Algo.UCS) 1
        (start_search Algo.UCS grid1x1 (0, 0) (0, 0) 20)).step_count = 0)
    ∧ ((run (algorithm_step Algo.DLS) 1
        (start_search Algo.DLS grid1x1 (0, 0) (0, 0) 20)).success = true
      ∧ (run (algorithm_step Algo.DLS) 1
        (start_search Algo.DLS grid1x1 (0, 0) (0, 0) 20)).final_path =
          [(0, 0), (0, 0)]
      ∧ (run (algorithm_step Algo.DLS) 1
        (start_search Algo.DLS grid1x1 (0, 0) (0, 0) 20)).step_count = 0)
    ∧ ((run (algorithm_step Algo.IDDFS) 1
        (start_search Algo.IDDFS grid1x1 (0, 0) (0, 0) 20)).success = true
      ∧ (run (algorithm_step Algo.IDDFS) 1
        (start_search Algo.IDDFS grid1x1 (0, 0) (0, 0) 20)).final_path =
          [(0, 0), (0, 0)]
      ∧ (run (algorithm_step Algo.IDDFS) 1
        (start_search Algo.IDDFS grid1x1 (0, 0) (0, 0) 20)).step_count = 0)
    ∧ ((run (algorithm_step Algo.Bidirectional) 1
        (start_search Algo.Bidirectional grid1x1 (0, 0) (0, 0) 20)).success = false
      ∧ (run (algorithm_step Algo.Bidirectional) 2
        (start_search Algo.Bidirectional grid1x1 (0, 0) (0, 0) 20)).success = true
      ∧ (run (algorithm_step Algo.Bidirectional) 2
        (start_search Algo.Bidirectional grid1x1 (0, 0) (0, 0) 20)).final_path =
          [(0, 0), (0, 0)]
      ∧ (run (algorithm_step Algo.Bidirectional) 2
        (start_search Algo.Bidirectional grid1x1 (0, 0) (0, 0) 20)).step_count = 1) := by
  decide

/-- C4: on the successful breadth-first run over the 1x2 grid the
reconstructed sequence is [(0,0), (0,0), (0,1)]: the start occurs twice,
so the sequence is not a chain in which each node occurs once.  The walk
from Target through the predecessor map already ends at the start (the
start is a key, mapped to None), and reconstruct_path appends the start
once more. -/
theorem reconstruct_duplicates_start_on_grid1x2 :
    (run (algorithm_step Algo.BFS) 2
        (start_search Algo.BFS grid1x2 (0, 0) (0, 1) 20)).success = true
    ∧ (run (algorithm_step Algo.BFS) 2
        (start_search Algo.BFS grid1x2 (0, 0) (0, 1) 20)).final_path =
        [(0, 0), (0, 0), (0, 1)]
    ∧ (run (algorithm_step Algo.BFS) 2
        (start_search Algo.BFS grid1x2 (0, 0) (0, 1) 20)).final_path.count
        ((0 : Int), (0 : Int)) = 2
    ∧ ¬ (run (algorithm_step Algo.BFS) 2
        (start_search Algo.BFS grid1x2 (0, 0) (0, 1) 20)).final_path.Nodup := by
  decide

/-- C5: on the successful bidirectional run over the 1x2 grid the
concatenated reconstructed path is [(0,0), (0,0), (0,1)]: it contains the
start twice, and its first consecutive pair is not a valid six-direction
neighbor move, so the claimed duplicate-freeness and move-validity both
fail.  The forward segment walk already ends at the start and
reconstruct_bidirectional_path prepends the start once more. -/
theorem bidirectional_path_invalid_on_grid1x2 :
    (run (algorithm_step Algo.Bidirectional) 3
        (start_search Algo.Bidirectional grid1x2 (0, 0) (0, 1) 20)).success = true
    ∧ (run (algorithm_step Algo.Bidirectional) 3
        (start_search Algo.Bidirectional grid1x2 (0, 0) (0, 1) 20)).final_path =
        [(0, 0), (0, 0), (0, 1)]
    ∧ ¬ (run (algorithm_step Algo.Bidirectional) 3
        (start_search Algo.Bidirectional grid1x2 (0, 0) (0, 1) 20)).final_path.Nodup
    ∧ ¬ ValidWalk grid1x2 (run (algorithm_step Algo.Bidirectional) 3
        (start_search Algo.Bidirectional grid1x2 (0, 0) (0, 1) 20)).final_path := by
  decide

/-- C6 counterexample: in depth-first search on the 2x2 empty grid, after
one tick the frontier is [(0,1), (1,0), (1,1)] and the node (1,1) is an
unexplored neighbor of the next expanded node (0,1); the second tick does
not enqueue it again (it occurs once in the frontier afterwards, not
twice), because dfs_step checks frontier membership at enqueue time.
Duplicate suppression in depth-first search is therefore not deferred to
pop time only. -/
theorem dfs_enqueue_checks_frontier_on_grid2x2 :
    (run (algorithm_step Algo.DFS) 1
        (start_search Algo.DFS grid2x2 (0, 0) (1, 0) 20)).frontier =
        [(0, 1), (1, 0), (1, 1)]
    ∧ (run (algorithm_step Algo.DFS) 1
        (start_search Algo.DFS grid2x2 (0, 0) (1, 0) 20)).explored = [(0, 0)]
    ∧ ((1 : Int), (1 : Int)) ∈ get_neighbors grid2x2 (0, 1)
    ∧ ((1 : Int), (1 : Int)) ∉ (run (algorithm_step Algo.DFS) 1
        (start_search Algo.DFS grid2x2 (0, 0) (1, 0) 20)).explored
    ∧ (run (algorithm_step Algo.DFS) 2
        (start_search Algo.DFS grid2x2 (0, 0) (1, 0) 20)).frontier =
        [(1, 0), (1, 1)]
    ∧ (run (algorithm_step Algo.DFS) 2
        (start_search Algo.DFS grid2x2 (0, 0) (1, 0) 20)).frontier.count
        ((1 : Int), (1 : Int)) = 1 := by
  decide

/-- C7 counterexample: in the bidirectional run on the 1x5 grid with the
target walled off, after three ticks the forward frontier is non-empty,
the backward frontier is empty and the step counter is odd (parity selects
the backward side).  The fourth tick performs no expansion at all - both
explored sets and the forward frontier are unchanged - and only the step
counter advances, contradicting the claim that the forward side would
proceed on that same tick. -/
theorem bidirectional_noop_tick_on_grid1x5 :
    (run (algorithm_step Algo.Bidirectional) 3
        (start_search Algo.Bidirectional grid1x5 (0, 0) (0, 4) 20)).searching = true
    ∧ (run (algorithm_step Algo.Bidirectional) 3
        (start_search Algo.Bidirectional grid1x5 (0, 0) (0, 4) 20)).frontier_forward =
        [(0, 2)]
    ∧ (run (algorithm_step Algo.Bidirectional) 3
        (start_search Algo.Bidirectional grid1x5 (0, 0) (0, 4) 20)).frontier_backward = []
    ∧ (run (algorithm_step Algo.Bidirectional) 3
        (start_search Algo.Bidirectional grid1x5 (0, 0) (0, 4) 20)).step_count = 3
    ∧ (run (algorithm_step Algo.Bidirectional) 4
        (start_search Algo.Bidirectional grid1x5 (0, 0) (0, 4) 20)).explored_forward =
      (run (algorithm_step Algo.Bidirectional) 3
        (start_search Algo.Bidirectional grid1x5 (0, 0) (0, 4) 20)).explored_forward
    ∧ (run (algorithm_step Algo.Bidirectional) 4
        (start_search Algo.Bidirectional grid1x5 (0, 0) (0, 4) 20)).explored_backward =
      (run (algorithm_step Algo.Bidirectional) 3
        (start_search Algo.Bidirectional grid1x5 (0, 0) (0, 4) 20)).explored_backward
    ∧ (run (algorithm_step Algo.Bidirectional) 4
        (start_search Algo.Bidirectional grid1x5 (0, 0) (0, 4) 20)).frontier_forward =
        [(0, 2)]
    ∧ (run (algorithm_step Algo.Bidirectional) 4
        (start_search Algo.Bidirectional grid1x5 (0, 0) (0, 4) 20)).step_count = 4 := by
  decide

/-- C9 counterexample: in the depth-limited run on the 3x3 walled grid,
after five ticks the search is still running and the frontier holds the
stale pair ((1,2), 2) whose node is already explored; the sixth tick pops
it and returns immediately - the visited set, the overlay and the step
counter are all unchanged - so a step on a non-terminal state need not
update the visited set nor increment the counter. -/
theorem dls_duplicate_pop_skips_updates_on_grid3x3 :
    (run (algorithm_step Algo.DLS) 5
        (start_search Algo.DLS grid3x3 (0, 0) (2, 0) 20)).searching = true
    ∧ (run (algorithm_step Algo.DLS) 5
        (start_search Algo.DLS grid3x3 (0, 0) (2, 0) 20)).frontier_d =
        [((1, 2), 2)]
    ∧ ((1 : Int), (2 : Int)) ∈ (run (algorithm_step Algo.DLS) 5
        (start_search Algo.DLS grid3x3 (0, 0) (2, 0) 20)).explored
    ∧ (run (algorithm_step Algo.DLS) 6
        (start_search Algo.DLS grid3x3 (0, 0) (2, 0) 20)).explored =
      (run (algorithm_step Algo.DLS) 5
        (start_search Algo.DLS grid3x3 (0, 0) (2, 0) 20)).explored
    ∧ (run (algorithm_step Algo.DLS) 6
        (start_search Algo.DLS grid3x3 (0, 0) (2, 0) 20)).step_count = 5
    ∧ (run (algorithm_step Algo.DLS) 5
        (start_search Algo.DLS grid3x3 (0, 0) (2, 0) 20)).step_count = 5 := by
  decide

/-- C8 counterexample: the move cost of the included diagonal step from
(0,0) to (1,1) is the rational literal 1.414 (the float literal in
get_move_cost), which is not equal to the square root of two; so the cost
of a diagonal step is not exactly the square root of two. -/
theorem diagonal_cost_not_sqrt_two :
    get_move_cost (0, 0) (1, 1) = 1414 / 1000
    ∧ ((get_move_cost ((0 : Int), (0 : Int)) (1, 1) : ℚ) : ℝ) ≠ Real.sqrt 2 := by
  have he : get_move_cost ((0 : Int), (0 : Int)) (1, 1) = 1414 / 1000 := by
    unfold get_move_cost
    norm_num
  refine ⟨he, ?_⟩
  intro h
  rw [he] at h
  have hs : Real.sqrt 2 ^ 2 = 2 := Real.sq_sqrt (by norm_num)
  have h2 : ((1414 / 1000 : ℚ) : ℝ) ^ 2 = 2 := by rw [h]; exact hs
  norm_num at h2

/-- Costs through a fixed movement offset, in terms of the offset. -/
theorem get_move_cost_offset (n : Node) (dr dc : Int) :
    get_move_cost n (n.1 + dr, n.2 + dc) =
      if |dr| + |dc| = 2 then 1414 / 1000 else 1 := by
  unfold get_move_cost
  have h1 : n.1 - (n.1 + dr) = -dr := by ring
  have h2 : n.2 - (n.2 + dc) = -dc := by ring
  rw [h1, h2, abs_neg, abs_neg]

/-- C8 amended: for every pair of grid-adjacent nodes the move cost is
exactly 1.0 for the four axis-aligned steps and exactly 1.414 (the
programmed approximation of the square root of two) for the two included
diagonal steps. -/
theorem neighbor_move_costs (g : Grid) (n m : Node)
    (h : m ∈ get_neighbors g n) :
    get_move_cost n m =
      if m = (n.1 + 1, n.2 + 1) ∨ m = (n.1 - 1, n.2 - 1) then 1414 / 1000
      else 1 := by
  simp only [get_neighbors, List.mem_filterMap] at h
  obtain ⟨d, hd, hm⟩ := h
  split at hm
  · simp only [Option.some.injEq] at hm
    subst hm
    simp only [movements, List.mem_cons, List.not_mem_nil, or_false] at hd
    rcases hd with rfl | rfl | rfl | rfl | rfl | rfl
    · rw [get_move_cost_offset, if_neg (by decide),
        if_neg (by rintro (h | h) <;> rw [Prod.mk.injEq] at h <;> omega)]
    · rw [get_move_cost_offset, if_neg (by decide),
        if_neg (by rintro (h | h) <;> rw [Prod.mk.injEq] at h <;> omega)]
    · rw [get_move_cost_offset, if_neg (by decide),
        if_neg (by rintro (h | h) <;> rw [Prod.mk.injEq] at h <;> omega)]
    · rw [get_move_cost_offset, if_pos (by decide),
        if_pos (Or.inl (by rw [Prod.mk.injEq]; constructor <;> ring))]
    · rw [get_move_cost_offset, if_neg (by decide),
        if_neg (by rintro (h | h) <;> rw [Prod.mk.injEq] at h <;> omega)]
    · rw [get_move_cost_offset, if_pos (by decide),
        if_pos (Or.inr (by rw [Prod.mk.injEq]; constructor <;> ring))]
  · exact absurd hm (by simp)

/-- C8 witness: the diagonal neighbor (1,1) of (0,0) on the empty 2x2 grid
costs exactly 1.414. -/
theorem neighbor_move_costs_witness :
    ((1 : Int), (1 : Int)) ∈ get_neighbors grid2x2 (0, 0)
    ∧ get_move_cost ((0 : Int), (0 : Int)) (1, 1) = 1414 / 1000 := by
  refine ⟨by decide, ?_⟩
  have h := neighbor_move_costs grid2x2 (0, 0) (1, 1) (by decide)
  simpa using h

/-- A field untouched by every iteration of a fold body is untouched by
the whole fold. -/
theorem foldl_preserves {α β γ : Type} (f : β → γ) (body : β → α → β)
    (hb : ∀ b x, f (body b x) = f b) :
    ∀ (l : List α) (b : β), f (l.foldl body b) = f b
  | [], _ => rfl
  | x :: l, b => by
    rw [List.foldl_cons, foldl_preserves f body hb l, hb]

theorem dls_push_explored (c : Node) (d : Nat) (a : App) (n : Node) :
    (dls_push c d a n).explored = a.explored := by
  unfold dls_push
  dsimp only
  repeat' split
  all_goals rfl

theorem dls_push_frontier_d (c : Node) (d : Nat) (a : App) (n : Node) :
    (dls_push c d a n).frontier_d =
      if n ∈ a.explored then a.frontier_d else (n, d + 1) :: a.frontier_d := by
  unfold dls_push
  dsimp only
  by_cases hn : n ∈ a.explored
  · rw [if_neg (by simp [hn]), if_pos hn]
  · rw [if_pos (by simp [hn]), if_neg hn]
    repeat' split
    all_goals rfl

theorem foldl_dls_push_frontier_d (c : Node) (d : Nat) :
    ∀ (l : List Node) (a : App),
    (l.foldl (dls_push c d) a).frontier_d =
      ((l.filter fun n => decide (n ∉ a.explored)).reverse.map
        fun n => (n, d + 1)) ++ a.frontier_d
  | [], a => by simp
  | x :: l, a => by
    rw [List.foldl_cons, foldl_dls_push_frontier_d c d l (dls_push c d a x)]
    rw [dls_push_explored, dls_push_frontier_d]
    by_cases hx : x ∈ a.explored
    · simp [hx]
    · simp [hx]

/-- The push loop of depth-limited and iterative-deepening search enqueues
exactly the non-explored neighbors, in order, regardless of what is
already in the frontier. -/
theorem dls_expand_frontier_d (a : App) (c : Node) (d : Nat) :
    (dls_expand a c d).frontier_d =
      (((get_neighbors a.grid c).filter fun n => decide (n ∉ a.explored)).map
        fun n => (n, d + 1)) ++ a.frontier_d := by
  rw [dls_expand, foldl_dls_push_frontier_d, List.filter_reverse,
    List.reverse_reverse]

/-- C6 amended: in depth-limited and iterative-deepening search the
neighbors are enqueued with no frontier membership check - every neighbor
outside the visited set is pushed, even when an entry for it is already in
the frontier - and a popped node that is already visited is discarded with
no other effect on the state (lazy pop-time suppression); depth-first
search also discards already-visited pops lazily, but (unlike the claim)
its enqueue loop does check frontier membership, as the counterexample
shows. -/
theorem dls_iddfs_deferred_duplicate_suppression (a : App) (c : Node)
    (d : Nat) (rest : List (Node × Nat)) (restN : List Node) :
    (a.frontier_d = (c, d) :: rest → c ∈ a.explored →
      dls_step a = { a with frontier_d := rest }
      ∧ iddfs_step a = { a with frontier_d := rest })
    ∧ (a.frontier = c :: restN → c ∈ a.explored →
      dfs_step a = { a with frontier := restN })
    ∧ ((dls_expand a c d).frontier_d =
        (((get_neighbors a.grid c).filter fun n => decide (n ∉ a.explored)).map
          fun n => (n, d + 1)) ++ a.frontier_d) := by
  refine ⟨fun h hc => ⟨?_, ?_⟩, fun h hc => ?_, dls_expand_frontier_d a c d⟩
  · unfold dls_step
    rw [h]
    exact if_pos hc
  · unfold iddfs_step
    rw [h]
    exact if_pos hc
  · unfold dfs_step
    rw [h]
    exact if_pos hc

/-- C6 witness: at the reachable depth-limited state on the 3x3 walled
grid whose frontier head ((1,2),2) carries an already-visited node, the
step discards the pair and changes nothing else. -/
theorem dls_iddfs_deferred_duplicate_suppression_witness :
    (run (algorithm_step Algo.DLS) 5
        (start_search Algo.DLS grid3x3 (0, 0) (2, 0) 20)).frontier_d =
      [((1, 2), 2)]
    ∧ dls_step (run (algorithm_step Algo.DLS) 5
        (start_search Algo.DLS grid3x3 (0, 0) (2, 0) 20)) =
      { (run (algorithm_step Algo.DLS) 5
          (start_search Algo.DLS grid3x3 (0, 0) (2, 0) 20)) with
        frontier_d := [] } := by
  refine ⟨by decide, ?_⟩
  exact ((dls_iddfs_deferred_duplicate_suppression
    (run (algorithm_step Algo.DLS) 5
      (start_search Algo.DLS grid3x3 (0, 0) (2, 0) 20))
    (1, 2) 2 [] []).1 (by decide) (by decide)).1

theorem bidi_push_forward_explored_forward (c : Node) (a : App) (n : Node) :
    (bidi_push_forward c a n).explored_forward = a.explored_forward := by
  unfold bidi_push_forward
  dsimp only
  repeat' split
  all_goals rfl

theorem bidi_push_forward_explored_backward (c : Node) (a : App) (n : Node) :
    (bidi_push_forward c a n).explored_backward = a.explored_backward := by
  unfold bidi_push_forward
  dsimp only
  repeat' split
  all_goals rfl

theorem bidi_push_forward_frontier_backward (c : Node) (a : App) (n : Node) :
    (bidi_push_forward c a n).frontier_backward = a.frontier_backward := by
  unfold bidi_push_forward
  dsimp only
  repeat' split
  all_goals rfl

theorem bidi_push_backward_explored_backward (c : Node) (a : App) (n : Node) :
    (bidi_push_backward c a n).explored_backward = a.explored_backward := by
  unfold bidi_push_backward
  dsimp only
  repeat' split
  all_goals rfl

theorem bidi_push_backward_explored_forward (c : Node) (a : App) (n : Node) :
    (bidi_push_backward c a n).explored_forward = a.explored_forward := by
  unfold bidi_push_backward
  dsimp only
  repeat' split
  all_goals rfl

theorem bidi_push_backward_frontier_forward (c : Node) (a : App) (n : Node) :
    (bidi_push_backward c a n).frontier_forward = a.frontier_forward := by
  unfold bidi_push_backward
  dsimp only
  repeat' split
  all_goals rfl

theorem reconstruct_bidi_explored_forward (a : App) :
    (reconstruct_bidirectional_path a).explored_forward = a.explored_forward := by
  unfold reconstruct_bidirectional_path mark_path
  cases a.meeting_point <;> rfl

theorem reconstruct_bidi_explored_backward (a : App) :
    (reconstruct_bidirectional_path a).explored_backward = a.explored_backward := by
  unfold reconstruct_bidirectional_path mark_path
  cases a.meeting_point <;> rfl

theorem reconstruct_bidi_frontier_forward (a : App) :
    (reconstruct_bidirectional_path a).frontier_forward = a.frontier_forward := by
  unfold reconstruct_bidirectional_path mark_path
  cases a.meeting_point <;> rfl

theorem reconstruct_bidi_frontier_backward (a : App) :
    (reconstruct_bidirectional_path a).frontier_backward = a.frontier_backward := by
  unfold reconstruct_bidirectional_path mark_path
  cases a.meeting_point <;> rfl


theorem bidi_expand_forward_explored_forward (a : App) (c : Node) :
    (bidi_expand_forward a c).explored_forward = a.explored_forward :=
  foldl_preserves App.explored_forward (bidi_push_forward c)
    (bidi_push_forward_explored_forward c) _ a

theorem bidi_expand_forward_explored_backward (a : App) (c : Node) :
    (bidi_expand_forward a c).explored_backward = a.explored_backward :=
  foldl_preserves App.explored_backward (bidi_push_forward c)
    (bidi_push_forward_explored_backward c) _ a

theorem bidi_expand_forward_frontier_backward (a : App) (c : Node) :
    (bidi_expand_forward a c).frontier_backward = a.frontier_backward :=
  foldl_preserves App.frontier_backward (bidi_push_forward c)
    (bidi_push_forward_frontier_backward c) _ a

theorem bidi_forward_explored_forward (a : App) (c : Node) (rest : List Node)
    (hf : a.frontier_forward = c :: rest) :
    (bidi_forward a).explored_forward = sadd a.explored_forward c := by
  unfold bidi_forward
  rw [hf]
  dsimp only
  split <;> split <;>
    simp [finish_search, reconstruct_bidi_explored_forward,
      bidi_expand_forward_explored_forward]

theorem bidi_forward_explored_backward (a : App) (c : Node) (rest : List Node)
    (hf : a.frontier_forward = c :: rest) :
    (bidi_forward a).explored_backward = a.explored_backward := by
  unfold bidi_forward
  rw [hf]
  dsimp only
  split <;> split <;>
    simp [finish_search, reconstruct_bidi_explored_backward,
      bidi_expand_forward_explored_backward]

theorem bidi_forward_frontier_backward (a : App) (c : Node) (rest : List Node)
    (hf : a.frontier_forward = c :: rest) :
    (bidi_forward a).frontier_backward = a.frontier_backward := by
  unfold bidi_forward
  rw [hf]
  dsimp only
  split <;> split <;>
    simp [finish_search, reconstruct_bidi_frontier_backward,
      bidi_expand_forward_frontier_backward]

theorem bidi_expand_backward_explored_backward (a : App) (c : Node) :
    (bidi_expand_backward a c).explored_backward = a.explored_backward :=
  foldl_preserves App.explored_backward (bidi_push_backward c)
    (bidi_push_backward_explored_backward c) _ a

theorem bidi_expand_backward_explored_forward (a : App) (c : Node) :
    (bidi_expand_backward a c).explored_forward = a.explored_forward :=
  foldl_preserves App.explored_forward (bidi_push_backward c)
    (bidi_push_backward_explored_forward c) _ a

theorem bidi_expand_backward_frontier_forward (a : App) (c : Node) :
    (bidi_expand_backward a c).frontier_forward = a.frontier_forward :=
  foldl_preserves App.frontier_forward (bidi_push_backward c)
    (bidi_push_backward_frontier_forward c) _ a

theorem bidi_backward_explored_backward (a : App) (c : Node) (rest : List Node)
    (hb : a.frontier_backward = c :: rest) :
    (bidi_backward a).explored_backward = sadd a.explored_backward c := by
  unfold bidi_backward
  rw [hb]
  dsimp only
  split <;> split <;>
    simp [finish_search, reconstruct_bidi_explored_backward,
      bidi_expand_backward_explored_backward]

theorem bidi_backward_explored_forward (a : App) (c : Node) (rest : List Node)
    (hb : a.frontier_backward = c :: rest) :
    (bidi_backward a).explored_forward = a.explored_forward := by
  unfold bidi_backward
  rw [hb]
  dsimp only
  split <;> split <;>
    simp [finish_search, reconstruct_bidi_explored_forward,
      bidi_expand_backward_explored_forward]

theorem bidi_backward_frontier_forward (a : App) (c : Node) (rest : List Node)
    (hb : a.frontier_backward = c :: rest) :
    (bidi_backward a).frontier_forward = a.frontier_forward := by
  unfold bidi_backward
  rw [hb]
  dsimp only
  split <;> split <;>
    simp [finish_search, reconstruct_bidi_frontier_forward,
      bidi_expand_backward_frontier_forward]

/-- C7 amended (draft). -/
theorem bidirectional_parity_schedule (a : App) (c : Node) (rest : List Node) :
    (a.frontier_forward = [] → a.frontier_backward = [] →
      bidirectional_step a = finish_search a false)
    ∧ (a.step_count % 2 = 0 → a.frontier_forward = c :: rest →
      (bidirectional_step a).explored_forward = sadd a.explored_forward c
      ∧ (bidirectional_step a).explored_backward = a.explored_backward
      ∧ (bidirectional_step a).frontier_backward = a.frontier_backward)
    ∧ ((a.step_count % 2 ≠ 0 ∨ a.frontier_forward = []) →
        a.frontier_backward = c :: rest →
      (bidirectional_step a).explored_backward = sadd a.explored_backward c
      ∧ (bidirectional_step a).explored_forward = a.explored_forward
      ∧ (bidirectional_step a).frontier_forward = a.frontier_forward)
    ∧ (a.step_count % 2 ≠ 0 → a.frontier_backward = [] →
        a.frontier_forward ≠ [] →
      bidirectional_step a = { a with step_count := a.step_count + 1 }) := by
  refine ⟨fun hf hb => ?_, fun hp hf => ?_, fun hp hb => ?_, fun hp hb hf => ?_⟩
  · unfold bidirectional_step
    rw [if_pos ⟨hf, hb⟩]
  · have hstep : bidirectional_step a = bidi_forward a := by
      unfold bidirectional_step
      rw [if_neg (by simp [hf]), if_pos ⟨hp, by simp [hf]⟩]
    rw [hstep]
    exact ⟨bidi_forward_explored_forward a c rest hf,
      bidi_forward_explored_backward a c rest hf,
      bidi_forward_frontier_backward a c rest hf⟩
  · have hstep : bidirectional_step a = bidi_backward a := by
      unfold bidirectional_step
      rw [if_neg (by simp [hb]), if_neg (by rcases hp with hp | hp <;> simp [hp]),
        if_pos (by simp [hb])]
    rw [hstep]
    exact ⟨bidi_backward_explored_backward a c rest hb,
      bidi_backward_explored_forward a c rest hb,
      bidi_backward_frontier_forward a c rest hb⟩
  · unfold bidirectional_step
    rw [if_neg (by simp [hf]), if_neg (by simp [hp]), if_neg (by simp [hb])]

/-- C7 witness: on the 1x5 grid runs, an even tick with non-empty forward
frontier expands the forward side, and an odd tick with empty backward
frontier but non-empty forward frontier advances only the counter. -/
theorem bidirectional_parity_schedule_witness :
    (run (algorithm_step Algo.Bidirectional) 2
        (start_search Algo.Bidirectional grid1x5 (0, 0) (0, 4) 20)).step_count % 2 = 0
    ∧ (run (algorithm_step Algo.Bidirectional) 2
        (start_search Algo.Bidirectional grid1x5 (0, 0) (0, 4) 20)).frontier_forward =
        [(0, 1)]
    ∧ (bidirectional_step (run (algorithm_step Algo.Bidirectional) 2
        (start_search Algo.Bidirectional grid1x5 (0, 0) (0, 4) 20))).explored_forward =
      sadd (run (algorithm_step Algo.Bidirectional) 2
        (start_search Algo.Bidirectional grid1x5 (0, 0) (0, 4) 20)).explored_forward (0, 1)
    ∧ bidirectional_step (run (algorithm_step Algo.Bidirectional) 3
        (start_search Algo.Bidirectional grid1x5 (0, 0) (0, 4) 20)) =
      { (run (algorithm_step Algo.Bidirectional) 3
          (start_search Algo.Bidirectional grid1x5 (0, 0) (0, 4) 20)) with
        step_count := (run (algorithm_step Algo.Bidirectional) 3
          (start_search Algo.Bidirectional grid1x5 (0, 0) (0, 4) 20)).step_count + 1 } := by
  refine ⟨by decide, by decide, ?_, ?_⟩
  · exact ((bidirectional_parity_schedule (run (algorithm_step Algo.Bidirectional) 2
      (start_search Algo.Bidirectional grid1x5 (0, 0) (0, 4) 20)) (0, 1) []).2.1
      (by decide) (by decide)).1
  · exact (bidirectional_parity_schedule (run (algorithm_step Algo.Bidirectional) 3
      (start_search Algo.Bidirectional grid1x5 (0, 0) (0, 4) 20)) (0, 1) []).2.2.2
      (by decide) (by decide) (by decide)

/-- A field untouched by every iterated element of a list is untouched by
the fold over that list. -/
theorem foldl_preserves_of_mem {α β γ : Type} (f : β → γ) (body : β → α → β) :
    ∀ (l : List α), (∀ b x, x ∈ l → f (body b x) = f b) →
    ∀ b, f (l.foldl body b) = f b
  | [], _, _ => rfl
  | x :: l, hb, b => by
    rw [List.foldl_cons,
      foldl_preserves_of_mem f body l (fun b y hy => hb b y (List.mem_cons_of_mem x hy)) (body b x),
      hb b x (List.mem_cons_self x l)]

/-- A node is never its own neighbor: all movement offsets are nonzero. -/
theorem self_not_mem_neighbors (g : Grid) (n : Node) :
    n ∉ get_neighbors g n := by
  intro h
  simp only [get_neighbors, List.mem_filterMap] at h
  obtain ⟨d, hd, hm⟩ := h
  split at hm
  · simp only [Option.some.injEq, Prod.ext_iff] at hm
    simp only [movements, List.mem_cons, List.not_mem_nil, or_false,
      Prod.ext_iff] at hd
    obtain ⟨h1, h2⟩ := hm
    rcases hd with ⟨e1, e2⟩ | ⟨e1, e2⟩ | ⟨e1, e2⟩ | ⟨e1, e2⟩ | ⟨e1, e2⟩ | ⟨e1, e2⟩ <;>
      rw [e1] at h1 <;> omega
  · exact absurd hm (by simp)

theorem bfs_push_explored (c : Node) (a : App) (n : Node) :
    (bfs_push c a n).explored = a.explored := by
  unfold bfs_push
  dsimp only
  repeat' split
  all_goals rfl

theorem bfs_push_step_count (c : Node) (a : App) (n : Node) :
    (bfs_push c a n).step_count = a.step_count := by
  unfold bfs_push
  dsimp only
  repeat' split
  all_goals rfl

theorem bfs_push_cells (c : Node) (a : App) (n q : Node) (hq : q ≠ n) :
    (bfs_push c a n).cell_states q.1 q.2 = a.cell_states q.1 q.2 := by
  have hq2 : ¬ (q.1 = n.1 ∧ q.2 = n.2) := fun h => hq (Prod.ext_iff.mpr h)
  unfold bfs_push
  dsimp only
  repeat' split
  all_goals simp [setCell, hq2]

theorem dfs_push_explored (c : Node) (a : App) (n : Node) :
    (dfs_push c a n).explored = a.explored := by
  unfold dfs_push
  dsimp only
  repeat' split
  all_goals rfl

theorem dfs_push_step_count (c : Node) (a : App) (n : Node) :
    (dfs_push c a n).step_count = a.step_count := by
  unfold dfs_push
  dsimp only
  repeat' split
  all_goals rfl

theorem dfs_push_cells (c : Node) (a : App) (n q : Node) (hq : q ≠ n) :
    (dfs_push c a n).cell_states q.1 q.2 = a.cell_states q.1 q.2 := by
  have hq2 : ¬ (q.1 = n.1 ∧ q.2 = n.2) := fun h => hq (Prod.ext_iff.mpr h)
  unfold dfs_push
  dsimp only
  repeat' split
  all_goals simp [setCell, hq2]

theorem ucs_push_explored (c : Node) (a : App) (n : Node) :
    (ucs_push c a n).explored = a.explored := by
  unfold ucs_push
  dsimp only
  repeat' split
  all_goals rfl

theorem ucs_push_step_count (c : Node) (a : App) (n : Node) :
    (ucs_push c a n).step_count = a.step_count := by
  unfold ucs_push
  dsimp only
  repeat' split
  all_goals rfl

theorem ucs_push_cells (c : Node) (a : App) (n q : Node) (hq : q ≠ n) :
    (ucs_push c a n).cell_states q.1 q.2 = a.cell_states q.1 q.2 := by
  have hq2 : ¬ (q.1 = n.1 ∧ q.2 = n.2) := fun h => hq (Prod.ext_iff.mpr h)
  unfold ucs_push
  dsimp only
  repeat' split
  all_goals simp [setCell, hq2]

theorem dls_push_step_count (c : Node) (d : Nat) (a : App) (n : Node) :
    (dls_push c d a n).step_count = a.step_count := by
  unfold dls_push
  dsimp only
  repeat' split
  all_goals rfl

theorem dls_push_cells (c : Node) (d : Nat) (a : App) (n q : Node) (hq : q ≠ n) :
    (dls_push c d a n).cell_states q.1 q.2 = a.cell_states q.1 q.2 := by
  have hq2 : ¬ (q.1 = n.1 ∧ q.2 = n.2) := fun h => hq (Prod.ext_iff.mpr h)
  unfold dls_push
  dsimp only
  repeat' split
  all_goals simp [setCell, hq2]

theorem bidi_push_forward_step_count (c : Node) (a : App) (n : Node) :
    (bidi_push_forward c a n).step_count = a.step_count := by
  unfold bidi_push_forward
  dsimp only
  repeat' split
  all_goals rfl

theorem bidi_push_forward_cells (c : Node) (a : App) (n q : Node) (hq : q ≠ n) :
    (bidi_push_forward c a n).cell_states q.1 q.2 = a.cell_states q.1 q.2 := by
  have hq2 : ¬ (q.1 = n.1 ∧ q.2 = n.2) := fun h => hq (Prod.ext_iff.mpr h)
  unfold bidi_push_forward
  dsimp only
  repeat' split
  all_goals simp [setCell, hq2]

theorem bidi_push_backward_step_count (c : Node) (a : App) (n : Node) :
    (bidi_push_backward c a n).step_count = a.step_count := by
  unfold bidi_push_backward
  dsimp only
  repeat' split
  all_goals rfl

theorem bidi_push_backward_cells (c : Node) (a : App) (n q : Node) (hq : q ≠ n) :
    (bidi_push_backward c a n).cell_states q.1 q.2 = a.cell_states q.1 q.2 := by
  have hq2 : ¬ (q.1 = n.1 ∧ q.2 = n.2) := fun h => hq (Prod.ext_iff.mpr h)
  unfold bidi_push_backward
  dsimp only
  repeat' split
  all_goals simp [setCell, hq2]

theorem bfs_expand_explored (a : App) (c : Node) :
    (bfs_expand a c).explored = a.explored :=
  foldl_preserves App.explored (bfs_push c) (bfs_push_explored c) _ a

theorem bfs_expand_step_count (a : App) (c : Node) :
    (bfs_expand a c).step_count = a.step_count :=
  foldl_preserves App.step_count (bfs_push c) (bfs_push_step_count c) _ a

theorem bfs_expand_cells (a : App) (c q : Node)
    (hq : q ∉ get_neighbors a.grid c) :
    (bfs_expand a c).cell_states q.1 q.2 = a.cell_states q.1 q.2 :=
  foldl_preserves_of_mem (fun b => b.cell_states q.1 q.2) (bfs_push c) _
    (fun b x hx => bfs_push_cells c b x q (fun he => hq (he ▸ hx))) a

theorem dfs_expand_explored (a : App) (c : Node) :
    (dfs_expand a c).explored = a.explored :=
  foldl_preserves App.explored (dfs_push c) (dfs_push_explored c) _ a

theorem dfs_expand_step_count (a : App) (c : Node) :
    (dfs_expand a c).step_count = a.step_count :=
  foldl_preserves App.step_count (dfs_push c) (dfs_push_step_count c) _ a

theorem dfs_expand_cells (a : App) (c q : Node)
    (hq : q ∉ get_neighbors a.grid c) :
    (dfs_expand a c).cell_states q.1 q.2 = a.cell_states q.1 q.2 :=
  foldl_preserves_of_mem (fun b => b.cell_states q.1 q.2) (dfs_push c) _
    (fun b x hx =>
      dfs_push_cells c b x q
        (fun he => hq (he ▸ (List.mem_reverse.mp hx)))) a

theorem ucs_relax_explored (a : App) (c : Node) :
    (ucs_relax a c).explored = a.explored :=
  foldl_preserves App.explored (ucs_push c) (ucs_push_explored c) _ a

theorem ucs_relax_step_count (a : App) (c : Node) :
    (ucs_relax a c).step_count = a.step_count :=
  foldl_preserves App.step_count (ucs_push c) (ucs_push_step_count c) _ a

theorem ucs_relax_cells (a : App) (c q : Node)
    (hq : q ∉ get_neighbors a.grid c) :
    (ucs_relax a c).cell_states q.1 q.2 = a.cell_states q.1 q.2 :=
  foldl_preserves_of_mem (fun b => b.cell_states q.1 q.2) (ucs_push c) _
    (fun b x hx => ucs_push_cells c b x q (fun he => hq (he ▸ hx))) a

theorem dls_expand_explored (a : App) (c : Node) (d : Nat) :
    (dls_expand a c d).explored = a.explored :=
  foldl_preserves App.explored (dls_push c d) (dls_push_explored c d) _ a

theorem dls_expand_step_count (a : App) (c : Node) (d : Nat) :
    (dls_expand a c d).step_count = a.step_count :=
  foldl_preserves App.step_count (dls_push c d) (dls_push_step_count c d) _ a

theorem dls_expand_cells (a : App) (c q : Node) (d : Nat)
    (hq : q ∉ get_neighbors a.grid c) :
    (dls_expand a c d).cell_states q.1 q.2 = a.cell_states q.1 q.2 :=
  foldl_preserves_of_mem (fun b => b.cell_states q.1 q.2) (dls_push c d) _
    (fun b x hx =>
      dls_push_cells c d b x q
        (fun he => hq (he ▸ (List.mem_reverse.mp hx)))) a

theorem bidi_expand_forward_step_count (a : App) (c : Node) :
    (bidi_expand_forward a c).step_count = a.step_count :=
  foldl_preserves App.step_count (bidi_push_forward c)
    (bidi_push_forward_step_count c) _ a

theorem bidi_expand_forward_cells (a : App) (c q : Node)
    (hq : q ∉ get_neighbors a.grid c) :
    (bidi_expand_forward a c).cell_states q.1 q.2 = a.cell_states q.1 q.2 :=
  foldl_preserves_of_mem (fun b => b.cell_states q.1 q.2) (bidi_push_forward c) _
    (fun b x hx => bidi_push_forward_cells c b x q (fun he => hq (he ▸ hx))) a

theorem bidi_expand_backward_step_count (a : App) (c : Node) :
    (bidi_expand_backward a c).step_count = a.step_count :=
  foldl_preserves App.step_count (bidi_push_backward c)
    (bidi_push_backward_step_count c) _ a

theorem bidi_expand_backward_cells (a : App) (c q : Node)
    (hq : q ∉ get_neighbors a.grid c) :
    (bidi_expand_backward a c).cell_states q.1 q.2 = a.cell_states q.1 q.2 :=
  foldl_preserves_of_mem (fun b => b.cell_states q.1 q.2) (bidi_push_backward c) _
    (fun b x hx => bidi_push_backward_cells c b x q (fun he => hq (he ▸ hx))) a

theorem bfs_step_fresh (a : App) (c : Node) (rest : List Node)
    (hf : a.frontier = c :: rest) (ht : c ≠ a.target) :
    (bfs_step a).explored = sadd a.explored c
    ∧ (bfs_step a).step_count = a.step_count + 1
    ∧ (c ≠ a.start → (bfs_step a).cell_states c.1 c.2 = CellState.EXPLORED) := by
  unfold bfs_step
  rw [hf]
  dsimp only
  split
  · rename_i hp
    refine ⟨by simp [bfs_expand_explored], by simp [bfs_expand_step_count], fun _ => ?_⟩
    dsimp only
    rw [bfs_expand_cells _ _ _ (self_not_mem_neighbors _ c)]
    simp [setCell]
  · rename_i hp
    exact ⟨by simp [bfs_expand_explored], by simp [bfs_expand_step_count],
      fun hs => absurd ⟨hs, ht⟩ hp⟩

theorem dfs_step_fresh (a : App) (c : Node) (rest : List Node)
    (hf : a.frontier = c :: rest) (hc : c ∉ a.explored) (ht : c ≠ a.target) :
    (dfs_step a).explored = sadd a.explored c
    ∧ (dfs_step a).step_count = a.step_count + 1
    ∧ (c ≠ a.start → (dfs_step a).cell_states c.1 c.2 = CellState.EXPLORED) := by
  unfold dfs_step
  rw [hf]
  dsimp only
  split
  · rename_i hp
    exact absurd hp hc
  · rename_i hp
    split
    · rename_i hp2
      refine ⟨by simp [dfs_expand_explored], by simp [dfs_expand_step_count], fun _ => ?_⟩
      dsimp only
      rw [dfs_expand_cells _ _ _ (self_not_mem_neighbors _ c)]
      simp [setCell]
    · rename_i hp2
      exact ⟨by simp [dfs_expand_explored], by simp [dfs_expand_step_count],
        fun hs => absurd ⟨hs, ht⟩ hp2⟩

theorem ucs_step_fresh (a : App) (c : Node) (q : ℚ)
    (rest : List (ℚ × Node))
    (hpop : heappop a.frontier_pq = some ((q, c), rest))
    (hc : c ∉ a.explored) (ht : c ≠ a.target) :
    (ucs_step a).explored = sadd a.explored c
    ∧ (ucs_step a).step_count = a.step_count + 1
    ∧ (c ≠ a.start → (ucs_step a).cell_states c.1 c.2 = CellState.EXPLORED) := by
  unfold ucs_step
  rw [hpop]
  dsimp only
  split
  · rename_i hp
    exact absurd hp hc
  · rename_i hp
    split
    · rename_i hp2
      refine ⟨by simp [ucs_relax_explored], by simp [ucs_relax_step_count], fun _ => ?_⟩
      dsimp only
      rw [ucs_relax_cells _ _ _ (self_not_mem_neighbors _ c)]
      simp [setCell]
    · rename_i hp2
      exact ⟨by simp [ucs_relax_explored], by simp [ucs_relax_step_count],
        fun hs => absurd ⟨hs, ht⟩ hp2⟩

theorem dls_step_fresh (a : App) (c : Node) (d : Nat)
    (rest : List (Node × Nat))
    (hf : a.frontier_d = (c, d) :: rest) (hc : c ∉ a.explored)
    (ht : c ≠ a.target) :
    (dls_step a).explored = sadd a.explored c
    ∧ (dls_step a).step_count = a.step_count + 1
    ∧ (c ≠ a.start → (dls_step a).cell_states c.1 c.2 = CellState.EXPLORED) := by
  unfold dls_step
  rw [hf]
  dsimp only
  split
  · rename_i hp
    exact absurd hp hc
  · rename_i hp
    split
    · rename_i hp2
      refine ⟨?_, ?_, fun _ => ?_⟩
      · split <;> simp [dls_expand_explored]
      · split <;> simp [dls_expand_step_count]
      · dsimp only
        split
        · rw [dls_expand_cells _ _ _ _ (self_not_mem_neighbors _ c)]
          simp [setCell]
        · simp [setCell]
    · rename_i hp2
      refine ⟨?_, ?_, fun hs => absurd ⟨hs, ht⟩ hp2⟩
      · split <;> simp [dls_expand_explored]
      · split <;> simp [dls_expand_step_count]

theorem iddfs_step_fresh (a : App) (c : Node) (d : Nat)
    (rest : List (Node × Nat))
    (hf : a.frontier_d = (c, d) :: rest) (hc : c ∉ a.explored)
    (ht : c ≠ a.target) :
    (iddfs_step a).explored = sadd a.explored c
    ∧ (iddfs_step a).step_count = a.step_count + 1
    ∧ (c ≠ a.start → (iddfs_step a).cell_states c.1 c.2 = CellState.EXPLORED) := by
  unfold iddfs_step
  rw [hf]
  dsimp only
  split
  · rename_i hp
    exact absurd hp hc
  · rename_i hp
    split
    · rename_i hp2
      refine ⟨?_, ?_, fun _ => ?_⟩
      · split <;> simp [dls_expand_explored]
      · split <;> simp [dls_expand_step_count]
      · dsimp only
        split
        · rw [dls_expand_cells _ _ _ _ (self_not_mem_neighbors _ c)]
          simp [setCell]
        · simp [setCell]
    · rename_i hp2
      refine ⟨?_, ?_, fun hs => absurd ⟨hs, ht⟩ hp2⟩
      · split <;> simp [dls_expand_explored]
      · split <;> simp [dls_expand_step_count]

theorem bidi_forward_fresh (a : App) (c : Node) (rest : List Node)
    (hf : a.frontier_forward = c :: rest) (hm : c ∉ a.explored_backward) :
    (bidi_forward a).explored_forward = sadd a.explored_forward c
    ∧ (bidi_forward a).step_count = a.step_count + 1
    ∧ (c ≠ a.start → (bidi_forward a).cell_states c.1 c.2 = CellState.EXPLORED) := by
  unfold bidi_forward
  rw [hf]
  dsimp only
  split
  · rename_i hp
    refine ⟨by simp [bidi_expand_forward_explored_forward],
      by simp [bidi_expand_forward_step_count], fun _ => ?_⟩
    dsimp only
    rw [bidi_expand_forward_cells _ _ _ (self_not_mem_neighbors _ c)]
    simp [setCell]
  · rename_i hp
    refine ⟨by simp [bidi_expand_forward_explored_forward],
      by simp [bidi_expand_forward_step_count], fun hs => absurd ?_ hp⟩
    exact hs

theorem bidi_backward_fresh (a : App) (c : Node) (rest : List Node)
    (hb : a.frontier_backward = c :: rest) (hm : c ∉ a.explored_forward) :
    (bidi_backward a).explored_backward = sadd a.explored_backward c
    ∧ (bidi_backward a).step_count = a.step_count + 1
    ∧ (c ≠ a.target → (bidi_backward a).cell_states c.1 c.2 = CellState.EXPLORED2) := by
  unfold bidi_backward
  rw [hb]
  dsimp only
  split
  · rename_i hp
    refine ⟨by simp [bidi_expand_backward_explored_backward],
      by simp [bidi_expand_backward_step_count], fun _ => ?_⟩
    dsimp only
    rw [bidi_expand_backward_cells _ _ _ (self_not_mem_neighbors _ c)]
    simp [setCell]
  · rename_i hp
    refine ⟨by simp [bidi_expand_backward_explored_backward],
      by simp [bidi_expand_backward_step_count], fun hs => absurd ?_ hp⟩
    exact hs

/-- C9 amended: a step invocation on a non-terminal (searching) state that
extracts a fresh non-target node - for bidirectional, a node not in the
opposite visited set - adds exactly that node to the relevant visited set,
paints it Explored in the overlay when it is not the protected endpoint,
and increments the shared step counter by one; and the rendered Start and
Target presentation is never overwritten, because the renderer gives the
Start/Target cell kind precedence over every overlay state.  (Steps that
pop an already-visited node, terminal steps, and restart ticks are
excluded, as the counterexample requires.) -/
theorem step_updates_on_fresh_expansion (a : App) (c : Node) :
    (∀ rest, a.frontier = c :: rest → c ≠ a.target →
      (bfs_step a).explored = sadd a.explored c
      ∧ (bfs_step a).step_count = a.step_count + 1
      ∧ (c ≠ a.start → (bfs_step a).cell_states c.1 c.2 = CellState.EXPLORED))
    ∧ (∀ rest, a.frontier = c :: rest → c ∉ a.explored → c ≠ a.target →
      (dfs_step a).explored = sadd a.explored c
      ∧ (dfs_step a).step_count = a.step_count + 1
      ∧ (c ≠ a.start → (dfs_step a).cell_states c.1 c.2 = CellState.EXPLORED))
    ∧ (∀ q rest, heappop a.frontier_pq = some ((q, c), rest) →
        c ∉ a.explored → c ≠ a.target →
      (ucs_step a).explored = sadd a.explored c
      ∧ (ucs_step a).step_count = a.step_count + 1
      ∧ (c ≠ a.start → (ucs_step a).cell_states c.1 c.2 = CellState.EXPLORED))
    ∧ (∀ d rest, a.frontier_d = (c, d) :: rest → c ∉ a.explored →
        c ≠ a.target →
      (dls_step a).explored = sadd a.explored c
      ∧ (dls_step a).step_count = a.step_count + 1
      ∧ (c ≠ a.start → (dls_step a).cell_states c.1 c.2 = CellState.EXPLORED)
      ∧ (iddfs_step a).explored = sadd a.explored c
      ∧ (iddfs_step a).step_count = a.step_count + 1
      ∧ (c ≠ a.start → (iddfs_step a).cell_states c.1 c.2 = CellState.EXPLORED))
    ∧ (∀ rest, a.step_count % 2 = 0 → a.frontier_forward = c :: rest →
        c ∉ a.explored_backward →
      (bidirectional_step a).explored_forward = sadd a.explored_forward c
      ∧ (bidirectional_step a).step_count = a.step_count + 1
      ∧ (c ≠ a.start →
          (bidirectional_step a).cell_states c.1 c.2 = CellState.EXPLORED))
    ∧ (∀ rest, (a.step_count % 2 ≠ 0 ∨ a.frontier_forward = []) →
        a.frontier_backward = c :: rest → c ∉ a.explored_forward →
      (bidirectional_step a).explored_backward = sadd a.explored_backward c
      ∧ (bidirectional_step a).step_count = a.step_count + 1
      ∧ (c ≠ a.target →
          (bidirectional_step a).cell_states c.1 c.2 = CellState.EXPLORED2))
    ∧ (∀ x r col, a.grid.cell r col = CellType.START →
        get_cell_color a.grid ((algorithm_step x a).cell_states) r col = colorSTART)
    ∧ (∀ x r col, a.grid.cell r col = CellType.TARGET →
        get_cell_color a.grid ((algorithm_step x a).cell_states) r col = colorTARGET) := by
  refine ⟨fun rest hf ht => bfs_step_fresh a c rest hf ht,
    fun rest hf hc ht => dfs_step_fresh a c rest hf hc ht,
    fun q rest hpop hc ht => ucs_step_fresh a c q rest hpop hc ht,
    fun d rest hf hc ht => ?_,
    fun rest hp hf hm => ?_,
    fun rest hp hb hm => ?_,
    fun x r col h => by simp [get_cell_color, h],
    fun x r col h => by simp [get_cell_color, h]⟩
  · obtain ⟨h1, h2, h3⟩ := dls_step_fresh a c d rest hf hc ht
    obtain ⟨h4, h5, h6⟩ := iddfs_step_fresh a c d rest hf hc ht
    exact ⟨h1, h2, h3, h4, h5, h6⟩
  · have hstep : bidirectional_step a = bidi_forward a := by
      unfold bidirectional_step
      rw [if_neg (by simp [hf]), if_pos ⟨hp, by simp [hf]⟩]
    rw [hstep]
    exact bidi_forward_fresh a c rest hf hm
  · have hstep : bidirectional_step a = bidi_backward a := by
      unfold bidirectional_step
      rw [if_neg (by simp [hb]), if_neg (by rcases hp with hp | hp <;> simp [hp]),
        if_pos (by simp [hb])]
    rw [hstep]
    exact bidi_backward_fresh a c rest hb hm

/-- C9 witness: the first breadth-first tick on the 2x3 grid extracts the
fresh start node, grows the visited set by it, increments the counter from
0 to 1, and leaves the rendered Start presentation intact. -/
theorem step_updates_on_fresh_expansion_witness :
    (bfs_step (start_search Algo.BFS grid2x3 (0, 0) (1, 2) 20)).explored =
      sadd (start_search Algo.BFS grid2x3 (0, 0) (1, 2) 20).explored (0, 0)
    ∧ (bfs_step (start_search Algo.BFS grid2x3 (0, 0) (1, 2) 20)).step_count =
      (start_search Algo.BFS grid2x3 (0, 0) (1, 2) 20).step_count + 1
    ∧ get_cell_color grid2x3
        ((algorithm_step Algo.BFS
          (start_search Algo.BFS grid2x3 (0, 0) (1, 2) 20)).cell_states) 0 0 =
      colorSTART := by
  have h := step_updates_on_fresh_expansion
    (start_search Algo.BFS grid2x3 (0, 0) (1, 2) 20) (0, 0)
  exact ⟨(h.1 [] (by decide) (by decide)).1, (h.1 [] (by decide) (by decide)).2.1,
    h.2.2.2.2.2.2.1 Algo.BFS 0 0 (by decide)⟩

/-- Every neighbor returned by the model is in bounds and not a wall. -/
theorem mem_get_neighbors_ok (g : Grid) (n x : Node)
    (h : x ∈ get_neighbors g n) :
    InBounds g x ∧ g.cell x.1 x.2 ≠ CellType.WALL := by
  simp only [get_neighbors, List.mem_filterMap] at h
  obtain ⟨d, _, hm⟩ := h
  split at hm
  · rename_i hP
    simp only [Option.some.injEq] at hm
    subst hm
    exact ⟨⟨hP.1, hP.2.1, hP.2.2.1, hP.2.2.2.1⟩, hP.2.2.2.2⟩
  · exact absurd hm (by simp)

/-- The neighbor list never exceeds the six movement offsets. -/
theorem get_neighbors_length_le (g : Grid) (n : Node) :
    (get_neighbors g n).length ≤ 6 := by
  have h := List.length_filterMap_le (fun d : Int × Int =>
    let new_row := n.1 + d.1
    let new_col := n.2 + d.2
    if 0 ≤ new_row ∧ new_row < g.rows ∧ 0 ≤ new_col ∧ new_col < g.cols ∧
        g.cell new_row new_col ≠ CellType.WALL then
      some (new_row, new_col)
    else none) movements
  simpa [get_neighbors, movements] using h

/-- A legal move is reversible from an in-bounds non-wall source: the six
movement offsets are closed under negation. -/
theorem adj_symm (g : Grid) (x y : Node) (hx1 : InBounds g x)
    (hx2 : g.cell x.1 x.2 ≠ CellType.WALL) (h : Adj g x y) : Adj g y x := by
  simp only [Adj, get_neighbors, List.mem_filterMap] at h ⊢
  obtain ⟨d, hd, hm⟩ := h
  split at hm
  · simp only [Option.some.injEq] at hm
    refine ⟨(-d.1, -d.2), ?_, ?_⟩
    · simp only [movements, List.mem_cons, List.not_mem_nil, or_false,
        Prod.ext_iff] at hd ⊢
      rcases hd with ⟨e1, e2⟩ | ⟨e1, e2⟩ | ⟨e1, e2⟩ | ⟨e1, e2⟩ | ⟨e1, e2⟩ | ⟨e1, e2⟩ <;>
        rw [e1, e2] <;> norm_num
    · rw [← hm]
      have h1 : x.1 + d.1 + -d.1 = x.1 := by ring
      have h2 : x.2 + d.2 + -d.2 = x.2 := by ring
      rw [h1, h2, if_pos ⟨hx1.1, hx1.2.1, hx1.2.2.1, hx1.2.2.2, hx2⟩]
  · exact absurd hm (by simp)

/-- Every node reachable from an in-bounds non-wall node is in bounds, not
a wall, and reaches it back. -/
theorem reaches_ok_and_reverse (g : Grid) (a0 : Node) (h1 : InBounds g a0)
    (h2 : g.cell a0.1 a0.2 ≠ CellType.WALL) :
    ∀ b, Reaches g a0 b →
      (InBounds g b ∧ g.cell b.1 b.2 ≠ CellType.WALL) ∧ Reaches g b a0 := by
  intro b h
  induction h with
  | refl => exact ⟨⟨h1, h2⟩, Relation.ReflTransGen.refl⟩
  | tail hax e ih =>
    obtain ⟨⟨hx1, hx2⟩, hrev⟩ := ih
    exact ⟨mem_get_neighbors_ok _ _ _ e,
      Relation.ReflTransGen.head (adj_symm _ _ _ hx1 hx2 e) hrev⟩

/-- A duplicate-free list of nodes that are the start or in bounds has at
most `searchBound` elements. -/
theorem nodup_ok_length_le (g : Grid) (s : Node) (l : List Node)
    (hnd : l.Nodup) (hok : ∀ x ∈ l, x = s ∨ InBounds g x) :
    l.length ≤ searchBound g := by
  have hsub : l.toFinset ⊆ insert s (gridFinset g) := by
    intro x hx
    rw [List.mem_toFinset] at hx
    rcases hok x hx with rfl | hb
    · exact Finset.mem_insert_self _ _
    · refine Finset.mem_insert_of_mem ?_
      obtain ⟨hb1, hb2, hb3, hb4⟩ := hb
      simp only [gridFinset, Finset.mem_product, Finset.mem_Icc]
      exact ⟨⟨hb1, by omega⟩, ⟨hb3, by omega⟩⟩
  have hcard := Finset.card_le_card hsub
  rw [List.toFinset_card_of_nodup hnd] at hcard
  have hins : (insert s (gridFinset g)).card ≤ (gridFinset g).card + 1 :=
    Finset.card_insert_le _ _
  have hgf : (gridFinset g).card = g.rows.toNat * g.cols.toNat := by
    simp only [gridFinset, Finset.card_product, Int.card_Icc]
    congr 1 <;> omega
  simp only [searchBound]
  omega

/-- Generic termination scheme: an invariant that forces progress on a
strictly decreasing measure, and failure on exit, makes every run end in a
reported failure. -/
theorem run_reaches_failure (f : App → App) (μ : App → Nat) (Inv : App → Prop)
    (hstep : ∀ a, Inv a →
      a.searching = true ∧
      ((f a).searching = true → Inv (f a) ∧ μ (f a) < μ a) ∧
      ((f a).searching = false →
        (f a).search_complete = true ∧ (f a).success = false)) :
    ∀ (k : Nat) (a : App), Inv a → μ a ≤ k →
    ∃ n, (run f n a).search_complete = true ∧ (run f n a).success = false := by
  intro k
  induction k with
  | zero =>
    intro a hI hμ
    obtain ⟨hs, h1, h2⟩ := hstep a hI
    by_cases hfa : (f a).searching = true
    · exact absurd (h1 hfa).2 (by omega)
    · refine ⟨1, ?_⟩
      have h3 := h2 (by simpa using hfa)
      simpa [run, tick, hs] using h3
  | succ k ih =>
    intro a hI hμ
    obtain ⟨hs, h1, h2⟩ := hstep a hI
    by_cases hfa : (f a).searching = true
    · obtain ⟨hI2, hdec⟩ := h1 hfa
      obtain ⟨n, hn⟩ := ih (f a) hI2 (by omega)
      refine ⟨n + 1, ?_⟩
      simpa [run, tick, hs] using hn
    · refine ⟨1, ?_⟩
      have h3 := h2 (by simpa using hfa)
      simpa [run, tick, hs] using h3

theorem bfs_push_grid (c : Node) (a : App) (n : Node) :
    (bfs_push c a n).grid = a.grid := by
  unfold bfs_push
  dsimp only
  repeat' split
  all_goals rfl

theorem bfs_push_start (c : Node) (a : App) (n : Node) :
    (bfs_push c a n).start = a.start := by
  unfold bfs_push
  dsimp only
  repeat' split
  all_goals rfl

theorem bfs_push_target (c : Node) (a : App) (n : Node) :
    (bfs_push c a n).target = a.target := by
  unfold bfs_push
  dsimp only
  repeat' split
  all_goals rfl

theorem bfs_push_searching (c : Node) (a : App) (n : Node) :
    (bfs_push c a n).searching = a.searching := by
  unfold bfs_push
  dsimp only
  repeat' split
  all_goals rfl

theorem bfs_push_success (c : Node) (a : App) (n : Node) :
    (bfs_push c a n).success = a.success := by
  unfold bfs_push
  dsimp only
  repeat' split
  all_goals rfl

theorem bfs_push_search_complete (c : Node) (a : App) (n : Node) :
    (bfs_push c a n).search_complete = a.search_complete := by
  unfold bfs_push
  dsimp only
  repeat' split
  all_goals rfl

theorem dfs_push_grid (c : Node) (a : App) (n : Node) :
    (dfs_push c a n).grid = a.grid := by
  unfold dfs_push
  dsimp only
  repeat' split
  all_goals rfl

theorem dfs_push_start (c : Node) (a : App) (n : Node) :
    (dfs_push c a n).start = a.start := by
  unfold dfs_push
  dsimp only
  repeat' split
  all_goals rfl

theorem dfs_push_target (c : Node) (a : App) (n : Node) :
    (dfs_push c a n).target = a.target := by
  unfold dfs_push
  dsimp only
  repeat' split
  all_goals rfl

theorem dfs_push_searching (c : Node) (a : App) (n : Node) :
    (dfs_push c a n).searching = a.searching := by
  unfold dfs_push
  dsimp only
  repeat' split
  all_goals rfl

theorem dfs_push_success (c : Node) (a : App) (n : Node) :
    (dfs_push c a n).success = a.success := by
  unfold dfs_push
  dsimp only
  repeat' split
  all_goals rfl

theorem dfs_push_search_complete (c : Node) (a : App) (n : Node) :
    (dfs_push c a n).search_complete = a.search_complete := by
  unfold dfs_push
  dsimp only
  repeat' split
  all_goals rfl

theorem ucs_push_grid (c : Node) (a : App) (n : Node) :
    (ucs_push c a n).grid = a.grid := by
  unfold ucs_push
  dsimp only
  repeat' split
  all_goals rfl

theorem ucs_push_start (c : Node) (a : App) (n : Node) :
    (ucs_push c a n).start = a.start := by
  unfold ucs_push
  dsimp only
  repeat' split
  all_goals rfl

theorem ucs_push_target (c : Node) (a : App) (n : Node) :
    (ucs_push c a n).target = a.target := by
  unfold ucs_push
  dsimp only
  repeat' split
  all_goals rfl

theorem ucs_push_searching (c : Node) (a : App) (n : Node) :
    (ucs_push c a n).searching = a.searching := by
  unfold ucs_push
  dsimp only
  repeat' split
  all_goals rfl

theorem ucs_push_success (c : Node) (a : App) (n : Node) :
    (ucs_push c a n).success = a.success := by
  unfold ucs_push
  dsimp only
  repeat' split
  all_goals rfl

theorem ucs_push_search_complete (c : Node) (a : App) (n : Node) :
    (ucs_push c a n).search_complete = a.search_complete := by
  unfold ucs_push
  dsimp only
  repeat' split
  all_goals rfl

theorem dls_push_grid (c : Node) (d : Nat) (a : App) (n : Node) :
    (dls_push c d a n).grid = a.grid := by
  unfold dls_push
  dsimp only
  repeat' split
  all_goals rfl

theorem dls_push_start (c : Node) (d : Nat) (a : App) (n : Node) :
    (dls_push c d a n).start = a.start := by
  unfold dls_push
  dsimp only
  repeat' split
  all_goals rfl

theorem dls_push_target (c : Node) (d : Nat) (a : App) (n : Node) :
    (dls_push c d a n).target = a.target := by
  unfold dls_push
  dsimp only
  repeat' split
  all_goals rfl

theorem dls_push_searching (c : Node) (d : Nat) (a : App) (n : Node) :
    (dls_push c d a n).searching = a.searching := by
  unfold dls_push
  dsimp only
  repeat' split
  all_goals rfl

theorem dls_push_success (c : Node) (d : Nat) (a : App) (n : Node) :
    (dls_push c d a n).success = a.success := by
  unfold dls_push
  dsimp only
  repeat' split
  all_goals rfl

theorem dls_push_search_complete (c : Node) (d : Nat) (a : App) (n : Node) :
    (dls_push c d a n).search_complete = a.search_complete := by
  unfold dls_push
  dsimp only
  repeat' split
  all_goals rfl

theorem bidi_push_forward_grid (c : Node) (a : App) (n : Node) :
    (bidi_push_forward c a n).grid = a.grid := by
  unfold bidi_push_forward
  dsimp only
  repeat' split
  all_goals rfl

theorem bidi_push_forward_start (c : Node) (a : App) (n : Node) :
    (bidi_push_forward c a n).start = a.start := by
  unfold bidi_push_forward
  dsimp only
  repeat' split
  all_goals rfl

theorem bidi_push_forward_target (c : Node) (a : App) (n : Node) :
    (bidi_push_forward c a n).target = a.target := by
  unfold bidi_push_forward
  dsimp only
  repeat' split
  all_goals rfl

theorem bidi_push_forward_searching (c : Node) (a : App) (n : Node) :
    (bidi_push_forward c a n).searching = a.searching := by
  unfold bidi_push_forward
  dsimp only
  repeat' split
  all_goals rfl

theorem bidi_push_forward_success (c : Node) (a : App) (n : Node) :
    (bidi_push_forward c a n).success = a.success := by
  unfold bidi_push_forward
  dsimp only
  repeat' split
  all_goals rfl

theorem bidi_push_forward_search_complete (c : Node) (a : App) (n : Node) :
    (bidi_push_forward c a n).search_complete = a.search_complete := by
  unfold bidi_push_forward
  dsimp only
  repeat' split
  all_goals rfl

theorem bidi_push_backward_grid (c : Node) (a : App) (n : Node) :
    (bidi_push_backward c a n).grid = a.grid := by
  unfold bidi_push_backward
  dsimp only
  repeat' split
  all_goals rfl

theorem bidi_push_backward_start (c : Node) (a : App) (n : Node) :
    (bidi_push_backward c a n).start = a.start := by
  unfold bidi_push_backward
  dsimp only
  repeat' split
  all_goals rfl

theorem bidi_push_backward_target (c : Node) (a : App) (n : Node) :
    (bidi_push_backward c a n).target = a.target := by
  unfold bidi_push_backward
  dsimp only
  repeat' split
  all_goals rfl

theorem bidi_push_backward_searching (c : Node) (a : App) (n : Node) :
    (bidi_push_backward c a n).searching = a.searching := by
  unfold bidi_push_backward
  dsimp only
  repeat' split
  all_goals rfl

theorem bidi_push_backward_success (c : Node) (a : App) (n : Node) :
    (bidi_push_backward c a n).success = a.success := by
  unfold bidi_push_backward
  dsimp only
  repeat' split
  all_goals rfl

theorem bidi_push_backward_search_complete (c : Node) (a : App) (n : Node) :
    (bidi_push_backward c a n).search_complete = a.search_complete := by
  unfold bidi_push_backward
  dsimp only
  repeat' split
  all_goals rfl

theorem bfs_push_frontier (c : Node) (a : App) (n : Node) :
    (bfs_push c a n).frontier =
      if n ∉ a.explored ∧ n ∉ a.frontier then a.frontier ++ [n]
      else a.frontier := by
  unfold bfs_push
  dsimp only
  split
  · split <;> rfl
  · rfl

theorem dfs_push_frontier (c : Node) (a : App) (n : Node) :
    (dfs_push c a n).frontier =
      if n ∉ a.explored ∧ n ∉ a.frontier then n :: a.frontier
      else a.frontier := by
  by_cases h : n ∉ a.explored ∧ n ∉ a.frontier
  · rw [if_pos h]
    unfold dfs_push
    dsimp only
    rw [if_pos h.1, if_pos h.2]
    repeat' split
    all_goals rfl
  · rw [if_neg h]
    unfold dfs_push
    dsimp only
    by_cases h1 : n ∈ a.explored
    · rw [if_neg (show ¬ n ∉ a.explored by simpa using h1)]
    · have h2 : n ∈ a.frontier := by
        by_contra h2
        exact h ⟨h1, h2⟩
      rw [if_pos h1, if_neg (show ¬ n ∉ a.frontier by simpa using h2)]

theorem ucs_push_frontier_pq (c : Node) (a : App) (n : Node) :
    (ucs_push c a n).frontier_pq = a.frontier_pq ∨
    ((ucs_push c a n).frontier_pq =
      ((lookupA a.cost_so_far c).getD 0 + get_move_cost c n, n) :: a.frontier_pq
      ∧ n ∉ a.explored) := by
  unfold ucs_push
  dsimp only
  by_cases h1 : n ∈ a.explored
  · left
    rw [if_neg (by simp [h1])]
  · rw [if_pos h1]
    split
    · right
      constructor
      · repeat' split
        all_goals rfl
      · exact h1
    · left
      rfl

theorem bidi_push_forward_frontier (c : Node) (a : App) (n : Node) :
    (bidi_push_forward c a n).frontier_forward =
      if n ∉ a.explored_forward ∧ n ∉ a.frontier_forward then
        a.frontier_forward ++ [n]
      else a.frontier_forward := by
  unfold bidi_push_forward
  dsimp only
  split
  · split <;> rfl
  · rfl

theorem bidi_push_backward_frontier (c : Node) (a : App) (n : Node) :
    (bidi_push_backward c a n).frontier_backward =
      if n ∉ a.explored_backward ∧ n ∉ a.frontier_backward then
        a.frontier_backward ++ [n]
      else a.frontier_backward := by
  unfold bidi_push_backward
  dsimp only
  split
  · split <;> rfl
  · rfl

theorem sadd_of_not_mem {s : List Node} {x : Node} (h : x ∉ s) :
    sadd s x = x :: s := by
  simp [sadd, h]

theorem sadd_of_mem {s : List Node} {x : Node} (h : x ∈ s) :
    sadd s x = s := by
  simp [sadd, h]

theorem bfs_expand_fold_inv (g : Grid) (s c : Node) (hc : Reaches g s c) :
    ∀ (l : List Node) (a : App), a.grid = g →
      (∀ x ∈ l, x ∈ get_neighbors g c) →
      a.frontier.Nodup →
      (∀ x ∈ a.frontier, x ∉ a.explored) →
      (∀ x ∈ a.frontier, Reaches g s x) →
      (∀ x ∈ a.frontier, x = s ∨ InBounds g x) →
      (l.foldl (bfs_push c) a).frontier.Nodup
      ∧ (∀ x ∈ (l.foldl (bfs_push c) a).frontier,
          x ∉ (l.foldl (bfs_push c) a).explored)
      ∧ (∀ x ∈ (l.foldl (bfs_push c) a).frontier, Reaches g s x)
      ∧ (∀ x ∈ (l.foldl (bfs_push c) a).frontier, x = s ∨ InBounds g x)
      ∧ (l.foldl (bfs_push c) a).frontier.length ≤ a.frontier.length + l.length
  | [], a, hg, hl, h1, h2, h3, h4 => ⟨h1, h2, h3, h4, by simp⟩
  | x :: l, a, hg, hl, h1, h2, h3, h4 => by
    rw [List.foldl_cons]
    have hxn : x ∈ get_neighbors g c := hl x (List.mem_cons_self x l)
    have hbg : (bfs_push c a x).grid = a.grid := bfs_push_grid c a x
    have hbe : (bfs_push c a x).explored = a.explored := bfs_push_explored c a x
    have hbf := bfs_push_frontier c a x
    have hxr : Reaches g s x := Relation.ReflTransGen.tail hc hxn
    have hxo : x = s ∨ InBounds g x := Or.inr (mem_get_neighbors_ok g c x hxn).1
    have main := bfs_expand_fold_inv g s c hc l (bfs_push c a x)
      (by rw [hbg, hg])
      (fun y hy => hl y (List.mem_cons_of_mem x hy))
    split at hbf
    · rename_i hcond
      have h1b : (bfs_push c a x).frontier.Nodup := by
        rw [hbf]
        simp only [List.nodup_append, List.nodup_cons, List.not_mem_nil,
          not_false_iff, List.nodup_nil, and_true, true_and]
        constructor
        · exact h1
        · intro y hy hy2
          simp only [List.mem_singleton] at hy2
          subst hy2
          exact hcond.2 hy
      have h2b : ∀ y ∈ (bfs_push c a x).frontier, y ∉ (bfs_push c a x).explored := by
        rw [hbf, hbe]
        intro y hy
        rcases List.mem_append.mp hy with hy | hy
        · exact h2 y hy
        · simp only [List.mem_singleton] at hy
          subst hy
          exact hcond.1
      have h3b : ∀ y ∈ (bfs_push c a x).frontier, Reaches g s y := by
        rw [hbf]
        intro y hy
        rcases List.mem_append.mp hy with hy | hy
        · exact h3 y hy
        · simp only [List.mem_singleton] at hy
          subst hy
          exact hxr
      have h4b : ∀ y ∈ (bfs_push c a x).frontier, y = s ∨ InBounds g y := by
        rw [hbf]
        intro y hy
        rcases List.mem_append.mp hy with hy | hy
        · exact h4 y hy
        · simp only [List.mem_singleton] at hy
          subst hy
          exact hxo
      obtain ⟨c1, c2, c3, c4, c5⟩ := main h1b h2b h3b h4b
      refine ⟨c1, c2, c3, c4, ?_⟩
      rw [hbf] at c5
      simp only [List.length_append, List.length_cons, List.length_nil] at c5
      simp only [List.length_cons]
      omega
    · have h2b : ∀ y ∈ (bfs_push c a x).frontier, y ∉ (bfs_push c a x).explored := by
        rw [hbf, hbe]; exact h2
      obtain ⟨c1, c2, c3, c4, c5⟩ := main (hbf ▸ h1) h2b (hbf ▸ h3) (hbf ▸ h4)
      refine ⟨c1, c2, c3, c4, ?_⟩
      rw [hbf] at c5
      simp only [List.length_cons]
      omega

theorem bfs_after_pop_inv (g : Grid) (s t : Node) (a2 : App) (c : Node)
    (hg : a2.grid = g) (hst : a2.start = s) (htg : a2.target = t)
    (hsr : a2.searching = true) (hsu : a2.success = false)
    (hrc : Reaches g s c)
    (h1 : a2.frontier.Nodup)
    (h2 : ∀ x ∈ a2.frontier, x ∉ a2.explored)
    (h3 : ∀ x ∈ a2.frontier, Reaches g s x)
    (h4 : ∀ x ∈ a2.frontier, x = s ∨ InBounds g x)
    (h5 : ∀ x ∈ a2.explored, Reaches g s x)
    (h6 : ∀ x ∈ a2.explored, x = s ∨ InBounds g x)
    (h7 : a2.explored.Nodup) :
    BfsInv g s t
      { bfs_expand a2 c with step_count := (bfs_expand a2 c).step_count + 1 }
    ∧ (bfs_expand a2 c).searching = true
    ∧ ((bfs_expand a2 c).explored = a2.explored
      ∧ (bfs_expand a2 c).frontier.length ≤ a2.frontier.length + 6) := by
  have hfold := bfs_expand_fold_inv g s c hrc (get_neighbors a2.grid c) a2 hg
    (fun x hx => by rw [hg] at hx; exact hx) h1 h2 h3 h4
  obtain ⟨c1, c2, c3, c4, c5⟩ := hfold
  have hexp : (bfs_expand a2 c).explored = a2.explored := bfs_expand_explored a2 c
  have hlen : (bfs_expand a2 c).frontier.length ≤ a2.frontier.length + 6 := by
    have := get_neighbors_length_le a2.grid c
    unfold bfs_expand at *
    omega
  have hsearch : (bfs_expand a2 c).searching = true :=
    (foldl_preserves App.searching (bfs_push c) (bfs_push_searching c) _ a2).trans hsr
  refine ⟨⟨⟨?_, ?_, ?_, ?_, ?_, ?_, ?_, ?_, ?_, ?_⟩, ?_, ?_⟩, hsearch, hexp, hlen⟩
  · show (bfs_expand a2 c).grid = g
    exact (foldl_preserves App.grid (bfs_push c) (bfs_push_grid c) _ a2).trans hg
  · show (bfs_expand a2 c).start = s
    exact (foldl_preserves App.start (bfs_push c) (bfs_push_start c) _ a2).trans hst
  · show (bfs_expand a2 c).target = t
    exact (foldl_preserves App.target (bfs_push c) (bfs_push_target c) _ a2).trans htg
  · show (bfs_expand a2 c).searching = true
    exact (foldl_preserves App.searching (bfs_push c) (bfs_push_searching c) _ a2).trans hsr
  · show (bfs_expand a2 c).success = false
    exact (foldl_preserves App.success (bfs_push c) (bfs_push_success c) _ a2).trans hsu
  · exact c3
  · exact c4
  · show ∀ x ∈ (bfs_expand a2 c).explored, Reaches g s x
    rw [hexp]; exact h5
  · show ∀ x ∈ (bfs_expand a2 c).explored, x = s ∨ InBounds g x
    rw [hexp]; exact h6
  · show (bfs_expand a2 c).explored.Nodup
    rw [hexp]; exact h7
  · exact c1
  · exact c2

theorem bfs_step_core (g : Grid) (s t : Node) (hur : ¬ Reaches g s t)
    (a : App) (hI : BfsInv g s t a) :
    bfs_step a = finish_search a false
    ∨ ((bfs_step a).searching = true ∧ BfsInv g s t (bfs_step a)
        ∧ bfsMeasure g (bfs_step a) < bfsMeasure g a) := by
  cases hfr : a.frontier with
  | nil =>
    left
    unfold bfs_step
    rw [hfr]
  | cons c rest =>
    right
    have hcm : c ∈ a.frontier := by
      rw [hfr]; exact List.mem_cons_self _ _
    have hrc : Reaches g s c := hI.fr_reach c hcm
    have hct : c ≠ a.target := by
      intro he
      rw [he, hI.htarget] at hrc
      exact hur hrc
    have hcf : c ∉ a.explored := hI.fr_fresh c hcm
    have hcok : c = s ∨ InBounds g c := hI.fr_ok c hcm
    have hrestnd : rest.Nodup := by
      have h := hI.fr_nodup
      rw [hfr] at h
      exact h.of_cons
    have hcnr : c ∉ rest := by
      have h := hI.fr_nodup
      rw [hfr, List.nodup_cons] at h
      exact h.1
    have hEbound : a.explored.length + 1 ≤ searchBound g := by
      have h := nodup_ok_length_le g s (c :: a.explored)
        (List.nodup_cons.mpr ⟨hcf, hI.ex_nodup⟩)
        (by
          intro x hx
          rcases List.mem_cons.mp hx with rfl | hx
          · exact hcok
          · exact hI.ex_ok x hx)
      simpa using h
    have hfresh2 : ∀ x ∈ rest, x ∉ sadd a.explored c := by
      rw [sadd_of_not_mem hcf]
      intro x hx hmem
      rcases List.mem_cons.mp hmem with rfl | hmem
      · exact hcnr hx
      · exact hI.fr_fresh x (by rw [hfr]; exact List.mem_cons_of_mem c hx) hmem
    have hreach2 : ∀ x ∈ rest, Reaches g s x := fun x hx =>
      hI.fr_reach x (by rw [hfr]; exact List.mem_cons_of_mem c hx)
    have hok2 : ∀ x ∈ rest, x = s ∨ InBounds g x := fun x hx =>
      hI.fr_ok x (by rw [hfr]; exact List.mem_cons_of_mem c hx)
    have hexr2 : ∀ x ∈ sadd a.explored c, Reaches g s x := by
      rw [sadd_of_not_mem hcf]
      intro x hx
      rcases List.mem_cons.mp hx with rfl | hx
      · exact hrc
      · exact hI.ex_reach x hx
    have hexo2 : ∀ x ∈ sadd a.explored c, x = s ∨ InBounds g x := by
      rw [sadd_of_not_mem hcf]
      intro x hx
      rcases List.mem_cons.mp hx with rfl | hx
      · exact hcok
      · exact hI.ex_ok x hx
    have hexnd2 : (sadd a.explored c).Nodup := by
      rw [sadd_of_not_mem hcf]
      exact List.nodup_cons.mpr ⟨hcf, hI.ex_nodup⟩
    unfold bfs_step
    rw [hfr]
    dsimp only
    split
    · have hpop := bfs_after_pop_inv g s t
        { a with frontier := rest, explored := sadd a.explored c,
                 cell_states := setCell a.cell_states c CellState.EXPLORED } c
        hI.hgrid hI.hstart hI.htarget hI.hsearching hI.hsuccess hrc
        hrestnd hfresh2 hreach2 hok2 hexr2 hexo2 hexnd2
      refine ⟨hpop.2.1, hpop.1, ?_⟩
      simp only [bfsMeasure]
      rw [hpop.2.2.1]
      have hsl :
          (({ a with frontier := rest, explored := sadd a.explored c,
                     cell_states := setCell a.cell_states c CellState.EXPLORED } :
            App).explored).length = a.explored.length + 1 := by
        show (sadd a.explored c).length = _
        rw [sadd_of_not_mem hcf]
        rfl
      rw [hsl]
      have hflen := hpop.2.2.2
      have hA2 :
          (({ a with frontier := rest, explored := sadd a.explored c,
                     cell_states := setCell a.cell_states c CellState.EXPLORED } :
            App).frontier).length = rest.length := rfl
      rw [hA2] at hflen
      have hfr_len : a.frontier.length = rest.length + 1 := by
        rw [hfr]; rfl
      omega
    · have hpop := bfs_after_pop_inv g s t
        { a with frontier := rest, explored := sadd a.explored c } c
        hI.hgrid hI.hstart hI.htarget hI.hsearching hI.hsuccess hrc
        hrestnd hfresh2 hreach2 hok2 hexr2 hexo2 hexnd2
      refine ⟨hpop.2.1, hpop.1, ?_⟩
      simp only [bfsMeasure]
      rw [hpop.2.2.1]
      have hsl :
          (({ a with frontier := rest, explored := sadd a.explored c } :
            App).explored).length = a.explored.length + 1 := by
        show (sadd a.explored c).length = _
        rw [sadd_of_not_mem hcf]
        rfl
      rw [hsl]
      have hflen := hpop.2.2.2
      have hA2 :
          (({ a with frontier := rest, explored := sadd a.explored c } :
            App).frontier).length = rest.length := rfl
      rw [hA2] at hflen
      have hfr_len : a.frontier.length = rest.length + 1 := by
        rw [hfr]; rfl
      omega

/-- Adapter from the per-step dichotomy (either the step finishes with
failure, or it keeps searching with the invariant restored and the measure
decreased) to the shape the termination scheme expects. -/
theorem core_to_step (f : App → App) (Inv : App → Prop) (μ : App → Nat)
    (hsr : ∀ a, Inv a → a.searching = true)
    (hcore : ∀ a, Inv a → f a = finish_search a false ∨
      ((f a).searching = true ∧ Inv (f a) ∧ μ (f a) < μ a)) :
    ∀ a, Inv a → a.searching = true ∧
      ((f a).searching = true → Inv (f a) ∧ μ (f a) < μ a) ∧
      ((f a).searching = false →
        (f a).search_complete = true ∧ (f a).success = false) := by
  intro a hI
  refine ⟨hsr a hI, ?_, ?_⟩
  · intro hs
    rcases hcore a hI with h | h
    · rw [h] at hs
      exact absurd hs (by simp [finish_search])
    · exact ⟨h.2.1, h.2.2⟩
  · intro hs
    rcases hcore a hI with h | h
    · rw [h]
      exact ⟨rfl, rfl⟩
    · rw [h.1] at hs
      exact absurd hs (by simp)

theorem dfs_expand_fold_inv (g : Grid) (s c : Node) (hc : Reaches g s c) :
    ∀ (l : List Node) (a : App),
      (∀ x ∈ l, x ∈ get_neighbors g c) →
      (∀ x ∈ a.frontier, Reaches g s x) →
      (∀ x ∈ a.frontier, x = s ∨ InBounds g x) →
      (∀ x ∈ (l.foldl (dfs_push c) a).frontier, Reaches g s x)
      ∧ (∀ x ∈ (l.foldl (dfs_push c) a).frontier, x = s ∨ InBounds g x)
      ∧ (l.foldl (dfs_push c) a).frontier.length ≤ a.frontier.length + l.length
  | [], a, hl, h3, h4 => ⟨h3, h4, by simp⟩
  | x :: l, a, hl, h3, h4 => by
    rw [List.foldl_cons]
    have hxn : x ∈ get_neighbors g c := hl x (List.mem_cons_self x l)
    have hbf := dfs_push_frontier c a x
    have hxr : Reaches g s x := Relation.ReflTransGen.tail hc hxn
    have hxo : x = s ∨ InBounds g x := Or.inr (mem_get_neighbors_ok g c x hxn).1
    have main := dfs_expand_fold_inv g s c hc l (dfs_push c a x)
      (fun y hy => hl y (List.mem_cons_of_mem x hy))
    split at hbf
    · have h3b : ∀ y ∈ (dfs_push c a x).frontier, Reaches g s y := by
        rw [hbf]
        intro y hy
        rcases List.mem_cons.mp hy with rfl | hy
        · exact hxr
        · exact h3 y hy
      have h4b : ∀ y ∈ (dfs_push c a x).frontier, y = s ∨ InBounds g y := by
        rw [hbf]
        intro y hy
        rcases List.mem_cons.mp hy with rfl | hy
        · exact hxo
        · exact h4 y hy
      obtain ⟨c1, c2, c3⟩ := main h3b h4b
      refine ⟨c1, c2, ?_⟩
      rw [hbf] at c3
      simp only [List.length_cons] at c3 ⊢
      omega
    · obtain ⟨c1, c2, c3⟩ := main (hbf ▸ h3) (hbf ▸ h4)
      refine ⟨c1, c2, ?_⟩
      rw [hbf] at c3
      simp only [List.length_cons]
      omega

theorem dfs_after_pop_inv (g : Grid) (s t : Node) (a2 : App) (c : Node)
    (hg : a2.grid = g) (hst : a2.start = s) (htg : a2.target = t)
    (hsr : a2.searching = true) (hsu : a2.success = false)
    (hrc : Reaches g s c)
    (h3 : ∀ x ∈ a2.frontier, Reaches g s x)
    (h4 : ∀ x ∈ a2.frontier, x = s ∨ InBounds g x)
    (h5 : ∀ x ∈ a2.explored, Reaches g s x)
    (h6 : ∀ x ∈ a2.explored, x = s ∨ InBounds g x)
    (h7 : a2.explored.Nodup) :
    SearchInv g s t App.frontier
      { dfs_expand a2 c with step_count := (dfs_expand a2 c).step_count + 1 }
    ∧ (dfs_expand a2 c).searching = true
    ∧ ((dfs_expand a2 c).explored = a2.explored
      ∧ (dfs_expand a2 c).frontier.length ≤ a2.frontier.length + 6) := by
  have hfold := dfs_expand_fold_inv g s c hrc
    ((get_neighbors a2.grid c).reverse) a2
    (fun x hx => by
      rw [hg] at hx
      exact List.mem_reverse.mp hx) h3 h4
  obtain ⟨c1, c2, c3⟩ := hfold
  have hexp : (dfs_expand a2 c).explored = a2.explored := dfs_expand_explored a2 c
  have hlen : (dfs_expand a2 c).frontier.length ≤ a2.frontier.length + 6 := by
    have h6 := get_neighbors_length_le a2.grid c
    have h7 : ((get_neighbors a2.grid c).reverse).length ≤ 6 := by
      rw [List.length_reverse]; exact h6
    unfold dfs_expand at *
    omega
  have hsearch : (dfs_expand a2 c).searching = true :=
    (foldl_preserves App.searching (dfs_push c) (dfs_push_searching c) _ a2).trans hsr
  refine ⟨⟨?_, ?_, ?_, ?_, ?_, ?_, ?_, ?_, ?_, ?_⟩, hsearch, hexp, hlen⟩
  · show (dfs_expand a2 c).grid = g
    exact (foldl_preserves App.grid (dfs_push c) (dfs_push_grid c) _ a2).trans hg
  · show (dfs_expand a2 c).start = s
    exact (foldl_preserves App.start (dfs_push c) (dfs_push_start c) _ a2).trans hst
  · show (dfs_expand a2 c).target = t
    exact (foldl_preserves App.target (dfs_push c) (dfs_push_target c) _ a2).trans htg
  · exact hsearch
  · show (dfs_expand a2 c).success = false
    exact (foldl_preserves App.success (dfs_push c) (dfs_push_success c) _ a2).trans hsu
  · exact c1
  · exact c2
  · show ∀ x ∈ (dfs_expand a2 c).explored, Reaches g s x
    rw [hexp]; exact h5
  · show ∀ x ∈ (dfs_expand a2 c).explored, x = s ∨ InBounds g x
    rw [hexp]; exact h6
  · show (dfs_expand a2 c).explored.Nodup
    rw [hexp]; exact h7

theorem dfs_step_core (g : Grid) (s t : Node) (hur : ¬ Reaches g s t)
    (a : App) (hI : SearchInv g s t App.frontier a) :
    dfs_step a = finish_search a false
    ∨ ((dfs_step a).searching = true ∧ SearchInv g s t App.frontier (dfs_step a)
        ∧ bfsMeasure g (dfs_step a) < bfsMeasure g a) := by
  cases hfr : a.frontier with
  | nil =>
    left
    unfold dfs_step
    rw [hfr]
  | cons c rest =>
    right
    have hcm : c ∈ a.frontier := by
      rw [hfr]; exact List.mem_cons_self _ _
    have hrc : Reaches g s c := hI.fr_reach c hcm
    have hct : c ≠ a.target := by
      intro he
      rw [he, hI.htarget] at hrc
      exact hur hrc
    have hcok : c = s ∨ InBounds g c := hI.fr_ok c hcm
    have hreach2 : ∀ x ∈ rest, Reaches g s x := fun x hx =>
      hI.fr_reach x (by rw [hfr]; exact List.mem_cons_of_mem c hx)
    have hok2 : ∀ x ∈ rest, x = s ∨ InBounds g x := fun x hx =>
      hI.fr_ok x (by rw [hfr]; exact List.mem_cons_of_mem c hx)
    have hfr_len : a.frontier.length = rest.length + 1 := by
      rw [hfr]; rfl
    unfold dfs_step
    rw [hfr]
    dsimp only
    split
    · rename_i hstale
      refine ⟨hI.hsearching, ⟨hI.hgrid, hI.hstart, hI.htarget, hI.hsearching,
        hI.hsuccess, hreach2, hok2, hI.ex_reach, hI.ex_ok, hI.ex_nodup⟩, ?_⟩
      simp only [bfsMeasure]
      have e2 : (({ a with frontier := rest } : App).frontier).length =
          rest.length := rfl
      rw [e2]
      omega
    · rename_i hcf
      have hEbound : a.explored.length + 1 ≤ searchBound g := by
        have h := nodup_ok_length_le g s (c :: a.explored)
          (List.nodup_cons.mpr ⟨hcf, hI.ex_nodup⟩)
          (by
            intro x hx
            rcases List.mem_cons.mp hx with rfl | hx
            · exact hcok
            · exact hI.ex_ok x hx)
        simpa using h
      have hexr2 : ∀ x ∈ sadd a.explored c, Reaches g s x := by
        rw [sadd_of_not_mem hcf]
        intro x hx
        rcases List.mem_cons.mp hx with rfl | hx
        · exact hrc
        · exact hI.ex_reach x hx
      have hexo2 : ∀ x ∈ sadd a.explored c, x = s ∨ InBounds g x := by
        rw [sadd_of_not_mem hcf]
        intro x hx
        rcases List.mem_cons.mp hx with rfl | hx
        · exact hcok
        · exact hI.ex_ok x hx
      have hexnd2 : (sadd a.explored c).Nodup := by
        rw [sadd_of_not_mem hcf]
        exact List.nodup_cons.mpr ⟨hcf, hI.ex_nodup⟩
      split
      · have hpop := dfs_after_pop_inv g s t
          { a with frontier := rest, explored := sadd a.explored c,
                   cell_states := setCell a.cell_states c CellState.EXPLORED } c
          hI.hgrid hI.hstart hI.htarget hI.hsearching hI.hsuccess hrc
          hreach2 hok2 hexr2 hexo2 hexnd2
        refine ⟨hpop.2.1, hpop.1, ?_⟩
        simp only [bfsMeasure]
        rw [hpop.2.2.1]
        have hsl :
            (({ a with frontier := rest, explored := sadd a.explored c,
                       cell_states := setCell a.cell_states c CellState.EXPLORED } :
              App).explored).length = a.explored.length + 1 := by
          show (sadd a.explored c).length = _
          rw [sadd_of_not_mem hcf]
          rfl
        rw [hsl]
        have hflen := hpop.2.2.2
        have hA2 :
            (({ a with frontier := rest, explored := sadd a.explored c,
                       cell_states := setCell a.cell_states c CellState.EXPLORED } :
              App).frontier).length = rest.length := rfl
        rw [hA2] at hflen
        omega
      · have hpop := dfs_after_pop_inv g s t
          { a with frontier := rest, explored := sadd a.explored c } c
          hI.hgrid hI.hstart hI.htarget hI.hsearching hI.hsuccess hrc
          hreach2 hok2 hexr2 hexo2 hexnd2
        refine ⟨hpop.2.1, hpop.1, ?_⟩
        simp only [bfsMeasure]
        rw [hpop.2.2.1]
        have hsl :
            (({ a with frontier := rest, explored := sadd a.explored c } :
              App).explored).length = a.explored.length + 1 := by
          show (sadd a.explored c).length = _
          rw [sadd_of_not_mem hcf]
          rfl
        rw [hsl]
        have hflen := hpop.2.2.2
        have hA2 :
            (({ a with frontier := rest, explored := sadd a.explored c } :
              App).frontier).length = rest.length := rfl
        rw [hA2] at hflen
        omega

theorem heapFindMin_mem : ∀ (l : List (ℚ × Node)) (m : ℚ × Node),
    heapFindMin l = some m → m ∈ l
  | [], m, h => by simp [heapFindMin] at h
  | x :: rest, m, h => by
    unfold heapFindMin at h
    cases hr : heapFindMin rest with
    | none =>
      rw [hr] at h
      simp only [Option.some.injEq] at h
      subst h
      exact List.mem_cons_self _ _
    | some m2 =>
      rw [hr] at h
      dsimp only at h
      split at h
      · simp only [Option.some.injEq] at h
        subst h
        exact List.mem_cons_of_mem x (heapFindMin_mem rest _ hr)
      · simp only [Option.some.injEq] at h
        subst h
        exact List.mem_cons_self _ _

theorem heapFindMin_none : ∀ (l : List (ℚ × Node)),
    heapFindMin l = none → l = []
  | [], _ => rfl
  | x :: rest, h => by
    unfold heapFindMin at h
    cases hr : heapFindMin rest with
    | none => rw [hr] at h; simp at h
    | some m2 =>
      rw [hr] at h
      dsimp only at h
      split at h <;> simp at h

theorem removeFirst_subset : ∀ (l : List (ℚ × Node)) (y x : ℚ × Node),
    x ∈ removeFirst l y → x ∈ l
  | [], _, _, h => absurd h (List.not_mem_nil _)
  | z :: rest, y, x, h => by
    unfold removeFirst at h
    split at h
    · exact List.mem_cons_of_mem z h
    · rcases List.mem_cons.mp h with rfl | h2
      · exact List.mem_cons_self _ _
      · exact List.mem_cons_of_mem z (removeFirst_subset rest y x h2)

theorem removeFirst_length : ∀ (l : List (ℚ × Node)) (y : ℚ × Node),
    y ∈ l → (removeFirst l y).length + 1 = l.length
  | [], y, h => absurd h (List.not_mem_nil _)
  | z :: rest, y, h => by
    unfold removeFirst
    split
    · rfl
    · rename_i hne
      have hy : y ∈ rest := by
        rcases List.mem_cons.mp h with rfl | h2
        · exact absurd rfl hne
        · exact h2
      simp only [List.length_cons]
      rw [← removeFirst_length rest y hy]

theorem heappop_some (l : List (ℚ × Node)) (m : ℚ × Node)
    (rest : List (ℚ × Node)) (h : heappop l = some (m, rest)) :
    m ∈ l ∧ rest = removeFirst l m ∧ rest.length + 1 = l.length := by
  unfold heappop at h
  cases hr : heapFindMin l with
  | none => rw [hr] at h; simp at h
  | some m2 =>
    rw [hr] at h
    simp only [Option.some.injEq] at h
    have h1 : m2 = m := congrArg Prod.fst h
    have h2 : removeFirst l m2 = rest := congrArg Prod.snd h
    subst h1
    have hm : m2 ∈ l := heapFindMin_mem l m2 hr
    exact ⟨hm, h2.symm, by rw [← h2]; exact removeFirst_length l m2 hm⟩

theorem heappop_none (l : List (ℚ × Node)) (h : heappop l = none) : l = [] := by
  unfold heappop at h
  cases hr : heapFindMin l with
  | none => exact heapFindMin_none l hr
  | some m2 => rw [hr] at h; simp at h

theorem ucs_relax_fold_inv (g : Grid) (s c : Node) (hc : Reaches g s c) :
    ∀ (l : List Node) (a : App),
      (∀ x ∈ l, x ∈ get_neighbors g c) →
      (∀ x ∈ a.frontier_pq.map Prod.snd, Reaches g s x) →
      (∀ x ∈ a.frontier_pq.map Prod.snd, x = s ∨ InBounds g x) →
      (∀ x ∈ (l.foldl (ucs_push c) a).frontier_pq.map Prod.snd, Reaches g s x)
      ∧ (∀ x ∈ (l.foldl (ucs_push c) a).frontier_pq.map Prod.snd,
          x = s ∨ InBounds g x)
      ∧ (l.foldl (ucs_push c) a).frontier_pq.length ≤
          a.frontier_pq.length + l.length
  | [], a, hl, h3, h4 => ⟨h3, h4, by simp⟩
  | x :: l, a, hl, h3, h4 => by
    rw [List.foldl_cons]
    have hxn : x ∈ get_neighbors g c := hl x (List.mem_cons_self x l)
    have hxr : Reaches g s x := Relation.ReflTransGen.tail hc hxn
    have hxo : x = s ∨ InBounds g x := Or.inr (mem_get_neighbors_ok g c x hxn).1
    have main := ucs_relax_fold_inv g s c hc l (ucs_push c a x)
      (fun y hy => hl y (List.mem_cons_of_mem x hy))
    rcases ucs_push_frontier_pq c a x with heq | ⟨heq, _⟩
    · obtain ⟨c1, c2, c3⟩ := main (heq ▸ h3) (heq ▸ h4)
      refine ⟨c1, c2, ?_⟩
      rw [heq] at c3
      simp only [List.length_cons]
      omega
    · have h3b : ∀ y ∈ (ucs_push c a x).frontier_pq.map Prod.snd,
          Reaches g s y := by
        rw [heq]
        intro y hy
        simp only [List.map_cons, List.mem_cons] at hy
        rcases hy with rfl | hy
        · exact hxr
        · exact h3 y hy
      have h4b : ∀ y ∈ (ucs_push c a x).frontier_pq.map Prod.snd,
          y = s ∨ InBounds g y := by
        rw [heq]
        intro y hy
        simp only [List.map_cons, List.mem_cons] at hy
        rcases hy with rfl | hy
        · exact hxo
        · exact h4 y hy
      obtain ⟨c1, c2, c3⟩ := main h3b h4b
      refine ⟨c1, c2, ?_⟩
      rw [heq] at c3
      simp only [List.length_cons] at c3 ⊢
      omega

theorem ucs_after_pop_inv (g : Grid) (s t : Node) (a2 : App) (c : Node)
    (hg : a2.grid = g) (hst : a2.start = s) (htg : a2.target = t)
    (hsr : a2.searching = true) (hsu : a2.success = false)
    (hrc : Reaches g s c)
    (h3 : ∀ x ∈ a2.frontier_pq.map Prod.snd, Reaches g s x)
    (h4 : ∀ x ∈ a2.frontier_pq.map Prod.snd, x = s ∨ InBounds g x)
    (h5 : ∀ x ∈ a2.explored, Reaches g s x)
    (h6 : ∀ x ∈ a2.explored, x = s ∨ InBounds g x)
    (h7 : a2.explored.Nodup) :
    SearchInv g s t (fun b => b.frontier_pq.map Prod.snd)
      { ucs_relax a2 c with step_count := (ucs_relax a2 c).step_count + 1 }
    ∧ (ucs_relax a2 c).searching = true
    ∧ ((ucs_relax a2 c).explored = a2.explored
      ∧ (ucs_relax a2 c).frontier_pq.length ≤ a2.frontier_pq.length + 6) := by
  have hfold := ucs_relax_fold_inv g s c hrc (get_neighbors a2.grid c) a2
    (fun x hx => by rw [hg] at hx; exact hx) h3 h4
  obtain ⟨c1, c2, c3⟩ := hfold
  have hexp : (ucs_relax a2 c).explored = a2.explored := ucs_relax_explored a2 c
  have hlen : (ucs_relax a2 c).frontier_pq.length ≤ a2.frontier_pq.length + 6 := by
    have h8 := get_neighbors_length_le a2.grid c
    unfold ucs_relax at *
    omega
  have hsearch : (ucs_relax a2 c).searching = true :=
    (foldl_preserves App.searching (ucs_push c) (ucs_push_searching c) _ a2).trans hsr
  refine ⟨⟨?_, ?_, ?_, ?_, ?_, ?_, ?_, ?_, ?_, ?_⟩, hsearch, hexp, hlen⟩
  · show (ucs_relax a2 c).grid = g
    exact (foldl_preserves App.grid (ucs_push c) (ucs_push_grid c) _ a2).trans hg
  · show (ucs_relax a2 c).start = s
    exact (foldl_preserves App.start (ucs_push c) (ucs_push_start c) _ a2).trans hst
  · show (ucs_relax a2 c).target = t
    exact (foldl_preserves App.target (ucs_push c) (ucs_push_target c) _ a2).trans htg
  · exact hsearch
  · show (ucs_relax a2 c).success = false
    exact (foldl_preserves App.success (ucs_push c) (ucs_push_success c) _ a2).trans hsu
  · exact c1
  · exact c2
  · show ∀ x ∈ (ucs_relax a2 c).explored, Reaches g s x
    rw [hexp]; exact h5
  · show ∀ x ∈ (ucs_relax a2 c).explored, x = s ∨ InBounds g x
    rw [hexp]; exact h6
  · show (ucs_relax a2 c).explored.Nodup
    rw [hexp]; exact h7

theorem ucs_step_core (g : Grid) (s t : Node) (hur : ¬ Reaches g s t)
    (a : App) (hI : SearchInv g s t (fun b => b.frontier_pq.map Prod.snd) a) :
    ucs_step a = finish_search a false
    ∨ ((ucs_step a).searching = true
        ∧ SearchInv g s t (fun b => b.frontier_pq.map Prod.snd) (ucs_step a)
        ∧ ucsMeasure g (ucs_step a) < ucsMeasure g a) := by
  cases hpop : heappop a.frontier_pq with
  | none =>
    left
    unfold ucs_step
    rw [hpop]
  | some pr =>
    obtain ⟨⟨q, c⟩, rest⟩ := pr
    right
    obtain ⟨hm, hrw, hlen⟩ := heappop_some a.frontier_pq (q, c) rest hpop
    have hcm : c ∈ a.frontier_pq.map Prod.snd :=
      List.mem_map.mpr ⟨(q, c), hm, rfl⟩
    have hrc : Reaches g s c := hI.fr_reach c hcm
    have hct : c ≠ a.target := by
      intro he
      rw [he, hI.htarget] at hrc
      exact hur hrc
    have hcok : c = s ∨ InBounds g c := hI.fr_ok c hcm
    have hreach2 : ∀ x ∈ rest.map Prod.snd, Reaches g s x := by
      intro x hx
      obtain ⟨p, hp, hpx⟩ := List.mem_map.mp hx
      exact hI.fr_reach x
        (List.mem_map.mpr ⟨p, removeFirst_subset _ _ _ (hrw ▸ hp), hpx⟩)
    have hok2 : ∀ x ∈ rest.map Prod.snd, x = s ∨ InBounds g x := by
      intro x hx
      obtain ⟨p, hp, hpx⟩ := List.mem_map.mp hx
      exact hI.fr_ok x
        (List.mem_map.mpr ⟨p, removeFirst_subset _ _ _ (hrw ▸ hp), hpx⟩)
    unfold ucs_step
    rw [hpop]
    dsimp only
    split
    · rename_i hstale
      refine ⟨hI.hsearching, ⟨hI.hgrid, hI.hstart, hI.htarget, hI.hsearching,
        hI.hsuccess, hreach2, hok2, hI.ex_reach, hI.ex_ok, hI.ex_nodup⟩, ?_⟩
      simp only [ucsMeasure]
      have e2 : (({ a with frontier_pq := rest } : App).frontier_pq).length =
          rest.length := rfl
      rw [e2]
      omega
    · rename_i hcf
      have hexr2 : ∀ x ∈ sadd a.explored c, Reaches g s x := by
        rw [sadd_of_not_mem hcf]
        intro x hx
        rcases List.mem_cons.mp hx with rfl | hx
        · exact hrc
        · exact hI.ex_reach x hx
      have hexo2 : ∀ x ∈ sadd a.explored c, x = s ∨ InBounds g x := by
        rw [sadd_of_not_mem hcf]
        intro x hx
        rcases List.mem_cons.mp hx with rfl | hx
        · exact hcok
        · exact hI.ex_ok x hx
      have hexnd2 : (sadd a.explored c).Nodup := by
        rw [sadd_of_not_mem hcf]
        exact List.nodup_cons.mpr ⟨hcf, hI.ex_nodup⟩
      have hEbound : a.explored.length + 1 ≤ searchBound g := by
        have h := nodup_ok_length_le g s (c :: a.explored)
          (List.nodup_cons.mpr ⟨hcf, hI.ex_nodup⟩)
          (by
            intro x hx
            rcases List.mem_cons.mp hx with rfl | hx
            · exact hcok
            · exact hI.ex_ok x hx)
        simpa using h
      split
      · have hpop2 := ucs_after_pop_inv g s t
          { a with frontier_pq := rest, explored := sadd a.explored c,
                   cell_states := setCell a.cell_states c CellState.EXPLORED } c
          hI.hgrid hI.hstart hI.htarget hI.hsearching hI.hsuccess hrc
          hreach2 hok2 hexr2 hexo2 hexnd2
        refine ⟨hpop2.2.1, hpop2.1, ?_⟩
        simp only [ucsMeasure]
        rw [hpop2.2.2.1]
        have hsl :
            (({ a with frontier_pq := rest, explored := sadd a.explored c,
                       cell_states := setCell a.cell_states c CellState.EXPLORED } :
              App).explored).length = a.explored.length + 1 := by
          show (sadd a.explored c).length = _
          rw [sadd_of_not_mem hcf]
          rfl
        rw [hsl]
        have hflen := hpop2.2.2.2
        have hA2 :
            (({ a with frontier_pq := rest, explored := sadd a.explored c,
                       cell_states := setCell a.cell_states c CellState.EXPLORED } :
              App).frontier_pq).length = rest.length := rfl
        rw [hA2] at hflen
        omega
      · have hpop2 := ucs_after_pop_inv g s t
          { a with frontier_pq := rest, explored := sadd a.explored c } c
          hI.hgrid hI.hstart hI.htarget hI.hsearching hI.hsuccess hrc
          hreach2 hok2 hexr2 hexo2 hexnd2
        refine ⟨hpop2.2.1, hpop2.1, ?_⟩
        simp only [ucsMeasure]
        rw [hpop2.2.2.1]
        have hsl :
            (({ a with frontier_pq := rest, explored := sadd a.explored c } :
              App).explored).length = a.explored.length + 1 := by
          show (sadd a.explored c).length = _
          rw [sadd_of_not_mem hcf]
          rfl
        rw [hsl]
        have hflen := hpop2.2.2.2
        have hA2 :
            (({ a with frontier_pq := rest, explored := sadd a.explored c } :
              App).frontier_pq).length = rest.length := rfl
        rw [hA2] at hflen
        omega

theorem dls_push_current_depth_limit (c : Node) (d : Nat) (a : App) (n : Node) :
    (dls_push c d a n).current_depth_limit = a.current_depth_limit := by
  unfold dls_push
  dsimp only
  repeat' split
  all_goals rfl

theorem dls_expand_fold_inv (g : Grid) (s c : Node) (d : Nat)
    (hc : Reaches g s c) :
    ∀ (l : List Node) (a : App),
      (∀ x ∈ l, x ∈ get_neighbors g c) →
      (∀ x ∈ a.frontier_d.map Prod.fst, Reaches g s x) →
      (∀ x ∈ a.frontier_d.map Prod.fst, x = s ∨ InBounds g x) →
      (∀ x ∈ (l.foldl (dls_push c d) a).frontier_d.map Prod.fst, Reaches g s x)
      ∧ (∀ x ∈ (l.foldl (dls_push c d) a).frontier_d.map Prod.fst,
          x = s ∨ InBounds g x)
      ∧ (l.foldl (dls_push c d) a).frontier_d.length ≤
          a.frontier_d.length + l.length
  | [], a, hl, h3, h4 => ⟨h3, h4, by simp⟩
  | x :: l, a, hl, h3, h4 => by
    rw [List.foldl_cons]
    have hxn : x ∈ get_neighbors g c := hl x (List.mem_cons_self x l)
    have hbf := dls_push_frontier_d c d a x
    have hxr : Reaches g s x := Relation.ReflTransGen.tail hc hxn
    have hxo : x = s ∨ InBounds g x := Or.inr (mem_get_neighbors_ok g c x hxn).1
    have main := dls_expand_fold_inv g s c d hc l (dls_push c d a x)
      (fun y hy => hl y (List.mem_cons_of_mem x hy))
    split at hbf
    · obtain ⟨c1, c2, c3⟩ := main (hbf ▸ h3) (hbf ▸ h4)
      refine ⟨c1, c2, ?_⟩
      rw [hbf] at c3
      simp only [List.length_cons]
      omega
    · have h3b : ∀ y ∈ (dls_push c d a x).frontier_d.map Prod.fst,
          Reaches g s y := by
        rw [hbf]
        intro y hy
        simp only [List.map_cons, List.mem_cons] at hy
        rcases hy with rfl | hy
        · exact hxr
        · exact h3 y hy
      have h4b : ∀ y ∈ (dls_push c d a x).frontier_d.map Prod.fst,
          y = s ∨ InBounds g y := by
        rw [hbf]
        intro y hy
        simp only [List.map_cons, List.mem_cons] at hy
        rcases hy with rfl | hy
        · exact hxo
        · exact h4 y hy
      obtain ⟨c1, c2, c3⟩ := main h3b h4b
      refine ⟨c1, c2, ?_⟩
      rw [hbf] at c3
      simp only [List.length_cons] at c3 ⊢
      omega

theorem dls_after_pop_inv (g : Grid) (s t : Node) (a2 : App) (c : Node)
    (d : Nat)
    (hg : a2.grid = g) (hst : a2.start = s) (htg : a2.target = t)
    (hsr : a2.searching = true) (hsu : a2.success = false)
    (hrc : Reaches g s c)
    (h3 : ∀ x ∈ a2.frontier_d.map Prod.fst, Reaches g s x)
    (h4 : ∀ x ∈ a2.frontier_d.map Prod.fst, x = s ∨ InBounds g x)
    (h5 : ∀ x ∈ a2.explored, Reaches g s x)
    (h6 : ∀ x ∈ a2.explored, x = s ∨ InBounds g x)
    (h7 : a2.explored.Nodup) :
    SearchInv g s t (fun b => b.frontier_d.map Prod.fst)
      { dls_expand a2 c d with step_count := (dls_expand a2 c d).step_count + 1 }
    ∧ (dls_expand a2 c d).searching = true
    ∧ ((dls_expand a2 c d).explored = a2.explored
      ∧ (dls_expand a2 c d).frontier_d.length ≤ a2.frontier_d.length + 6
      ∧ (dls_expand a2 c d).current_depth_limit = a2.current_depth_limit) := by
  have hfold := dls_expand_fold_inv g s c d hrc
    ((get_neighbors a2.grid c).reverse) a2
    (fun x hx => by
      rw [hg] at hx
      exact List.mem_reverse.mp hx) h3 h4
  obtain ⟨c1, c2, c3⟩ := hfold
  have hexp : (dls_expand a2 c d).explored = a2.explored :=
    dls_expand_explored a2 c d
  have hlen : (dls_expand a2 c d).frontier_d.length ≤
      a2.frontier_d.length + 6 := by
    have h8 := get_neighbors_length_le a2.grid c
    have h9 : ((get_neighbors a2.grid c).reverse).length ≤ 6 := by
      rw [List.length_reverse]; exact h8
    unfold dls_expand at *
    omega
  have hsearch : (dls_expand a2 c d).searching = true :=
    (foldl_preserves App.searching (dls_push c d) (dls_push_searching c d) _ a2).trans hsr
  have hcdl : (dls_expand a2 c d).current_depth_limit = a2.current_depth_limit :=
    foldl_preserves App.current_depth_limit (dls_push c d)
      (dls_push_current_depth_limit c d) _ a2
  refine ⟨⟨?_, ?_, ?_, ?_, ?_, ?_, ?_, ?_, ?_, ?_⟩, hsearch, hexp, hlen, hcdl⟩
  · show (dls_expand a2 c d).grid = g
    exact (foldl_preserves App.grid (dls_push c d) (dls_push_grid c d) _ a2).trans hg
  · show (dls_expand a2 c d).start = s
    exact (foldl_preserves App.start (dls_push c d) (dls_push_start c d) _ a2).trans hst
  · show (dls_expand a2 c d).target = t
    exact (foldl_preserves App.target (dls_push c d) (dls_push_target c d) _ a2).trans htg
  · exact hsearch
  · show (dls_expand a2 c d).success = false
    exact (foldl_preserves App.success (dls_push c d) (dls_push_success c d) _ a2).trans hsu
  · exact c1
  · exact c2
  · show ∀ x ∈ (dls_expand a2 c d).explored, Reaches g s x
    rw [hexp]; exact h5
  · show ∀ x ∈ (dls_expand a2 c d).explored, x = s ∨ InBounds g x
    rw [hexp]; exact h6
  · show (dls_expand a2 c d).explored.Nodup
    rw [hexp]; exact h7

theorem dls_step_core (g : Grid) (s t : Node) (hur : ¬ Reaches g s t)
    (a : App) (hI : SearchInv g s t (fun b => b.frontier_d.map Prod.fst) a) :
    dls_step a = finish_search a false
    ∨ ((dls_step a).searching = true
        ∧ SearchInv g s t (fun b => b.frontier_d.map Prod.fst) (dls_step a)
        ∧ dlsMeasure g (dls_step a) < dlsMeasure g a) := by
  cases hfr : a.frontier_d with
  | nil =>
    left
    unfold dls_step
    rw [hfr]
  | cons cd rest =>
    obtain ⟨c, d⟩ := cd
    right
    have hcm : c ∈ a.frontier_d.map Prod.fst := by
      rw [hfr]
      exact List.mem_map.mpr ⟨(c, d), List.mem_cons_self _ _, rfl⟩
    have hrc : Reaches g s c := hI.fr_reach c hcm
    have hct : c ≠ a.target := by
      intro he
      rw [he, hI.htarget] at hrc
      exact hur hrc
    have hcok : c = s ∨ InBounds g c := hI.fr_ok c hcm
    have hreach2 : ∀ x ∈ rest.map Prod.fst, Reaches g s x := by
      intro x hx
      refine hI.fr_reach x ?_
      rw [hfr]
      simp only [List.map_cons, List.mem_cons]
      exact Or.inr hx
    have hok2 : ∀ x ∈ rest.map Prod.fst, x = s ∨ InBounds g x := by
      intro x hx
      refine hI.fr_ok x ?_
      rw [hfr]
      simp only [List.map_cons, List.mem_cons]
      exact Or.inr hx
    have hfr_len : a.frontier_d.length = rest.length + 1 := by
      rw [hfr]; rfl
    unfold dls_step
    rw [hfr]
    dsimp only
    split
    · rename_i hstale
      refine ⟨hI.hsearching, ⟨hI.hgrid, hI.hstart, hI.htarget, hI.hsearching,
        hI.hsuccess, hreach2, hok2, hI.ex_reach, hI.ex_ok, hI.ex_nodup⟩, ?_⟩
      simp only [dlsMeasure]
      have e2 : (({ a with frontier_d := rest } : App).frontier_d).length =
          rest.length := rfl
      rw [e2]
      omega
    · rename_i hcf
      have hexr2 : ∀ x ∈ sadd a.explored c, Reaches g s x := by
        rw [sadd_of_not_mem hcf]
        intro x hx
        rcases List.mem_cons.mp hx with rfl | hx
        · exact hrc
        · exact hI.ex_reach x hx
      have hexo2 : ∀ x ∈ sadd a.explored c, x = s ∨ InBounds g x := by
        rw [sadd_of_not_mem hcf]
        intro x hx
        rcases List.mem_cons.mp hx with rfl | hx
        · exact hcok
        · exact hI.ex_ok x hx
      have hexnd2 : (sadd a.explored c).Nodup := by
        rw [sadd_of_not_mem hcf]
        exact List.nodup_cons.mpr ⟨hcf, hI.ex_nodup⟩
      have hEbound : a.explored.length + 1 ≤ searchBound g := by
        have h := nodup_ok_length_le g s (c :: a.explored)
          (List.nodup_cons.mpr ⟨hcf, hI.ex_nodup⟩)
          (by
            intro x hx
            rcases List.mem_cons.mp hx with rfl | hx
            · exact hcok
            · exact hI.ex_ok x hx)
        simpa using h
      have hreach2m : ∀ x ∈ rest.map Prod.fst, Reaches g s x := hreach2
      have hok2m : ∀ x ∈ rest.map Prod.fst, x = s ∨ InBounds g x := hok2
      split
      · split
        · -- painted, expand
          have hpop2 := dls_after_pop_inv g s t
            { a with frontier_d := rest, explored := sadd a.explored c,
                         cell_states := setCell a.cell_states c CellState.EXPLORED } c d
            hI.hgrid hI.hstart hI.htarget hI.hsearching hI.hsuccess hrc
            hreach2 hok2 hexr2 hexo2 hexnd2
          refine ⟨hpop2.2.1, hpop2.1, ?_⟩
          simp only [dlsMeasure]
          rw [hpop2.2.2.1]
          have hsl :
              (({ a with frontier_d := rest, explored := sadd a.explored c,
                         cell_states := setCell a.cell_states c CellState.EXPLORED } :
                App).explored).length = a.explored.length + 1 := by
            show (sadd a.explored c).length = _
            rw [sadd_of_not_mem hcf]
            rfl
          rw [hsl]
          have hflen := hpop2.2.2.2.1
          have hA2 :
              (({ a with frontier_d := rest, explored := sadd a.explored c,
                         cell_states := setCell a.cell_states c CellState.EXPLORED } :
                App).frontier_d).length = rest.length := rfl
          rw [hA2] at hflen
          omega
        · -- painted, depth limit reached
          refine ⟨hI.hsearching, ⟨hI.hgrid, hI.hstart, hI.htarget, hI.hsearching,
            hI.hsuccess, hreach2m, hok2m, hexr2, hexo2, hexnd2⟩, ?_⟩
          simp only [dlsMeasure]
          have hsl :
              (({ a with frontier_d := rest, explored := sadd a.explored c,
                         cell_states := setCell a.cell_states c CellState.EXPLORED } :
                App).explored).length = a.explored.length + 1 := by
            show (sadd a.explored c).length = _
            rw [sadd_of_not_mem hcf]
            rfl
          have hA2 :
              (({ a with frontier_d := rest, explored := sadd a.explored c,
                         cell_states := setCell a.cell_states c CellState.EXPLORED } :
                App).frontier_d).length = rest.length := rfl
          rw [hsl, hA2]
          omega
      · split
        · -- unpainted, expand
          have hpop2 := dls_after_pop_inv g s t
            { a with frontier_d := rest, explored := sadd a.explored c } c d
            hI.hgrid hI.hstart hI.htarget hI.hsearching hI.hsuccess hrc
            hreach2 hok2 hexr2 hexo2 hexnd2
          refine ⟨hpop2.2.1, hpop2.1, ?_⟩
          simp only [dlsMeasure]
          rw [hpop2.2.2.1]
          have hsl :
              (({ a with frontier_d := rest, explored := sadd a.explored c } :
                App).explored).length = a.explored.length + 1 := by
            show (sadd a.explored c).length = _
            rw [sadd_of_not_mem hcf]
            rfl
          rw [hsl]
          have hflen := hpop2.2.2.2.1
          have hA2 :
              (({ a with frontier_d := rest, explored := sadd a.explored c } :
                App).frontier_d).length = rest.length := rfl
          rw [hA2] at hflen
          omega
        · -- unpainted, depth limit reached
          refine ⟨hI.hsearching, ⟨hI.hgrid, hI.hstart, hI.htarget, hI.hsearching,
            hI.hsuccess, hreach2m, hok2m, hexr2, hexo2, hexnd2⟩, ?_⟩
          simp only [dlsMeasure]
          have hsl :
              (({ a with frontier_d := rest, explored := sadd a.explored c } :
                App).explored).length = a.explored.length + 1 := by
            show (sadd a.explored c).length = _
            rw [sadd_of_not_mem hcf]
            rfl
          have hA2 :
              (({ a with frontier_d := rest, explored := sadd a.explored c } :
                App).frontier_d).length = rest.length := rfl
          rw [hsl, hA2]
          omega
/-- Adapter like core_to_step, with the failure disjunct given by its
observable flags (iterative deepening finishes from a modified state). -/
theorem core_to_step2 (f : App → App) (Inv : App → Prop) (μ : App → Nat)
    (hsr : ∀ a, Inv a → a.searching = true)
    (hcore : ∀ a, Inv a →
      ((f a).searching = false ∧ (f a).search_complete = true
        ∧ (f a).success = false) ∨
      ((f a).searching = true ∧ Inv (f a) ∧ μ (f a) < μ a)) :
    ∀ a, Inv a → a.searching = true ∧
      ((f a).searching = true → Inv (f a) ∧ μ (f a) < μ a) ∧
      ((f a).searching = false →
        (f a).search_complete = true ∧ (f a).success = false) := by
  intro a hI
  refine ⟨hsr a hI, ?_, ?_⟩
  · intro hs
    rcases hcore a hI with h | h
    · rw [h.1] at hs
      exact absurd hs (by simp)
    · exact ⟨h.2.1, h.2.2⟩
  · intro hs
    rcases hcore a hI with h | h
    · exact ⟨h.2.1, h.2.2⟩
    · rw [h.1] at hs
      exact absurd hs (by simp)

theorem iddfs_step_core (g : Grid) (s t : Node) (hur : ¬ Reaches g s t)
    (a : App) (hI : SearchInv g s t (fun b => b.frontier_d.map Prod.fst) a) :
    ((iddfs_step a).searching = false ∧ (iddfs_step a).search_complete = true
      ∧ (iddfs_step a).success = false)
    ∨ ((iddfs_step a).searching = true
        ∧ SearchInv g s t (fun b => b.frontier_d.map Prod.fst) (iddfs_step a)
        ∧ iddfsMeasure g (iddfs_step a) < iddfsMeasure g a) := by
  cases hfr : a.frontier_d with
  | nil =>
    unfold iddfs_step
    rw [hfr]
    dsimp only
    split
    · rename_i hgt
      left
      exact ⟨rfl, rfl, rfl⟩
    · rename_i hle
      right
      refine ⟨hI.hsearching, ⟨hI.hgrid, hI.hstart, hI.htarget, hI.hsearching,
        hI.hsuccess, ?_, ?_, by simp, by simp, by simp⟩, ?_⟩
      · intro x hx
        simp only [List.map_cons, List.map_nil, List.mem_singleton] at hx
        subst hx
        rw [hI.hstart]
        exact Relation.ReflTransGen.refl
      · intro x hx
        simp only [List.map_cons, List.map_nil, List.mem_singleton] at hx
        subst hx
        rw [hI.hstart]
        exact Or.inl rfl
      · simp only [iddfsMeasure, dlsMeasure, List.length_nil, List.length_cons,
          Nat.sub_zero]
        have hcap : a.current_depth_limit + 1 ≤ 50 := by omega
        have h51 : 51 - a.current_depth_limit =
            (51 - (a.current_depth_limit + 1)) + 1 := by omega
        rw [h51, Nat.add_mul, one_mul]
        have hKpos : 1 ≤ searchBound g := Nat.le_add_left 1 _
        omega
  | cons cd rest =>
    obtain ⟨c, d⟩ := cd
    right
    have hcm : c ∈ a.frontier_d.map Prod.fst := by
      rw [hfr]
      exact List.mem_map.mpr ⟨(c, d), List.mem_cons_self _ _, rfl⟩
    have hrc : Reaches g s c := hI.fr_reach c hcm
    have hct : c ≠ a.target := by
      intro he
      rw [he, hI.htarget] at hrc
      exact hur hrc
    have hcok : c = s ∨ InBounds g c := hI.fr_ok c hcm
    have hreach2 : ∀ x ∈ rest.map Prod.fst, Reaches g s x := by
      intro x hx
      refine hI.fr_reach x ?_
      rw [hfr]
      simp only [List.map_cons, List.mem_cons]
      exact Or.inr hx
    have hok2 : ∀ x ∈ rest.map Prod.fst, x = s ∨ InBounds g x := by
      intro x hx
      refine hI.fr_ok x ?_
      rw [hfr]
      simp only [List.map_cons, List.mem_cons]
      exact Or.inr hx
    have hfr_len : a.frontier_d.length = rest.length + 1 := by
      rw [hfr]; rfl
    unfold iddfs_step
    rw [hfr]
    dsimp only
    split
    · rename_i hstale
      refine ⟨hI.hsearching, ⟨hI.hgrid, hI.hstart, hI.htarget, hI.hsearching,
        hI.hsuccess, hreach2, hok2, hI.ex_reach, hI.ex_ok, hI.ex_nodup⟩, ?_⟩
      simp only [iddfsMeasure, dlsMeasure]
      have e1 : (({ a with frontier_d := rest } : App).current_depth_limit) =
          a.current_depth_limit := rfl
      have e2 : (({ a with frontier_d := rest } : App).explored) =
          a.explored := rfl
      have e3 : (({ a with frontier_d := rest } : App).frontier_d).length =
          rest.length := rfl
      rw [e1, e2, e3]
      omega
    · rename_i hcf
      have hexr2 : ∀ x ∈ sadd a.explored c, Reaches g s x := by
        rw [sadd_of_not_mem hcf]
        intro x hx
        rcases List.mem_cons.mp hx with rfl | hx
        · exact hrc
        · exact hI.ex_reach x hx
      have hexo2 : ∀ x ∈ sadd a.explored c, x = s ∨ InBounds g x := by
        rw [sadd_of_not_mem hcf]
        intro x hx
        rcases List.mem_cons.mp hx with rfl | hx
        · exact hcok
        · exact hI.ex_ok x hx
      have hexnd2 : (sadd a.explored c).Nodup := by
        rw [sadd_of_not_mem hcf]
        exact List.nodup_cons.mpr ⟨hcf, hI.ex_nodup⟩
      have hEbound : a.explored.length + 1 ≤ searchBound g := by
        have h := nodup_ok_length_le g s (c :: a.explored)
          (List.nodup_cons.mpr ⟨hcf, hI.ex_nodup⟩)
          (by
            intro x hx
            rcases List.mem_cons.mp hx with rfl | hx
            · exact hcok
            · exact hI.ex_ok x hx)
        simpa using h
      have hreach2m : ∀ x ∈ rest.map Prod.fst, Reaches g s x := hreach2
      have hok2m : ∀ x ∈ rest.map Prod.fst, x = s ∨ InBounds g x := hok2
      split
      · split
        · -- painted, expand
          have hpop2 := dls_after_pop_inv g s t
            { a with frontier_d := rest, explored := sadd a.explored c,
                     cell_states := setCell a.cell_states c CellState.EXPLORED } c d
            hI.hgrid hI.hstart hI.htarget hI.hsearching hI.hsuccess hrc
            hreach2 hok2 hexr2 hexo2 hexnd2
          refine ⟨hpop2.2.1, hpop2.1, ?_⟩
          simp only [iddfsMeasure, dlsMeasure]
          rw [hpop2.2.2.1, hpop2.2.2.2.2]
          have hsl :
              (({ a with frontier_d := rest, explored := sadd a.explored c,
                         cell_states := setCell a.cell_states c CellState.EXPLORED } :
                App).explored).length = a.explored.length + 1 := by
            show (sadd a.explored c).length = _
            rw [sadd_of_not_mem hcf]
            rfl
          rw [hsl]
          have hflen := hpop2.2.2.2.1
          have hA2 :
              (({ a with frontier_d := rest, explored := sadd a.explored c,
                         cell_states := setCell a.cell_states c CellState.EXPLORED } :
                App).frontier_d).length = rest.length := rfl
          rw [hA2] at hflen
          have hA3 :
              (({ a with frontier_d := rest, explored := sadd a.explored c,
                         cell_states := setCell a.cell_states c CellState.EXPLORED } :
                App).current_depth_limit) = a.current_depth_limit := rfl
          rw [hA3]
          omega
        · -- painted, depth limit reached
          refine ⟨hI.hsearching, ⟨hI.hgrid, hI.hstart, hI.htarget, hI.hsearching,
            hI.hsuccess, hreach2m, hok2m, hexr2, hexo2, hexnd2⟩, ?_⟩
          simp only [iddfsMeasure, dlsMeasure]
          have hsl :
              (({ a with frontier_d := rest, explored := sadd a.explored c,
                         cell_states := setCell a.cell_states c CellState.EXPLORED } :
                App).explored).length = a.explored.length + 1 := by
            show (sadd a.explored c).length = _
            rw [sadd_of_not_mem hcf]
            rfl
          have hA2 :
              (({ a with frontier_d := rest, explored := sadd a.explored c,
                         cell_states := setCell a.cell_states c CellState.EXPLORED } :
                App).frontier_d).length = rest.length := rfl
          have hA3 :
              (({ a with frontier_d := rest, explored := sadd a.explored c,
                         cell_states := setCell a.cell_states c CellState.EXPLORED } :
                App).current_depth_limit) = a.current_depth_limit := rfl
          rw [hsl, hA2, hA3]
          omega
      · split
        · -- unpainted, expand
          have hpop2 := dls_after_pop_inv g s t
            { a with frontier_d := rest, explored := sadd a.explored c } c d
            hI.hgrid hI.hstart hI.htarget hI.hsearching hI.hsuccess hrc
            hreach2 hok2 hexr2 hexo2 hexnd2
          refine ⟨hpop2.2.1, hpop2.1, ?_⟩
          simp only [iddfsMeasure, dlsMeasure]
          rw [hpop2.2.2.1, hpop2.2.2.2.2]
          have hsl :
              (({ a with frontier_d := rest, explored := sadd a.explored c } :
                App).explored).length = a.explored.length + 1 := by
            show (sadd a.explored c).length = _
            rw [sadd_of_not_mem hcf]
            rfl
          rw [hsl]
          have hflen := hpop2.2.2.2.1
          have hA2 :
              (({ a with frontier_d := rest, explored := sadd a.explored c } :
                App).frontier_d).length = rest.length := rfl
          rw [hA2] at hflen
          have hA3 :
              (({ a with frontier_d := rest, explored := sadd a.explored c } :
                App).current_depth_limit) = a.current_depth_limit := rfl
          rw [hA3]
          omega
        · -- unpainted, depth limit reached
          refine ⟨hI.hsearching, ⟨hI.hgrid, hI.hstart, hI.htarget, hI.hsearching,
            hI.hsuccess, hreach2m, hok2m, hexr2, hexo2, hexnd2⟩, ?_⟩
          simp only [iddfsMeasure, dlsMeasure]
          have hsl :
              (({ a with frontier_d := rest, explored := sadd a.explored c } :
                App).explored).length = a.explored.length + 1 := by
            show (sadd a.explored c).length = _
            rw [sadd_of_not_mem hcf]
            rfl
          have hA2 :
              (({ a with frontier_d := rest, explored := sadd a.explored c } :
                App).frontier_d).length = rest.length := rfl
          have hA3 :
              (({ a with frontier_d := rest, explored := sadd a.explored c } :
                App).current_depth_limit) = a.current_depth_limit := rfl
          rw [hsl, hA2, hA3]
          omega

/-- Forward-side analogue of the breadth-first enqueue-loop invariant. -/
theorem bidi_fwd_fold_inv (g : Grid) (s c : Node) (hc : Reaches g s c) :
    ∀ (l : List Node) (a : App), a.grid = g →
      (∀ x ∈ l, x ∈ get_neighbors g c) →
      a.frontier_forward.Nodup →
      (∀ x ∈ a.frontier_forward, x ∉ a.explored_forward) →
      (∀ x ∈ a.frontier_forward, Reaches g s x) →
      (∀ x ∈ a.frontier_forward, x = s ∨ InBounds g x) →
      (l.foldl (bidi_push_forward c) a).frontier_forward.Nodup
      ∧ (∀ x ∈ (l.foldl (bidi_push_forward c) a).frontier_forward,
          x ∉ (l.foldl (bidi_push_forward c) a).explored_forward)
      ∧ (∀ x ∈ (l.foldl (bidi_push_forward c) a).frontier_forward, Reaches g s x)
      ∧ (∀ x ∈ (l.foldl (bidi_push_forward c) a).frontier_forward, x = s ∨ InBounds g x)
      ∧ (l.foldl (bidi_push_forward c) a).frontier_forward.length ≤ a.frontier_forward.length + l.length
  | [], a, hg, hl, h1, h2, h3, h4 => ⟨h1, h2, h3, h4, by simp⟩
  | x :: l, a, hg, hl, h1, h2, h3, h4 => by
    rw [List.foldl_cons]
    have hxn : x ∈ get_neighbors g c := hl x (List.mem_cons_self x l)
    have hbg : (bidi_push_forward c a x).grid = a.grid := bidi_push_forward_grid c a x
    have hbe : (bidi_push_forward c a x).explored_forward = a.explored_forward := bidi_push_forward_explored_forward c a x
    have hbf := bidi_push_forward_frontier c a x
    have hxr : Reaches g s x := Relation.ReflTransGen.tail hc hxn
    have hxo : x = s ∨ InBounds g x := Or.inr (mem_get_neighbors_ok g c x hxn).1
    have main := bidi_fwd_fold_inv g s c hc l (bidi_push_forward c a x)
      (by rw [hbg, hg])
      (fun y hy => hl y (List.mem_cons_of_mem x hy))
    split at hbf
    · rename_i hcond
      have h1b : (bidi_push_forward c a x).frontier_forward.Nodup := by
        rw [hbf]
        simp only [List.nodup_append, List.nodup_cons, List.not_mem_nil,
          not_false_iff, List.nodup_nil, and_true, true_and]
        constructor
        · exact h1
        · intro y hy hy2
          simp only [List.mem_singleton] at hy2
          subst hy2
          exact hcond.2 hy
      have h2b : ∀ y ∈ (bidi_push_forward c a x).frontier_forward, y ∉ (bidi_push_forward c a x).explored_forward := by
        rw [hbf, hbe]
        intro y hy
        rcases List.mem_append.mp hy with hy | hy
        · exact h2 y hy
        · simp only [List.mem_singleton] at hy
          subst hy
          exact hcond.1
      have h3b : ∀ y ∈ (bidi_push_forward c a x).frontier_forward, Reaches g s y := by
        rw [hbf]
        intro y hy
        rcases List.mem_append.mp hy with hy | hy
        · exact h3 y hy
        · simp only [List.mem_singleton] at hy
          subst hy
          exact hxr
      have h4b : ∀ y ∈ (bidi_push_forward c a x).frontier_forward, y = s ∨ InBounds g y := by
        rw [hbf]
        intro y hy
        rcases List.mem_append.mp hy with hy | hy
        · exact h4 y hy
        · simp only [List.mem_singleton] at hy
          subst hy
          exact hxo
      obtain ⟨c1, c2, c3, c4, c5⟩ := main h1b h2b h3b h4b
      refine ⟨c1, c2, c3, c4, ?_⟩
      rw [hbf] at c5
      simp only [List.length_append, List.length_cons, List.length_nil] at c5
      simp only [List.length_cons]
      omega
    · have h2b : ∀ y ∈ (bidi_push_forward c a x).frontier_forward, y ∉ (bidi_push_forward c a x).explored_forward := by
        rw [hbf, hbe]; exact h2
      obtain ⟨c1, c2, c3, c4, c5⟩ := main (hbf ▸ h1) h2b (hbf ▸ h3) (hbf ▸ h4)
      refine ⟨c1, c2, c3, c4, ?_⟩
      rw [hbf] at c5
      simp only [List.length_cons]
      omega

/-- Backward-side analogue of the breadth-first enqueue-loop invariant. -/
theorem bidi_bwd_fold_inv (g : Grid) (s c : Node) (hc : Reaches g s c) :
    ∀ (l : List Node) (a : App), a.grid = g →
      (∀ x ∈ l, x ∈ get_neighbors g c) →
      a.frontier_backward.Nodup →
      (∀ x ∈ a.frontier_backward, x ∉ a.explored_backward) →
      (∀ x ∈ a.frontier_backward, Reaches g s x) →
      (∀ x ∈ a.frontier_backward, x = s ∨ InBounds g x) →
      (l.foldl (bidi_push_backward c) a).frontier_backward.Nodup
      ∧ (∀ x ∈ (l.foldl (bidi_push_backward c) a).frontier_backward,
          x ∉ (l.foldl (bidi_push_backward c) a).explored_backward)
      ∧ (∀ x ∈ (l.foldl (bidi_push_backward c) a).frontier_backward, Reaches g s x)
      ∧ (∀ x ∈ (l.foldl (bidi_push_backward c) a).frontier_backward, x = s ∨ InBounds g x)
      ∧ (l.foldl (bidi_push_backward c) a).frontier_backward.length ≤ a.frontier_backward.length + l.length
  | [], a, hg, hl, h1, h2, h3, h4 => ⟨h1, h2, h3, h4, by simp⟩
  | x :: l, a, hg, hl, h1, h2, h3, h4 => by
    rw [List.foldl_cons]
    have hxn : x ∈ get_neighbors g c := hl x (List.mem_cons_self x l)
    have hbg : (bidi_push_backward c a x).grid = a.grid := bidi_push_backward_grid c a x
    have hbe : (bidi_push_backward c a x).explored_backward = a.explored_backward := bidi_push_backward_explored_backward c a x
    have hbf := bidi_push_backward_frontier c a x
    have hxr : Reaches g s x := Relation.ReflTransGen.tail hc hxn
    have hxo : x = s ∨ InBounds g x := Or.inr (mem_get_neighbors_ok g c x hxn).1
    have main := bidi_bwd_fold_inv g s c hc l (bidi_push_backward c a x)
      (by rw [hbg, hg])
      (fun y hy => hl y (List.mem_cons_of_mem x hy))
    split at hbf
    · rename_i hcond
      have h1b : (bidi_push_backward c a x).frontier_backward.Nodup := by
        rw [hbf]
        simp only [List.nodup_append, List.nodup_cons, List.not_mem_nil,
          not_false_iff, List.nodup_nil, and_true, true_and]
        constructor
        · exact h1
        · intro y hy hy2
          simp only [List.mem_singleton] at hy2
          subst hy2
          exact hcond.2 hy
      have h2b : ∀ y ∈ (bidi_push_backward c a x).frontier_backward, y ∉ (bidi_push_backward c a x).explored_backward := by
        rw [hbf, hbe]
        intro y hy
        rcases List.mem_append.mp hy with hy | hy
        · exact h2 y hy
        · simp only [List.mem_singleton] at hy
          subst hy
          exact hcond.1
      have h3b : ∀ y ∈ (bidi_push_backward c a x).frontier_backward, Reaches g s y := by
        rw [hbf]
        intro y hy
        rcases List.mem_append.mp hy with hy | hy
        · exact h3 y hy
        · simp only [List.mem_singleton] at hy
          subst hy
          exact hxr
      have h4b : ∀ y ∈ (bidi_push_backward c a x).frontier_backward, y = s ∨ InBounds g y := by
        rw [hbf]
        intro y hy
        rcases List.mem_append.mp hy with hy | hy
        · exact h4 y hy
        · simp only [List.mem_singleton] at hy
          subst hy
          exact hxo
      obtain ⟨c1, c2, c3, c4, c5⟩ := main h1b h2b h3b h4b
      refine ⟨c1, c2, c3, c4, ?_⟩
      rw [hbf] at c5
      simp only [List.length_append, List.length_cons, List.length_nil] at c5
      simp only [List.length_cons]
      omega
    · have h2b : ∀ y ∈ (bidi_push_backward c a x).frontier_backward, y ∉ (bidi_push_backward c a x).explored_backward := by
        rw [hbf, hbe]; exact h2
      obtain ⟨c1, c2, c3, c4, c5⟩ := main (hbf ▸ h1) h2b (hbf ▸ h3) (hbf ▸ h4)
      refine ⟨c1, c2, c3, c4, ?_⟩
      rw [hbf] at c5
      simp only [List.length_cons]
      omega

/-- After the forward side of bidirectional search pops a fresh reachable
node, the enqueue loop restores the run invariant and the counter bump
keeps it; the backward structures are untouched and the forward frontier
grows by at most the six candidate moves. -/
theorem bidi_fwd_after_pop_inv (g : Grid) (s t : Node) (a2 : App) (c : Node)
    (hg : a2.grid = g) (hst : a2.start = s) (htg : a2.target = t)
    (hsr : a2.searching = true) (hsu : a2.success = false)
    (hrc : Reaches g s c)
    (h1 : a2.frontier_forward.Nodup)
    (h2 : ∀ x ∈ a2.frontier_forward, x ∉ a2.explored_forward)
    (h3 : ∀ x ∈ a2.frontier_forward, Reaches g s x)
    (h4 : ∀ x ∈ a2.frontier_forward, x = s ∨ InBounds g x)
    (h5 : ∀ x ∈ a2.explored_forward, Reaches g s x)
    (h6 : ∀ x ∈ a2.explored_forward, x = s ∨ InBounds g x)
    (h7 : a2.explored_forward.Nodup)
    (b1 : ∀ x ∈ a2.frontier_backward, Reaches g t x)
    (b2 : ∀ x ∈ a2.frontier_backward, x = t ∨ InBounds g x)
    (b3 : ∀ x ∈ a2.explored_backward, Reaches g t x)
    (b4 : ∀ x ∈ a2.explored_backward, x = t ∨ InBounds g x)
    (b5 : a2.explored_backward.Nodup)
    (b6 : a2.frontier_backward.Nodup)
    (b7 : ∀ x ∈ a2.frontier_backward, x ∉ a2.explored_backward) :
    BidiInv g s t
      { bidi_expand_forward a2 c with
          step_count := (bidi_expand_forward a2 c).step_count + 1 }
    ∧ (bidi_expand_forward a2 c).searching = true
    ∧ ((bidi_expand_forward a2 c).explored_forward = a2.explored_forward
      ∧ (bidi_expand_forward a2 c).frontier_forward.length
          ≤ a2.frontier_forward.length + 6
      ∧ (bidi_expand_forward a2 c).explored_backward = a2.explored_backward
      ∧ (bidi_expand_forward a2 c).frontier_backward = a2.frontier_backward) := by
  have hfold := bidi_fwd_fold_inv g s c hrc (get_neighbors a2.grid c) a2 hg
    (fun x hx => by rw [hg] at hx; exact hx) h1 h2 h3 h4
  obtain ⟨c1, c2, c3, c4, c5⟩ := hfold
  have hexp : (bidi_expand_forward a2 c).explored_forward = a2.explored_forward :=
    bidi_expand_forward_explored_forward a2 c
  have hexb : (bidi_expand_forward a2 c).explored_backward = a2.explored_backward :=
    bidi_expand_forward_explored_backward a2 c
  have hfrb : (bidi_expand_forward a2 c).frontier_backward = a2.frontier_backward :=
    bidi_expand_forward_frontier_backward a2 c
  have hlen : (bidi_expand_forward a2 c).frontier_forward.length
      ≤ a2.frontier_forward.length + 6 := by
    have := get_neighbors_length_le a2.grid c
    unfold bidi_expand_forward at *
    omega
  have hsearch : (bidi_expand_forward a2 c).searching = true :=
    (foldl_preserves App.searching (bidi_push_forward c)
      (bidi_push_forward_searching c) _ a2).trans hsr
  refine ⟨⟨?_, ?_, ?_, ?_, ?_, ?_, ?_, ?_, ?_, ?_, ?_, ?_, ?_, ?_, ?_, ?_, ?_,
    ?_, ?_⟩, hsearch, hexp, hlen, hexb, hfrb⟩
  · show (bidi_expand_forward a2 c).grid = g
    exact (foldl_preserves App.grid (bidi_push_forward c)
      (bidi_push_forward_grid c) _ a2).trans hg
  · show (bidi_expand_forward a2 c).start = s
    exact (foldl_preserves App.start (bidi_push_forward c)
      (bidi_push_forward_start c) _ a2).trans hst
  · show (bidi_expand_forward a2 c).target = t
    exact (foldl_preserves App.target (bidi_push_forward c)
      (bidi_push_forward_target c) _ a2).trans htg
  · show (bidi_expand_forward a2 c).searching = true
    exact hsearch
  · show (bidi_expand_forward a2 c).success = false
    exact (foldl_preserves App.success (bidi_push_forward c)
      (bidi_push_forward_success c) _ a2).trans hsu
  · exact c3
  · exact c4
  · show ∀ x ∈ (bidi_expand_forward a2 c).explored_forward, Reaches g s x
    rw [hexp]; exact h5
  · show ∀ x ∈ (bidi_expand_forward a2 c).explored_forward, x = s ∨ InBounds g x
    rw [hexp]; exact h6
  · show (bidi_expand_forward a2 c).explored_forward.Nodup
    rw [hexp]; exact h7
  · exact c1
  · exact c2
  · show ∀ x ∈ (bidi_expand_forward a2 c).frontier_backward, Reaches g t x
    rw [hfrb]; exact b1
  · show ∀ x ∈ (bidi_expand_forward a2 c).frontier_backward, x = t ∨ InBounds g x
    rw [hfrb]; exact b2
  · show ∀ x ∈ (bidi_expand_forward a2 c).explored_backward, Reaches g t x
    rw [hexb]; exact b3
  · show ∀ x ∈ (bidi_expand_forward a2 c).explored_backward, x = t ∨ InBounds g x
    rw [hexb]; exact b4
  · show (bidi_expand_forward a2 c).explored_backward.Nodup
    rw [hexb]; exact b5
  · show (bidi_expand_forward a2 c).frontier_backward.Nodup
    rw [hfrb]; exact b6
  · show ∀ x ∈ (bidi_expand_forward a2 c).frontier_backward,
      x ∉ (bidi_expand_forward a2 c).explored_backward
    rw [hfrb, hexb]; exact b7

/-- Backward-side analogue of bidi_fwd_after_pop_inv. -/
theorem bidi_bwd_after_pop_inv (g : Grid) (s t : Node) (a2 : App) (c : Node)
    (hg : a2.grid = g) (hst : a2.start = s) (htg : a2.target = t)
    (hsr : a2.searching = true) (hsu : a2.success = false)
    (hrc : Reaches g t c)
    (h1 : a2.frontier_backward.Nodup)
    (h2 : ∀ x ∈ a2.frontier_backward, x ∉ a2.explored_backward)
    (h3 : ∀ x ∈ a2.frontier_backward, Reaches g t x)
    (h4 : ∀ x ∈ a2.frontier_backward, x = t ∨ InBounds g x)
    (h5 : ∀ x ∈ a2.explored_backward, Reaches g t x)
    (h6 : ∀ x ∈ a2.explored_backward, x = t ∨ InBounds g x)
    (h7 : a2.explored_backward.Nodup)
    (b1 : ∀ x ∈ a2.frontier_forward, Reaches g s x)
    (b2 : ∀ x ∈ a2.frontier_forward, x = s ∨ InBounds g x)
    (b3 : ∀ x ∈ a2.explored_forward, Reaches g s x)
    (b4 : ∀ x ∈ a2.explored_forward, x = s ∨ InBounds g x)
    (b5 : a2.explored_forward.Nodup)
    (b6 : a2.frontier_forward.Nodup)
    (b7 : ∀ x ∈ a2.frontier_forward, x ∉ a2.explored_forward) :
    BidiInv g s t
      { bidi_expand_backward a2 c with
          step_count := (bidi_expand_backward a2 c).step_count + 1 }
    ∧ (bidi_expand_backward a2 c).searching = true
    ∧ ((bidi_expand_backward a2 c).explored_backward = a2.explored_backward
      ∧ (bidi_expand_backward a2 c).frontier_backward.length
          ≤ a2.frontier_backward.length + 6
      ∧ (bidi_expand_backward a2 c).explored_forward = a2.explored_forward
      ∧ (bidi_expand_backward a2 c).frontier_forward = a2.frontier_forward) := by
  have hfold := bidi_bwd_fold_inv g t c hrc (get_neighbors a2.grid c) a2 hg
    (fun x hx => by rw [hg] at hx; exact hx) h1 h2 h3 h4
  obtain ⟨c1, c2, c3, c4, c5⟩ := hfold
  have hexp : (bidi_expand_backward a2 c).explored_backward =
      a2.explored_backward :=
    bidi_expand_backward_explored_backward a2 c
  have hexf : (bidi_expand_backward a2 c).explored_forward =
      a2.explored_forward :=
    bidi_expand_backward_explored_forward a2 c
  have hfrf : (bidi_expand_backward a2 c).frontier_forward =
      a2.frontier_forward :=
    bidi_expand_backward_frontier_forward a2 c
  have hlen : (bidi_expand_backward a2 c).frontier_backward.length
      ≤ a2.frontier_backward.length + 6 := by
    have := get_neighbors_length_le a2.grid c
    unfold bidi_expand_backward at *
    omega
  have hsearch : (bidi_expand_backward a2 c).searching = true :=
    (foldl_preserves App.searching (bidi_push_backward c)
      (bidi_push_backward_searching c) _ a2).trans hsr
  refine ⟨⟨?_, ?_, ?_, ?_, ?_, ?_, ?_, ?_, ?_, ?_, ?_, ?_, ?_, ?_, ?_, ?_, ?_,
    ?_, ?_⟩, hsearch, hexp, hlen, hexf, hfrf⟩
  · show (bidi_expand_backward a2 c).grid = g
    exact (foldl_preserves App.grid (bidi_push_backward c)
      (bidi_push_backward_grid c) _ a2).trans hg
  · show (bidi_expand_backward a2 c).start = s
    exact (foldl_preserves App.start (bidi_push_backward c)
      (bidi_push_backward_start c) _ a2).trans hst
  · show (bidi_expand_backward a2 c).target = t
    exact (foldl_preserves App.target (bidi_push_backward c)
      (bidi_push_backward_target c) _ a2).trans htg
  · show (bidi_expand_backward a2 c).searching = true
    exact hsearch
  · show (bidi_expand_backward a2 c).success = false
    exact (foldl_preserves App.success (bidi_push_backward c)
      (bidi_push_backward_success c) _ a2).trans hsu
  · show ∀ x ∈ (bidi_expand_backward a2 c).frontier_forward, Reaches g s x
    rw [hfrf]; exact b1
  · show ∀ x ∈ (bidi_expand_backward a2 c).frontier_forward, x = s ∨ InBounds g x
    rw [hfrf]; exact b2
  · show ∀ x ∈ (bidi_expand_backward a2 c).explored_forward, Reaches g s x
    rw [hexf]; exact b3
  · show ∀ x ∈ (bidi_expand_backward a2 c).explored_forward, x = s ∨ InBounds g x
    rw [hexf]; exact b4
  · show (bidi_expand_backward a2 c).explored_forward.Nodup
    rw [hexf]; exact b5
  · show (bidi_expand_backward a2 c).frontier_forward.Nodup
    rw [hfrf]; exact b6
  · show ∀ x ∈ (bidi_expand_backward a2 c).frontier_forward,
      x ∉ (bidi_expand_backward a2 c).explored_forward
    rw [hfrf, hexf]; exact b7
  · exact c3
  · exact c4
  · show ∀ x ∈ (bidi_expand_backward a2 c).explored_backward, Reaches g t x
    rw [hexp]; exact h5
  · show ∀ x ∈ (bidi_expand_backward a2 c).explored_backward, x = t ∨ InBounds g x
    rw [hexp]; exact h6
  · show (bidi_expand_backward a2 c).explored_backward.Nodup
    rw [hexp]; exact h7
  · exact c1
  · exact c2

/-- A forward tick of bidirectional search on an unreachable target pops a
fresh node, cannot meet the backward visited set, restores the invariant,
and decreases the measure. -/
theorem bidi_forward_core (g : Grid) (s t : Node) (hur : ¬ Reaches g s t)
    (ht1 : InBounds g t) (ht2 : g.cell t.1 t.2 ≠ CellType.WALL)
    (a : App) (hI : BidiInv g s t a) (c : Node) (rest : List Node)
    (hff : a.frontier_forward = c :: rest) :
    (bidi_forward a).searching = true ∧ BidiInv g s t (bidi_forward a)
    ∧ bidiMeasure g (bidi_forward a) < bidiMeasure g a := by
  have hcm : c ∈ a.frontier_forward := by
    rw [hff]; exact List.mem_cons_self _ _
  have hrc : Reaches g s c := hI.ff_reach c hcm
  have hcf : c ∉ a.explored_forward := hI.ff_fresh c hcm
  have hcok : c = s ∨ InBounds g c := hI.ff_ok c hcm
  have hnometa : c ∉ a.explored_backward := by
    intro hmem
    have hrtc : Reaches g t c := hI.eb_reach c hmem
    have hrev := (reaches_ok_and_reverse g t ht1 ht2 c hrtc).2
    exact hur (hrc.trans hrev)
  have hrestnd : rest.Nodup := by
    have h := hI.ff_nodup
    rw [hff] at h
    exact h.of_cons
  have hcnr : c ∉ rest := by
    have h := hI.ff_nodup
    rw [hff, List.nodup_cons] at h
    exact h.1
  have hEbound : a.explored_forward.length + 1 ≤ searchBound g := by
    have h := nodup_ok_length_le g s (c :: a.explored_forward)
      (List.nodup_cons.mpr ⟨hcf, hI.ef_nodup⟩)
      (by
        intro x hx
        rcases List.mem_cons.mp hx with rfl | hx
        · exact hcok
        · exact hI.ef_ok x hx)
    simpa using h
  have hfresh2 : ∀ x ∈ rest, x ∉ sadd a.explored_forward c := by
    rw [sadd_of_not_mem hcf]
    intro x hx hmem
    rcases List.mem_cons.mp hmem with rfl | hmem
    · exact hcnr hx
    · exact hI.ff_fresh x (by rw [hff]; exact List.mem_cons_of_mem c hx) hmem
  have hreach2 : ∀ x ∈ rest, Reaches g s x := fun x hx =>
    hI.ff_reach x (by rw [hff]; exact List.mem_cons_of_mem c hx)
  have hok2 : ∀ x ∈ rest, x = s ∨ InBounds g x := fun x hx =>
    hI.ff_ok x (by rw [hff]; exact List.mem_cons_of_mem c hx)
  have hexr2 : ∀ x ∈ sadd a.explored_forward c, Reaches g s x := by
    rw [sadd_of_not_mem hcf]
    intro x hx
    rcases List.mem_cons.mp hx with rfl | hx
    · exact hrc
    · exact hI.ef_reach x hx
  have hexo2 : ∀ x ∈ sadd a.explored_forward c, x = s ∨ InBounds g x := by
    rw [sadd_of_not_mem hcf]
    intro x hx
    rcases List.mem_cons.mp hx with rfl | hx
    · exact hcok
    · exact hI.ef_ok x hx
  have hexnd2 : (sadd a.explored_forward c).Nodup := by
    rw [sadd_of_not_mem hcf]
    exact List.nodup_cons.mpr ⟨hcf, hI.ef_nodup⟩
  have hfr_len : a.frontier_forward.length = rest.length + 1 := by
    rw [hff]; rfl
  unfold bidi_forward
  rw [hff]
  dsimp only
  split
  · -- painted (c is not the start); the meet test is already discharged
    have hpop := bidi_fwd_after_pop_inv g s t
      { a with frontier_forward := rest,
               explored_forward := sadd a.explored_forward c,
               cell_states := setCell a.cell_states c CellState.EXPLORED } c
      hI.hgrid hI.hstart hI.htarget hI.hsearching hI.hsuccess hrc
      hrestnd hfresh2 hreach2 hok2 hexr2 hexo2 hexnd2
      hI.fb_reach hI.fb_ok hI.eb_reach hI.eb_ok hI.eb_nodup hI.fb_nodup
      hI.fb_fresh
    refine ⟨hpop.2.1, hpop.1, ?_⟩
    simp only [bidiMeasure]
    rw [hpop.2.2.1, hpop.2.2.2.2.1, hpop.2.2.2.2.2]
    have hsl :
        (({ a with frontier_forward := rest,
                   explored_forward := sadd a.explored_forward c,
                   cell_states := setCell a.cell_states c CellState.EXPLORED } :
          App).explored_forward).length = a.explored_forward.length + 1 := by
      show (sadd a.explored_forward c).length = _
      rw [sadd_of_not_mem hcf]
      rfl
    rw [hsl]
    have hflen := hpop.2.2.2.1
    have hA2 :
        (({ a with frontier_forward := rest,
                   explored_forward := sadd a.explored_forward c,
                   cell_states := setCell a.cell_states c CellState.EXPLORED } :
          App).frontier_forward).length = rest.length := rfl
    rw [hA2] at hflen
    have heb :
        (({ a with frontier_forward := rest,
                   explored_forward := sadd a.explored_forward c,
                   cell_states := setCell a.cell_states c CellState.EXPLORED } :
          App).explored_backward) = a.explored_backward := rfl
    rw [heb]
    have hfb :
        (({ a with frontier_forward := rest,
                   explored_forward := sadd a.explored_forward c,
                   cell_states := setCell a.cell_states c CellState.EXPLORED } :
          App).frontier_backward) = a.frontier_backward := rfl
    rw [hfb]
    omega
  · have hpop := bidi_fwd_after_pop_inv g s t
      { a with frontier_forward := rest,
               explored_forward := sadd a.explored_forward c } c
      hI.hgrid hI.hstart hI.htarget hI.hsearching hI.hsuccess hrc
      hrestnd hfresh2 hreach2 hok2 hexr2 hexo2 hexnd2
      hI.fb_reach hI.fb_ok hI.eb_reach hI.eb_ok hI.eb_nodup hI.fb_nodup
      hI.fb_fresh
    refine ⟨hpop.2.1, hpop.1, ?_⟩
    simp only [bidiMeasure]
    rw [hpop.2.2.1, hpop.2.2.2.2.1, hpop.2.2.2.2.2]
    have hsl :
        (({ a with frontier_forward := rest,
                   explored_forward := sadd a.explored_forward c } :
          App).explored_forward).length = a.explored_forward.length + 1 := by
      show (sadd a.explored_forward c).length = _
      rw [sadd_of_not_mem hcf]
      rfl
    rw [hsl]
    have hflen := hpop.2.2.2.1
    have hA2 :
        (({ a with frontier_forward := rest,
                   explored_forward := sadd a.explored_forward c } :
          App).frontier_forward).length = rest.length := rfl
    rw [hA2] at hflen
    have heb :
        (({ a with frontier_forward := rest,
                   explored_forward := sadd a.explored_forward c } :
          App).explored_backward) = a.explored_backward := rfl
    rw [heb]
    have hfb :
        (({ a with frontier_forward := rest,
                   explored_forward := sadd a.explored_forward c } :
          App).frontier_backward) = a.frontier_backward := rfl
    rw [hfb]
    omega

/-- A backward tick of bidirectional search on an unreachable target pops a
fresh node, cannot meet the forward visited set, restores the invariant,
and decreases the measure. -/
theorem bidi_backward_core (g : Grid) (s t : Node) (hur : ¬ Reaches g s t)
    (ht1 : InBounds g t) (ht2 : g.cell t.1 t.2 ≠ CellType.WALL)
    (a : App) (hI : BidiInv g s t a) (c : Node) (rest : List Node)
    (hfb : a.frontier_backward = c :: rest) :
    (bidi_backward a).searching = true ∧ BidiInv g s t (bidi_backward a)
    ∧ bidiMeasure g (bidi_backward a) < bidiMeasure g a := by
  have hcm : c ∈ a.frontier_backward := by
    rw [hfb]; exact List.mem_cons_self _ _
  have hrc : Reaches g t c := hI.fb_reach c hcm
  have hcf : c ∉ a.explored_backward := hI.fb_fresh c hcm
  have hcok : c = t ∨ InBounds g c := hI.fb_ok c hcm
  have hnometa : c ∉ a.explored_forward := by
    intro hmem
    have hrsc : Reaches g s c := hI.ef_reach c hmem
    have hrev := (reaches_ok_and_reverse g t ht1 ht2 c hrc).2
    exact hur (hrsc.trans hrev)
  have hrestnd : rest.Nodup := by
    have h := hI.fb_nodup
    rw [hfb] at h
    exact h.of_cons
  have hcnr : c ∉ rest := by
    have h := hI.fb_nodup
    rw [hfb, List.nodup_cons] at h
    exact h.1
  have hEbound : a.explored_backward.length + 1 ≤ searchBound g := by
    have h := nodup_ok_length_le g t (c :: a.explored_backward)
      (List.nodup_cons.mpr ⟨hcf, hI.eb_nodup⟩)
      (by
        intro x hx
        rcases List.mem_cons.mp hx with rfl | hx
        · exact hcok
        · exact hI.eb_ok x hx)
    simpa using h
  have hfresh2 : ∀ x ∈ rest, x ∉ sadd a.explored_backward c := by
    rw [sadd_of_not_mem hcf]
    intro x hx hmem
    rcases List.mem_cons.mp hmem with rfl | hmem
    · exact hcnr hx
    · exact hI.fb_fresh x (by rw [hfb]; exact List.mem_cons_of_mem c hx) hmem
  have hreach2 : ∀ x ∈ rest, Reaches g t x := fun x hx =>
    hI.fb_reach x (by rw [hfb]; exact List.mem_cons_of_mem c hx)
  have hok2 : ∀ x ∈ rest, x = t ∨ InBounds g x := fun x hx =>
    hI.fb_ok x (by rw [hfb]; exact List.mem_cons_of_mem c hx)
  have hexr2 : ∀ x ∈ sadd a.explored_backward c, Reaches g t x := by
    rw [sadd_of_not_mem hcf]
    intro x hx
    rcases List.mem_cons.mp hx with rfl | hx
    · exact hrc
    · exact hI.eb_reach x hx
  have hexo2 : ∀ x ∈ sadd a.explored_backward c, x = t ∨ InBounds g x := by
    rw [sadd_of_not_mem hcf]
    intro x hx
    rcases List.mem_cons.mp hx with rfl | hx
    · exact hcok
    · exact hI.eb_ok x hx
  have hexnd2 : (sadd a.explored_backward c).Nodup := by
    rw [sadd_of_not_mem hcf]
    exact List.nodup_cons.mpr ⟨hcf, hI.eb_nodup⟩
  have hfr_len : a.frontier_backward.length = rest.length + 1 := by
    rw [hfb]; rfl
  unfold bidi_backward
  rw [hfb]
  dsimp only
  split
  · -- painted (c is not the target); the meet test is already discharged
    have hpop := bidi_bwd_after_pop_inv g s t
      { a with frontier_backward := rest,
               explored_backward := sadd a.explored_backward c,
               cell_states := setCell a.cell_states c CellState.EXPLORED2 } c
      hI.hgrid hI.hstart hI.htarget hI.hsearching hI.hsuccess hrc
      hrestnd hfresh2 hreach2 hok2 hexr2 hexo2 hexnd2
      hI.ff_reach hI.ff_ok hI.ef_reach hI.ef_ok hI.ef_nodup hI.ff_nodup
      hI.ff_fresh
    refine ⟨hpop.2.1, hpop.1, ?_⟩
    simp only [bidiMeasure]
    rw [hpop.2.2.1, hpop.2.2.2.2.1, hpop.2.2.2.2.2]
    have hsl :
        (({ a with frontier_backward := rest,
                   explored_backward := sadd a.explored_backward c,
                   cell_states := setCell a.cell_states c CellState.EXPLORED2 } :
          App).explored_backward).length = a.explored_backward.length + 1 := by
      show (sadd a.explored_backward c).length = _
      rw [sadd_of_not_mem hcf]
      rfl
    rw [hsl]
    have hflen := hpop.2.2.2.1
    have hA2 :
        (({ a with frontier_backward := rest,
                   explored_backward := sadd a.explored_backward c,
                   cell_states := setCell a.cell_states c CellState.EXPLORED2 } :
          App).frontier_backward).length = rest.length := rfl
    rw [hA2] at hflen
    have hef :
        (({ a with frontier_backward := rest,
                   explored_backward := sadd a.explored_backward c,
                   cell_states := setCell a.cell_states c CellState.EXPLORED2 } :
          App).explored_forward) = a.explored_forward := rfl
    rw [hef]
    have hffq :
        (({ a with frontier_backward := rest,
                   explored_backward := sadd a.explored_backward c,
                   cell_states := setCell a.cell_states c CellState.EXPLORED2 } :
          App).frontier_forward) = a.frontier_forward := rfl
    rw [hffq]
    omega
  · have hpop := bidi_bwd_after_pop_inv g s t
      { a with frontier_backward := rest,
               explored_backward := sadd a.explored_backward c } c
      hI.hgrid hI.hstart hI.htarget hI.hsearching hI.hsuccess hrc
      hrestnd hfresh2 hreach2 hok2 hexr2 hexo2 hexnd2
      hI.ff_reach hI.ff_ok hI.ef_reach hI.ef_ok hI.ef_nodup hI.ff_nodup
      hI.ff_fresh
    refine ⟨hpop.2.1, hpop.1, ?_⟩
    simp only [bidiMeasure]
    rw [hpop.2.2.1, hpop.2.2.2.2.1, hpop.2.2.2.2.2]
    have hsl :
        (({ a with frontier_backward := rest,
                   explored_backward := sadd a.explored_backward c } :
          App).explored_backward).length = a.explored_backward.length + 1 := by
      show (sadd a.explored_backward c).length = _
      rw [sadd_of_not_mem hcf]
      rfl
    rw [hsl]
    have hflen := hpop.2.2.2.1
    have hA2 :
        (({ a with frontier_backward := rest,
                   explored_backward := sadd a.explored_backward c } :
          App).frontier_backward).length = rest.length := rfl
    rw [hA2] at hflen
    have hef :
        (({ a with frontier_backward := rest,
                   explored_backward := sadd a.explored_backward c } :
          App).explored_forward) = a.explored_forward := rfl
    rw [hef]
    have hffq :
        (({ a with frontier_backward := rest,
                   explored_backward := sadd a.explored_backward c } :
          App).frontier_forward) = a.frontier_forward := rfl
    rw [hffq]
    omega

/-- Per-tick dichotomy for bidirectional search when the target is
unreachable: either both frontiers are exhausted and the tick reports
failure, or the tick keeps searching with the invariant restored and the
measure decreased (including the counter-only tick, whose parity term
drops). -/
theorem bidirectional_step_core (g : Grid) (s t : Node)
    (hur : ¬ Reaches g s t)
    (ht1 : InBounds g t) (ht2 : g.cell t.1 t.2 ≠ CellType.WALL)
    (a : App) (hI : BidiInv g s t a) :
    bidirectional_step a = finish_search a false
    ∨ ((bidirectional_step a).searching = true
        ∧ BidiInv g s t (bidirectional_step a)
        ∧ bidiMeasure g (bidirectional_step a) < bidiMeasure g a) := by
  by_cases hboth : a.frontier_forward = [] ∧ a.frontier_backward = []
  · left
    unfold bidirectional_step
    rw [if_pos hboth]
  · right
    unfold bidirectional_step
    rw [if_neg hboth]
    by_cases hfwd : a.step_count % 2 = 0 ∧ a.frontier_forward ≠ []
    · rw [if_pos hfwd]
      cases hff : a.frontier_forward with
      | nil => exact absurd hff hfwd.2
      | cons c rest =>
        exact bidi_forward_core g s t hur ht1 ht2 a hI c rest hff
    · rw [if_neg hfwd]
      by_cases hbk : a.frontier_backward ≠ []
      · rw [if_pos hbk]
        cases hfb : a.frontier_backward with
        | nil => exact absurd hfb hbk
        | cons c rest =>
          exact bidi_backward_core g s t hur ht1 ht2 a hI c rest hfb
      · rw [if_neg hbk]
        push_neg at hbk
        have hffne : a.frontier_forward ≠ [] := fun h => hboth ⟨h, hbk⟩
        have hodd : a.step_count % 2 = 1 := by
          rcases Nat.mod_two_eq_zero_or_one a.step_count with h | h
          · exact absurd ⟨h, hffne⟩ hfwd
          · exact h
        refine ⟨hI.hsearching, ⟨hI.hgrid, hI.hstart, hI.htarget,
          hI.hsearching, hI.hsuccess, hI.ff_reach, hI.ff_ok, hI.ef_reach,
          hI.ef_ok, hI.ef_nodup, hI.ff_nodup, hI.ff_fresh, hI.fb_reach,
          hI.fb_ok, hI.eb_reach, hI.eb_ok, hI.eb_nodup, hI.fb_nodup,
          hI.fb_fresh⟩, ?_⟩
        simp only [bidiMeasure]
        omega

/-- A set of nodes containing the start and closed under legal moves
excludes every unreachable node: the standard closed-component argument,
which makes concrete non-reachability checkable. -/
theorem not_reaches_of_closed (g : Grid) (s t : Node) (L : List Node)
    (hs : s ∈ L) (hcl : ∀ x ∈ L, ∀ y ∈ get_neighbors g x, y ∈ L)
    (ht : t ∉ L) : ¬ Reaches g s t := by
  intro h
  have key : ∀ b, Reaches g s b → b ∈ L := by
    intro b hb
    induction hb with
    | refl => exact hs
    | tail hax e ih => exact hcl _ ih _ e
  exact ht (key t h)

/-- start_search establishes the breadth-first run invariant. -/
theorem start_search_bfs_inv (g : Grid) (s t : Node) (dl : Nat) :
    BfsInv g s t (start_search Algo.BFS g s t dl) := by
  refine ⟨⟨rfl, rfl, rfl, rfl, rfl, ?_, ?_, ?_, ?_, ?_⟩, ?_, ?_⟩
  · intro x hx
    have hx' : x ∈ [s] := hx
    rcases List.mem_singleton.mp hx' with rfl
    exact Relation.ReflTransGen.refl
  · intro x hx
    have hx' : x ∈ [s] := hx
    rcases List.mem_singleton.mp hx' with rfl
    exact Or.inl rfl
  · intro x hx
    exact absurd hx (List.not_mem_nil x)
  · intro x hx
    exact absurd hx (List.not_mem_nil x)
  · exact List.nodup_nil
  · exact List.nodup_singleton s
  · intro x hx
    exact fun h => List.not_mem_nil x h

/-- start_search establishes the depth-first run invariant. -/
theorem start_search_dfs_inv (g : Grid) (s t : Node) (dl : Nat) :
    SearchInv g s t App.frontier (start_search Algo.DFS g s t dl) := by
  refine ⟨rfl, rfl, rfl, rfl, rfl, ?_, ?_, ?_, ?_, ?_⟩
  · intro x hx
    have hx' : x ∈ [s] := hx
    rcases List.mem_singleton.mp hx' with rfl
    exact Relation.ReflTransGen.refl
  · intro x hx
    have hx' : x ∈ [s] := hx
    rcases List.mem_singleton.mp hx' with rfl
    exact Or.inl rfl
  · intro x hx
    exact absurd hx (List.not_mem_nil x)
  · intro x hx
    exact absurd hx (List.not_mem_nil x)
  · exact List.nodup_nil

/-- start_search establishes the uniform-cost run invariant. -/
theorem start_search_ucs_inv (g : Grid) (s t : Node) (dl : Nat) :
    SearchInv g s t (fun b => b.frontier_pq.map Prod.snd)
      (start_search Algo.UCS g s t dl) := by
  refine ⟨rfl, rfl, rfl, rfl, rfl, ?_, ?_, ?_, ?_, ?_⟩
  · intro x hx
    have hx' : x ∈ [s] := hx
    rcases List.mem_singleton.mp hx' with rfl
    exact Relation.ReflTransGen.refl
  · intro x hx
    have hx' : x ∈ [s] := hx
    rcases List.mem_singleton.mp hx' with rfl
    exact Or.inl rfl
  · intro x hx
    exact absurd hx (List.not_mem_nil x)
  · intro x hx
    exact absurd hx (List.not_mem_nil x)
  · exact List.nodup_nil

/-- start_search establishes the depth-limited run invariant. -/
theorem start_search_dls_inv (g : Grid) (s t : Node) (dl : Nat) :
    SearchInv g s t (fun b => b.frontier_d.map Prod.fst)
      (start_search Algo.DLS g s t dl) := by
  refine ⟨rfl, rfl, rfl, rfl, rfl, ?_, ?_, ?_, ?_, ?_⟩
  · intro x hx
    have hx' : x ∈ [s] := hx
    rcases List.mem_singleton.mp hx' with rfl
    exact Relation.ReflTransGen.refl
  · intro x hx
    have hx' : x ∈ [s] := hx
    rcases List.mem_singleton.mp hx' with rfl
    exact Or.inl rfl
  · intro x hx
    exact absurd hx (List.not_mem_nil x)
  · intro x hx
    exact absurd hx (List.not_mem_nil x)
  · exact List.nodup_nil

/-- start_search establishes the iterative-deepening run invariant. -/
theorem start_search_iddfs_inv (g : Grid) (s t : Node) (dl : Nat) :
    SearchInv g s t (fun b => b.frontier_d.map Prod.fst)
      (start_search Algo.IDDFS g s t dl) := by
  refine ⟨rfl, rfl, rfl, rfl, rfl, ?_, ?_, ?_, ?_, ?_⟩
  · intro x hx
    have hx' : x ∈ [s] := hx
    rcases List.mem_singleton.mp hx' with rfl
    exact Relation.ReflTransGen.refl
  · intro x hx
    have hx' : x ∈ [s] := hx
    rcases List.mem_singleton.mp hx' with rfl
    exact Or.inl rfl
  · intro x hx
    exact absurd hx (List.not_mem_nil x)
  · intro x hx
    exact absurd hx (List.not_mem_nil x)
  · exact List.nodup_nil

/-- start_search establishes the bidirectional run invariant. -/
theorem start_search_bidi_inv (g : Grid) (s t : Node) (dl : Nat) :
    BidiInv g s t (start_search Algo.Bidirectional g s t dl) := by
  refine ⟨rfl, rfl, rfl, rfl, rfl, ?_, ?_, ?_, ?_, ?_, ?_, ?_, ?_, ?_, ?_, ?_,
    ?_, ?_, ?_⟩
  · intro x hx
    have hx' : x ∈ [s] := hx
    rcases List.mem_singleton.mp hx' with rfl
    exact Relation.ReflTransGen.refl
  · intro x hx
    have hx' : x ∈ [s] := hx
    rcases List.mem_singleton.mp hx' with rfl
    exact Or.inl rfl
  · intro x hx
    exact absurd hx (List.not_mem_nil x)
  · intro x hx
    exact absurd hx (List.not_mem_nil x)
  · exact List.nodup_nil
  · exact List.nodup_singleton s
  · intro x hx
    exact fun h => List.not_mem_nil x h
  · intro x hx
    have hx' : x ∈ [t] := hx
    rcases List.mem_singleton.mp hx' with rfl
    exact Relation.ReflTransGen.refl
  · intro x hx
    have hx' : x ∈ [t] := hx
    rcases List.mem_singleton.mp hx' with rfl
    exact Or.inl rfl
  · intro x hx
    exact absurd hx (List.not_mem_nil x)
  · intro x hx
    exact absurd hx (List.not_mem_nil x)
  · exact List.nodup_nil
  · exact List.nodup_singleton t
  · intro x hx
    exact fun h => List.not_mem_nil x h

/-- C10: on every grid whose in-bounds non-wall Target is unreachable from
the Start under the six-direction model, repeated driver ticks of any of
the six algorithms terminate the run with a reported failure: some number
of ticks yields search_complete with success still false.  The run only
exhausts the relevant frontier(s); the shallow embedding is total, so no
error path exists. -/
theorem unreachable_target_reports_failure (algo : Algo) (g : Grid)
    (s t : Node) (dl : Nat)
    (ht1 : InBounds g t) (ht2 : g.cell t.1 t.2 ≠ CellType.WALL)
    (hur : ¬ Reaches g s t) :
    ∃ n,
      (run (algorithm_step algo) n
        (start_search algo g s t dl)).search_complete = true
      ∧ (run (algorithm_step algo) n
          (start_search algo g s t dl)).success = false := by
  cases algo with
  | BFS =>
    exact run_reaches_failure bfs_step (bfsMeasure g) (BfsInv g s t)
      (core_to_step bfs_step (BfsInv g s t) (bfsMeasure g)
        (fun a hI => hI.hsearching)
        (fun a hI => bfs_step_core g s t hur a hI))
      (bfsMeasure g (start_search Algo.BFS g s t dl))
      (start_search Algo.BFS g s t dl)
      (start_search_bfs_inv g s t dl) le_rfl
  | DFS =>
    exact run_reaches_failure dfs_step (bfsMeasure g)
      (SearchInv g s t App.frontier)
      (core_to_step dfs_step (SearchInv g s t App.frontier) (bfsMeasure g)
        (fun a hI => hI.hsearching)
        (fun a hI => dfs_step_core g s t hur a hI))
      (bfsMeasure g (start_search Algo.DFS g s t dl))
      (start_search Algo.DFS g s t dl)
      (start_search_dfs_inv g s t dl) le_rfl
  | UCS =>
    exact run_reaches_failure ucs_step (ucsMeasure g)
      (SearchInv g s t (fun b => b.frontier_pq.map Prod.snd))
      (core_to_step ucs_step
        (SearchInv g s t (fun b => b.frontier_pq.map Prod.snd)) (ucsMeasure g)
        (fun a hI => hI.hsearching)
        (fun a hI => ucs_step_core g s t hur a hI))
      (ucsMeasure g (start_search Algo.UCS g s t dl))
      (start_search Algo.UCS g s t dl)
      (start_search_ucs_inv g s t dl) le_rfl
  | DLS =>
    exact run_reaches_failure dls_step (dlsMeasure g)
      (SearchInv g s t (fun b => b.frontier_d.map Prod.fst))
      (core_to_step dls_step
        (SearchInv g s t (fun b => b.frontier_d.map Prod.fst)) (dlsMeasure g)
        (fun a hI => hI.hsearching)
        (fun a hI => dls_step_core g s t hur a hI))
      (dlsMeasure g (start_search Algo.DLS g s t dl))
      (start_search Algo.DLS g s t dl)
      (start_search_dls_inv g s t dl) le_rfl
  | IDDFS =>
    exact run_reaches_failure iddfs_step (iddfsMeasure g)
      (SearchInv g s t (fun b => b.frontier_d.map Prod.fst))
      (core_to_step2 iddfs_step
        (SearchInv g s t (fun b => b.frontier_d.map Prod.fst)) (iddfsMeasure g)
        (fun a hI => hI.hsearching)
        (fun a hI => iddfs_step_core g s t hur a hI))
      (iddfsMeasure g (start_search Algo.IDDFS g s t dl))
      (start_search Algo.IDDFS g s t dl)
      (start_search_iddfs_inv g s t dl) le_rfl
  | Bidirectional =>
    exact run_reaches_failure bidirectional_step (bidiMeasure g) (BidiInv g s t)
      (core_to_step bidirectional_step (BidiInv g s t) (bidiMeasure g)
        (fun a hI => hI.hsearching)
        (fun a hI => bidirectional_step_core g s t hur ht1 ht2 a hI))
      (bidiMeasure g (start_search Algo.Bidirectional g s t dl))
      (start_search Algo.Bidirectional g s t dl)
      (start_search_bidi_inv g s t dl) le_rfl

/-- Concrete instance of the failure guarantee: on the 3x3 grid whose
walls isolate the Target (2,0) from the Start (0,0), the Target is in
bounds, not a wall, unreachable, and the bidirectional run reports
failure after finitely many ticks. -/
theorem unreachable_target_reports_failure_witness :
    InBounds grid3x3 (2, 0) ∧ grid3x3.cell 2 0 ≠ CellType.WALL
    ∧ ¬ Reaches grid3x3 (0, 0) (2, 0)
    ∧ ∃ n,
      (run (algorithm_step Algo.Bidirectional) n
        (start_search Algo.Bidirectional grid3x3 (0, 0) (2, 0) 20)).search_complete
        = true
      ∧ (run (algorithm_step Algo.Bidirectional) n
          (start_search Algo.Bidirectional grid3x3 (0, 0) (2, 0) 20)).success
        = false :=
  ⟨by decide, by decide,
    not_reaches_of_closed grid3x3 (0, 0) (2, 0)
      [(0, 0), (0, 1), (0, 2), (1, 2), (2, 2)]
      (by decide) (by decide) (by decide),
    unreachable_target_reports_failure Algo.Bidirectional grid3x3
      (0, 0) (2, 0) 20 (by decide) (by decide)
      (not_reaches_of_closed grid3x3 (0, 0) (2, 0)
        [(0, 0), (0, 1), (0, 2), (1, 2), (2, 2)]
        (by decide) (by decide) (by decide))⟩

/-- Every move cost is at least one. -/
theorem get_move_cost_ge_one (a b : Node) : 1 ≤ get_move_cost a b := by
  unfold get_move_cost
  split
  · norm_num
  · norm_num

/-- Move costs are nonnegative. -/
theorem get_move_cost_nonneg (a b : Node) : 0 ≤ get_move_cost a b :=
  le_trans (by norm_num) (get_move_cost_ge_one a b)

/-- The degenerate self-move used by the duplicated start costs one. -/
theorem get_move_cost_self (a : Node) : get_move_cost a a = 1 := by
  unfold get_move_cost
  rw [if_neg]
  simp

/-- Path costs are nonnegative. -/
theorem pathCost_nonneg : ∀ W : List Node, 0 ≤ pathCost W
  | [] => le_refl 0
  | [_] => le_refl 0
  | a :: b :: rest => by
    rw [pathCost]
    have h1 := get_move_cost_nonneg a b
    have h2 := pathCost_nonneg (b :: rest)
    linarith

/-- Duplicating the head node adds exactly one to the path cost. -/
theorem pathCost_cons_self (s : Node) (W : List Node)
    (h : W.head? = some s) : pathCost (s :: W) = 1 + pathCost W := by
  cases W with
  | nil => exact absurd h (by simp)
  | cons x rest =>
    simp only [List.head?_cons, Option.some.injEq] at h
    subst h
    rw [pathCost, get_move_cost_self]

/-- A non-degenerate path costs at least one. -/
theorem pathCost_ge_one (a b : Node) (rest : List Node) :
    1 ≤ pathCost (a :: b :: rest) := by
  rw [pathCost]
  have h1 := get_move_cost_ge_one a b
  have h2 := pathCost_nonneg (b :: rest)
  linarith

/-- Appending one node adds the corresponding move cost. -/
theorem pathCost_snoc : ∀ (W : List Node) (x y : Node),
    W.getLast? = some x → pathCost (W ++ [y]) = pathCost W + get_move_cost x y
  | [], x, y, h => absurd h (by simp)
  | [a], x, y, h => by
    simp only [List.getLast?_singleton, Option.some.injEq] at h
    subst h
    show get_move_cost a y + pathCost [y] = pathCost [a] + get_move_cost a y
    rw [show pathCost [y] = 0 from rfl, show pathCost [a] = 0 from rfl]
    ring
  | a :: b :: rest, x, y, h => by
    have h2 : (b :: rest).getLast? = some x := by
      rw [List.getLast?_cons_cons] at h
      exact h
    have ih := pathCost_snoc (b :: rest) x y h2
    show pathCost (a :: b :: (rest ++ [y])) = _
    rw [pathCost, pathCost]
    show get_move_cost a b + pathCost ((b :: rest) ++ [y]) = _
    rw [ih]
    ring

/-- The one-node sequence is a walk. -/
theorem isWalk_singleton (g : Grid) (u : Node) : IsWalk g u u [u] :=
  ⟨rfl, rfl, List.chain'_singleton u⟩

/-- Walks extend along a legal move. -/
theorem isWalk_snoc (g : Grid) (u x y : Node) (W : List Node)
    (h : IsWalk g u x W) (hadj : Adj g x y) : IsWalk g u y (W ++ [y]) := by
  obtain ⟨h1, h2, h3⟩ := h
  refine ⟨?_, ?_, ?_⟩
  · cases W with
    | nil => exact absurd h1 (by simp)
    | cons a rest => simpa using h1
  · simp
  · rw [List.chain'_append]
    refine ⟨h3, List.chain'_singleton y, ?_⟩
    intro p hp q hq
    rw [Option.mem_def, h2, Option.some.injEq] at hp
    rw [Option.mem_def, List.head?_cons, Option.some.injEq] at hq
    subst hp
    subst hq
    exact hadj

/-- Two walks sharing a legal junction move concatenate to a walk. -/
theorem isWalk_append (g : Grid) (u m p v : Node) (W1 W2 : List Node)
    (h1 : IsWalk g u m W1) (h2 : IsWalk g p v W2) (hadj : Adj g m p) :
    IsWalk g u v (W1 ++ W2) := by
  obtain ⟨a1, a2, a3⟩ := h1
  obtain ⟨b1, b2, b3⟩ := h2
  have hW2ne : W2 ≠ [] := by
    intro h
    rw [h] at b1
    exact absurd b1 (by simp)
  refine ⟨?_, ?_, ?_⟩
  · cases W1 with
    | nil => exact absurd a1 (by simp)
    | cons a rest => simpa using a1
  · rw [List.getLast?_append_of_ne_nil _ hW2ne]
    exact b2
  · rw [List.chain'_append]
    refine ⟨a3, b3, ?_⟩
    intro p hp q hq
    rw [Option.mem_def, a2, Option.some.injEq] at hp
    rw [Option.mem_def, b1, Option.some.injEq] at hq
    subst hp
    subst hq
    exact hadj

/-- Chains of legal moves through in-bounds non-wall cells also chain in
the flipped direction. -/
theorem chain_flip_of_ok (g : Grid) : ∀ W : List Node,
    (∀ x ∈ W, InBounds g x ∧ g.cell x.1 x.2 ≠ CellType.WALL) →
    List.Chain' (Adj g) W → List.Chain' (flip (Adj g)) W
  | [], _, _ => List.chain'_nil
  | [a], _, _ => List.chain'_singleton a
  | a :: b :: rest, hok, h => by
    rw [List.chain'_cons] at h ⊢
    refine ⟨?_, chain_flip_of_ok g (b :: rest)
      (fun x hx => hok x (List.mem_cons_of_mem a hx)) h.2⟩
    have ha := hok a (List.mem_cons_self _ _)
    exact adj_symm g a b ha.1 ha.2 h.1

/-- Reversing a walk through in-bounds non-wall cells yields a walk,
because the six movement offsets are closed under negation. -/
theorem isWalk_reverse (g : Grid) (u v : Node) (W : List Node)
    (hok : ∀ x ∈ W, InBounds g x ∧ g.cell x.1 x.2 ≠ CellType.WALL)
    (h : IsWalk g u v W) : IsWalk g v u W.reverse := by
  obtain ⟨h1, h2, h3⟩ := h
  refine ⟨?_, ?_, ?_⟩
  · rw [List.head?_reverse]
    exact h2
  · rw [List.getLast?_reverse]
    exact h1
  · rw [List.chain'_reverse]
    exact chain_flip_of_ok g W hok h3

/-- Chains are non-empty. -/
theorem chains_ne_nil {cf : CameFrom} {v : Node} {W : List Node}
    (h : Chains cf v W) : W ≠ [] := by
  cases h with
  | root _ _ => simp
  | step _ _ _ _ _ => simp

/-- A chain ends at its node. -/
theorem chains_getLast {cf : CameFrom} {v : Node} {W : List Node}
    (h : Chains cf v W) : W.getLast? = some v := by
  cases h with
  | root _ _ => rfl
  | step _ p W h1 h2 => simp

/-- Every chain node is recorded in the map. -/
theorem chains_mem_key {cf : CameFrom} {v : Node} {W : List Node}
    (h : Chains cf v W) : ∀ x ∈ W, ∃ q, lookupA cf x = some q := by
  induction h with
  | root u hu =>
    intro x hx
    rcases List.mem_singleton.mp hx with rfl
    exact ⟨none, hu⟩
  | step u p W h1 _ ih =>
    intro x hx
    rcases List.mem_append.mp hx with hx | hx
    · exact ih x hx
    · rcases List.mem_singleton.mp hx with rfl
      exact ⟨some p, h1⟩

/-- A recorded node is among the map's keys. -/
theorem lookupA_mem_keys {cf : CameFrom} {x : Node} {q : Option Node}
    (h : lookupA cf x = some q) : x ∈ cf.map Prod.fst := by
  induction cf with
  | nil => exact absurd h (by simp [lookupA])
  | cons e rest ih =>
    obtain ⟨k, v⟩ := e
    rw [lookupA] at h
    by_cases hx : x = k
    · subst hx
      exact List.mem_cons_self _ _
    · rw [if_neg hx] at h
      exact List.mem_cons_of_mem _ (ih h)

/-- A duplicate-free chain is no longer than the map. -/
theorem chains_length_le {cf : CameFrom} {v : Node} {W : List Node}
    (h : Chains cf v W) (hnd : W.Nodup) : W.length ≤ cf.length := by
  have hsub : W.toFinset ⊆ (cf.map Prod.fst).toFinset := by
    intro x hx
    rw [List.mem_toFinset] at hx ⊢
    obtain ⟨q, hq⟩ := chains_mem_key h x hx
    exact lookupA_mem_keys hq
  have hcard := Finset.card_le_card hsub
  rw [List.toFinset_card_of_nodup hnd] at hcard
  have h2 : (cf.map Prod.fst).toFinset.card ≤ (cf.map Prod.fst).length :=
    (cf.map Prod.fst).toFinset_card_le
  rw [List.length_map] at h2
  omega

/-- The fueled predecessor walk of reconstruct_path computes the chain
whenever the fuel covers its length. -/
theorem chains_walkCF {cf : CameFrom} {v : Node} {W : List Node}
    (h : Chains cf v W) :
    ∀ (fuel : Nat) (acc : List Node), W.length ≤ fuel →
      walkCF cf fuel (some v) acc = W ++ acc := by
  induction h with
  | root u hu =>
    intro fuel acc hf
    cases fuel with
    | zero => simp at hf
    | succ f =>
      rw [walkCF, hu]
      cases f with
      | zero => rfl
      | succ f2 => rfl
  | step u p W h1 h2 ih =>
    intro fuel acc hf
    cases fuel with
    | zero => simp at hf
    | succ f =>
      rw [walkCF, h1]
      dsimp only
      have hlen : W.length ≤ f := by
        simp only [List.length_append, List.length_cons, List.length_nil] at hf
        omega
      rw [ih f (u :: acc) hlen]
      simp

/-- The fueled backward walk of reconstruct_bidirectional_path computes
the reversed chain whenever the fuel covers its length. -/
theorem chains_walkBack {cf : CameFrom} {v : Node} {W : List Node}
    (h : Chains cf v W) :
    ∀ fuel : Nat, W.length ≤ fuel →
      walkBack cf fuel (some v) = W.reverse := by
  induction h with
  | root u hu =>
    intro fuel hf
    cases fuel with
    | zero => simp at hf
    | succ f =>
      rw [walkBack, hu]
      cases f with
      | zero => rfl
      | succ f2 => rfl
  | step u p W h1 h2 ih =>
    intro fuel hf
    cases fuel with
    | zero => simp at hf
    | succ f =>
      rw [walkBack, h1]
      dsimp only
      have hlen : W.length ≤ f := by
        simp only [List.length_append, List.length_cons, List.length_nil] at hf
        omega
      rw [ih f hlen]
      simp

/-- Chains ignore a prepended entry for a node they do not touch. -/
theorem chains_prepend {cf : CameFrom} {v : Node} {W : List Node}
    (n : Node) (q : Option Node)
    (h : Chains cf v W) (hn : ∀ x ∈ W, x ≠ n) :
    Chains ((n, q) :: cf) v W := by
  induction h with
  | root u hu =>
    refine Chains.root u ?_
    rw [lookupA, if_neg (hn u (List.mem_singleton_self u))]
    exact hu
  | step u p W h1 h2 ih =>
    refine Chains.step u p W ?_ ?_
    · rw [lookupA, if_neg (hn u (by simp))]
      exact h1
    · refine ih ?_
      intro x hx
      exact hn x (List.mem_append_left _ hx)

/-- All nodes of a sequence lie in a set that contains its interior and
its endpoint. -/
theorem walk_nodes_mem {W : List Node} {v : Node} {ex : List Node}
    (hlast : W.getLast? = some v)
    (hd : ∀ x ∈ W.dropLast, x ∈ ex) (hv : v ∈ ex) :
    ∀ x ∈ W, x ∈ ex := by
  intro x hx
  have hne : W ≠ [] := by
    intro h
    rw [h] at hlast
    exact absurd hlast (by simp)
  rw [← List.dropLast_append_getLast hne] at hx
  rcases List.mem_append.mp hx with h | h
  · exact hd x h
  · rcases List.mem_singleton.mp h with rfl
    have hgl : W.getLast? = some (W.getLast hne) := List.getLast?_eq_getLast W hne
    rw [hlast] at hgl
    rw [← Option.some.injEq _ _ |>.mp hgl]
    exact hv

/-- The predecessor invariant is monotone in the visited set. -/
theorem cfok_mono {g : Grid} {s : Node} {cf : CameFrom} {ex ex' : List Node}
    (hsub : ∀ x ∈ ex, x ∈ ex') (h : CFOk g s cf ex) : CFOk g s cf ex' := by
  intro v q hv
  obtain ⟨W, h1, h2, h3, h4, h5⟩ := h v q hv
  exact ⟨W, h1, h2, h3, fun x hx => hsub x (h4 x hx), h5⟩

/-- The initial predecessor map is well-formed. -/
theorem cfok_init (g : Grid) (s : Node) (ex : List Node) :
    CFOk g s [(s, none)] ex := by
  intro v q hv
  rw [lookupA] at hv
  by_cases hvs : v = s
  · subst hvs
    rw [if_pos rfl] at hv
    refine ⟨[v], Chains.root v (by rw [lookupA, if_pos rfl]), ?_, ?_, ?_, ?_⟩
    · exact List.nodup_singleton v
    · exact isWalk_singleton g v
    · intro x hx
      simp at hx
    · intro x hx
      rcases List.mem_singleton.mp hx with rfl
      exact Or.inl rfl
  · rw [if_neg hvs] at hv
    exact absurd hv (by simp [lookupA])

/-- Recording a fresh neighbor of a visited node preserves the
predecessor invariant. -/
theorem cfok_insert {g : Grid} {s : Node} {cf : CameFrom} {ex : List Node}
    (c n : Node) (hok : CFOk g s cf ex)
    (hckey : ∃ q, lookupA cf c = some q)
    (hcex : c ∈ ex) (hnex : n ∉ ex) (hadj : n ∈ get_neighbors g c) :
    CFOk g s ((n, some c) :: cf) ex := by
  intro v q hv
  rw [lookupA] at hv
  by_cases hvn : v = n
  · subst hvn
    rw [if_pos rfl] at hv
    obtain ⟨q0, hq0⟩ := hckey
    obtain ⟨Wc, hch, hnd, hwalk, hdrop, hbound⟩ := hok c q0 hq0
    have hWcex : ∀ x ∈ Wc, x ∈ ex :=
      walk_nodes_mem (chains_getLast hch) hdrop hcex
    have hWcn : ∀ x ∈ Wc, x ≠ v := fun x hx he => hnex (he ▸ hWcex x hx)
    refine ⟨Wc ++ [v], ?_, ?_, ?_, ?_, ?_⟩
    · refine Chains.step v c Wc ?_ (chains_prepend v (some c) hch hWcn)
      rw [lookupA, if_pos rfl]
    · rw [List.nodup_append]
      refine ⟨hnd, List.nodup_singleton v, ?_⟩
      intro x hx hx2
      rcases List.mem_singleton.mp hx2 with rfl
      exact hWcn x hx rfl
    · exact isWalk_snoc g s c v Wc hwalk hadj
    · rw [List.dropLast_concat]
      exact hWcex
    · intro x hx
      rcases List.mem_append.mp hx with hx | hx
      · exact hbound x hx
      · rcases List.mem_singleton.mp hx with rfl
        exact Or.inr (mem_get_neighbors_ok g c x hadj)
  · rw [if_neg hvn] at hv
    obtain ⟨W, hch, hnd, hwalk, hdrop, hbound⟩ := hok v q hv
    have hWn : ∀ x ∈ W, x ≠ n := by
      intro x hx
      have hne : W ≠ [] := chains_ne_nil hch
      rw [← List.dropLast_append_getLast hne] at hx
      rcases List.mem_append.mp hx with h | h
      · exact fun he => hnex (he ▸ hdrop x h)
      · rcases List.mem_singleton.mp h with rfl
        have hgl : W.getLast? = some (W.getLast hne) :=
          List.getLast?_eq_getLast W hne
        rw [chains_getLast hch] at hgl
        rw [← Option.some.injEq _ _ |>.mp hgl]
        exact hvn
    exact ⟨W, chains_prepend n (some c) hch hWn, hnd, hwalk, hdrop, hbound⟩

/-- The cost-aware invariant is monotone in the visited set. -/
theorem cfcost_mono {g : Grid} {s : Node} {cf : CameFrom}
    {csf : List (Node × ℚ)} {ex ex' : List Node}
    (hsub : ∀ x ∈ ex, x ∈ ex') (h : CFCost g s cf csf ex) :
    CFCost g s cf csf ex' := by
  intro v cv hv
  obtain ⟨W, h1, h2, h3, h4, h5, h6⟩ := h v cv hv
  exact ⟨W, h1, h2, h3, h4, fun x hx => hsub x (h5 x hx), h6⟩

/-- The initial cost map and predecessor map are well-formed. -/
theorem cfcost_init (g : Grid) (s : Node) (ex : List Node) :
    CFCost g s [(s, none)] [(s, 0)] ex := by
  intro v cv hv
  rw [lookupA] at hv
  by_cases hvs : v = s
  · subst hvs
    rw [if_pos rfl] at hv
    simp only [Option.some.injEq] at hv
    refine ⟨[v], Chains.root v (by rw [lookupA, if_pos rfl]), ?_, ?_, ?_, ?_, ?_⟩
    · exact List.nodup_singleton v
    · exact isWalk_singleton g v
    · rw [← hv]
      rfl
    · intro x hx
      simp at hx
    · intro x hx
      rcases List.mem_singleton.mp hx with rfl
      exact Or.inl rfl
  · rw [if_neg hvs] at hv
    exact absurd hv (by simp [lookupA])

/-- Relaxing a fresh neighbor of a visited node preserves the cost-aware
invariant: the new chain costs exactly the parent cost plus the move. -/
theorem cfcost_insert {g : Grid} {s : Node} {cf : CameFrom}
    {csf : List (Node × ℚ)} {ex : List Node}
    (c n : Node) (cu : ℚ) (hok : CFCost g s cf csf ex)
    (hcu : lookupA csf c = some cu)
    (hcex : c ∈ ex) (hnex : n ∉ ex) (hadj : n ∈ get_neighbors g c) :
    CFCost g s ((n, some c) :: cf) ((n, cu + get_move_cost c n) :: csf) ex := by
  intro v cv hv
  rw [lookupA] at hv
  by_cases hvn : v = n
  · subst hvn
    rw [if_pos rfl] at hv
    simp only [Option.some.injEq] at hv
    obtain ⟨Wc, hch, hnd, hwalk, hcost, hdrop, hbound⟩ := hok c cu hcu
    have hWcex : ∀ x ∈ Wc, x ∈ ex :=
      walk_nodes_mem (chains_getLast hch) hdrop hcex
    have hWcn : ∀ x ∈ Wc, x ≠ v := fun x hx he => hnex (he ▸ hWcex x hx)
    refine ⟨Wc ++ [v], ?_, ?_, ?_, ?_, ?_, ?_⟩
    · refine Chains.step v c Wc ?_ (chains_prepend v (some c) hch hWcn)
      rw [lookupA, if_pos rfl]
    · rw [List.nodup_append]
      refine ⟨hnd, List.nodup_singleton v, ?_⟩
      intro x hx hx2
      rcases List.mem_singleton.mp hx2 with rfl
      exact hWcn x hx rfl
    · exact isWalk_snoc g s c v Wc hwalk hadj
    · rw [pathCost_snoc Wc c v (chains_getLast hch), hcost, ← hv]
    · rw [List.dropLast_concat]
      exact hWcex
    · intro x hx
      rcases List.mem_append.mp hx with hx | hx
      · exact hbound x hx
      · rcases List.mem_singleton.mp hx with rfl
        exact Or.inr (mem_get_neighbors_ok g c x hadj)
  · rw [if_neg hvn] at hv
    obtain ⟨W, hch, hnd, hwalk, hcost, hdrop, hbound⟩ := hok v cv hv
    have hWn : ∀ x ∈ W, x ≠ n := by
      intro x hx
      have hne : W ≠ [] := chains_ne_nil hch
      rw [← List.dropLast_append_getLast hne] at hx
      rcases List.mem_append.mp hx with h | h
      · exact fun he => hnex (he ▸ hdrop x h)
      · rcases List.mem_singleton.mp h with rfl
        have hgl : W.getLast? = some (W.getLast hne) :=
          List.getLast?_eq_getLast W hne
        rw [chains_getLast hch] at hgl
        rw [← Option.some.injEq _ _ |>.mp hgl]
        exact hvn
    exact ⟨W, chains_prepend n (some c) hch hWn, hnd, hwalk, hcost, hdrop,
      hbound⟩

/-- Membership in a visited set after insertion. -/
theorem mem_sadd (l : List Node) (x y : Node) :
    y ∈ sadd l x ↔ y = x ∨ y ∈ l := by
  unfold sadd
  split
  · rename_i hx
    constructor
    · exact Or.inr
    · rintro (rfl | h)
      · exact hx
      · exact h
  · simp [List.mem_cons]

/-- A generic preservation scheme for properties of driver runs. -/
theorem run_global (f : App → App) (P : App → Prop)
    (hstep : ∀ a, P a → P (tick f a)) :
    ∀ (n : Nat) (a : App), P a → P (run f n a)
  | 0, _, h => h
  | n + 1, a, h => run_global f P hstep n (tick f a) (hstep a h)

/-- The two run-scoped structures bfs_push touches, by guard outcome. -/
theorem bfs_push_shape (c : Node) (A : App) (x : Node) :
    (x ∉ A.explored ∧ x ∉ A.frontier ∧
      (bfs_push c A x).came_from = (x, some c) :: A.came_from ∧
      (bfs_push c A x).frontier = A.frontier ++ [x])
    ∨ ((bfs_push c A x).came_from = A.came_from ∧
       (bfs_push c A x).frontier = A.frontier) := by
  unfold bfs_push
  dsimp only
  split
  · rename_i h
    left
    exact ⟨h.1, h.2, by split <;> rfl, by split <;> rfl⟩
  · right
    exact ⟨rfl, rfl⟩

/-- The breadth-first enqueue loop preserves the predecessor-structure
facts: every pushed neighbor is fresh and is recorded with the visited
current node as its parent. -/
theorem bfs_cf_fold (g : Grid) (s c : Node) :
    ∀ (l : List Node) (A : App),
      (∀ x ∈ l, x ∈ get_neighbors g c) →
      (∃ q, lookupA A.came_from c = some q) →
      c ∈ A.explored →
      (∀ v ∈ A.frontier, ∃ q, lookupA A.came_from v = some q) →
      (∀ v ∈ A.explored, ∃ q, lookupA A.came_from v = some q) →
      CFOk g s A.came_from A.explored →
      ((∀ v ∈ (l.foldl (bfs_push c) A).frontier,
          ∃ q, lookupA (l.foldl (bfs_push c) A).came_from v = some q) ∧
       (∀ v ∈ (l.foldl (bfs_push c) A).explored,
          ∃ q, lookupA (l.foldl (bfs_push c) A).came_from v = some q) ∧
       CFOk g s (l.foldl (bfs_push c) A).came_from
         (l.foldl (bfs_push c) A).explored)
  | [], A, hl, hck, hcex, hfr, hex, hok => ⟨hfr, hex, hok⟩
  | x :: l, A, hl, hck, hcex, hfr, hex, hok => by
    rw [List.foldl_cons]
    have hxn : x ∈ get_neighbors g c := hl x (List.mem_cons_self x l)
    have hexp : (bfs_push c A x).explored = A.explored := bfs_push_explored c A x
    rcases bfs_push_shape c A x with ⟨hxe, hxf, hcf, hfr2⟩ | ⟨hcf, hfr2⟩
    · have hcx : c ≠ x := fun h => hxe (h ▸ hcex)
      have hck1 : ∃ q, lookupA (bfs_push c A x).came_from c = some q := by
        rw [hcf]
        obtain ⟨q, hq⟩ := hck
        refine ⟨q, ?_⟩
        rw [lookupA, if_neg hcx]
        exact hq
      have hfr1 : ∀ v ∈ (bfs_push c A x).frontier,
          ∃ q, lookupA (bfs_push c A x).came_from v = some q := by
        rw [hfr2, hcf]
        intro v hv
        by_cases hvx : v = x
        · subst hvx
          exact ⟨some c, by rw [lookupA, if_pos rfl]⟩
        · rcases List.mem_append.mp hv with hv | hv
          · obtain ⟨q, hq⟩ := hfr v hv
            exact ⟨q, by rw [lookupA, if_neg hvx]; exact hq⟩
          · exact absurd (List.mem_singleton.mp hv) hvx
      have hex1 : ∀ v ∈ (bfs_push c A x).explored,
          ∃ q, lookupA (bfs_push c A x).came_from v = some q := by
        rw [hexp, hcf]
        intro v hv
        have hvx : v ≠ x := fun h => hxe (h ▸ hv)
        obtain ⟨q, hq⟩ := hex v hv
        exact ⟨q, by rw [lookupA, if_neg hvx]; exact hq⟩
      have hok1 : CFOk g s (bfs_push c A x).came_from
          (bfs_push c A x).explored := by
        rw [hexp, hcf]
        exact cfok_insert c x hok hck hcex hxe hxn
      exact bfs_cf_fold g s c l (bfs_push c A x)
        (fun y hy => hl y (List.mem_cons_of_mem x hy))
        hck1 (hexp ▸ hcex) hfr1 hex1 hok1
    · exact bfs_cf_fold g s c l (bfs_push c A x)
        (fun y hy => hl y (List.mem_cons_of_mem x hy))
        (hcf ▸ hck) (hexp ▸ hcex) (fun v hv => hcf ▸ hfr v (hfr2 ▸ hv))
        (fun v hv => hcf ▸ hex v (hexp ▸ hv)) (by rw [hcf, hexp]; exact hok)

/-- After a breadth-first expansion of a visited node, the predecessor
invariant holds of the state with the bumped counter. -/
theorem bfs_post_expand (g : Grid) (s t c : Node) (A2 : App)
    (hg : A2.grid = g) (hst : A2.start = s) (htg : A2.target = t)
    (hsr : A2.searching = true) (hsu : A2.success = false)
    (hck : ∃ q, lookupA A2.came_from c = some q)
    (hcex : c ∈ A2.explored) (hsex : s ∈ A2.explored)
    (hfr : ∀ v ∈ A2.frontier, ∃ q, lookupA A2.came_from v = some q)
    (hex : ∀ v ∈ A2.explored, ∃ q, lookupA A2.came_from v = some q)
    (hok : CFOk g s A2.came_from A2.explored) :
    ({ bfs_expand A2 c with
        step_count := (bfs_expand A2 c).step_count + 1 } : App).searching = true
    ∧ CfInv g s t App.frontier
        { bfs_expand A2 c with
            step_count := (bfs_expand A2 c).step_count + 1 } := by
  have hfold := bfs_cf_fold g s c (get_neighbors A2.grid c) A2
    (fun x hx => by rw [hg] at hx; exact hx) hck hcex hfr hex hok
  obtain ⟨f1, f2, f3⟩ := hfold
  have hexp : (bfs_expand A2 c).explored = A2.explored := bfs_expand_explored A2 c
  have hsearch : (bfs_expand A2 c).searching = true :=
    (foldl_preserves App.searching (bfs_push c) (bfs_push_searching c) _ A2).trans hsr
  refine ⟨hsearch, ⟨?_, ?_, ?_, ?_, ?_, ?_, ?_, ?_⟩⟩
  · show (bfs_expand A2 c).grid = g
    exact (foldl_preserves App.grid (bfs_push c) (bfs_push_grid c) _ A2).trans hg
  · show (bfs_expand A2 c).start = s
    exact (foldl_preserves App.start (bfs_push c) (bfs_push_start c) _ A2).trans hst
  · show (bfs_expand A2 c).target = t
    exact (foldl_preserves App.target (bfs_push c) (bfs_push_target c) _ A2).trans htg
  · show (bfs_expand A2 c).success = false
    exact (foldl_preserves App.success (bfs_push c) (bfs_push_success c) _ A2).trans hsu
  · refine Or.inr ?_
    show s ∈ (bfs_expand A2 c).explored
    rw [hexp]
    exact hsex
  · exact f1
  · show ∀ v ∈ (bfs_expand A2 c).explored, _
    rw [hexp]
    intro v hv
    exact f2 v (hexp ▸ hv)
  · show CFOk g s (bfs_expand A2 c).came_from (bfs_expand A2 c).explored
    exact f3

/-- One breadth-first tick from an invariant-satisfying active state
either stays active with the invariant, or halts; a halt with success
reports a path of the promised shape and cost. -/
theorem bfs_cf_step (g : Grid) (s t : Node) (a : App)
    (hsr : a.searching = true) (hI : CfInv g s t App.frontier a) :
    ((bfs_step a).searching = true ∧ CfInv g s t App.frontier (bfs_step a))
    ∨ ((bfs_step a).searching = false ∧
        ((bfs_step a).success = true → PostAny g s t (bfs_step a))) := by
  cases hfr : a.frontier with
  | nil =>
    right
    unfold bfs_step
    rw [hfr]
    refine ⟨rfl, ?_⟩
    intro h
    simp [finish_search] at h
  | cons c rest =>
    have hcm : c ∈ a.frontier := by
      rw [hfr]; exact List.mem_cons_self _ _
    have hckey : ∃ q, lookupA a.came_from c = some q := hI.frKeys c hcm
    have hsex : s ∈ sadd a.explored c := by
      rcases hI.hinit with ⟨hel, hcfl⟩ | hsx
      · obtain ⟨q, hq⟩ := hckey
        rw [hcfl, lookupA] at hq
        by_cases hcs : c = s
        · rw [mem_sadd]
          exact Or.inl hcs.symm
        · rw [if_neg hcs] at hq
          exact absurd hq (by simp [lookupA])
      · rw [mem_sadd]
        exact Or.inr hsx
    by_cases hct : c = a.target
    · right
      unfold bfs_step
      rw [hfr]
      dsimp only
      split
      · rename_i hcond
        exact absurd hct hcond.2
      refine ⟨rfl, ?_⟩
      intro _
      obtain ⟨q, hq⟩ := hckey
      obtain ⟨W, hch, hnd, hwalk, _, _⟩ := hI.cfok c q hq
      have hfuel : W.length ≤ a.came_from.length + 1 :=
        le_trans (chains_length_le hch hnd) (Nat.le_succ _)
      have hwcf : walkCF a.came_from (a.came_from.length + 1) (some c) [] = W := by
        rw [chains_walkCF hch _ [] hfuel]
        exact List.append_nil W
      have hwt : IsWalk g s t W := by
        rw [← hI.htarget, ← hct]
        exact hwalk
      have hfp : (finish_search (reconstruct_path
          { a with frontier := rest, explored := sadd a.explored c })
            true).final_path
          = a.start :: walkCF a.came_from (a.came_from.length + 1)
              (some a.target) [] := rfl
      have hfp2 : (finish_search (reconstruct_path
          { a with frontier := rest, explored := sadd a.explored c })
            true).final_path = s :: W := by
        rw [hfp, ← hct, hwcf, hI.hstart]
      have hcost : pathCost (finish_search (reconstruct_path
          { a with frontier := rest, explored := sadd a.explored c })
            true).final_path = 1 + pathCost W := by
        rw [hfp2]
        exact pathCost_cons_self s W hwalk.1
      constructor
      · rw [hcost]
        have := pathCost_nonneg W
        linarith
      · intro _
        exact ⟨W, hwt, by rw [hcost]⟩
    · left
      unfold bfs_step
      rw [hfr]
      dsimp only
      split
      · exact bfs_post_expand g s t c
          { a with frontier := rest, explored := sadd a.explored c,
                   cell_states := setCell a.cell_states c CellState.EXPLORED }
          hI.hgrid hI.hstart hI.htarget hsr hI.hsuccess hckey
          (by rw [mem_sadd]; exact Or.inl rfl) hsex
          (fun v hv => hI.frKeys v (by rw [hfr]; exact List.mem_cons_of_mem c hv))
          (by
            intro v hv
            rw [mem_sadd] at hv
            rcases hv with rfl | hv
            · exact hckey
            · exact hI.exKeys v hv)
          (cfok_mono (fun x hx => by rw [mem_sadd]; exact Or.inr hx) hI.cfok)
      · exact bfs_post_expand g s t c
          { a with frontier := rest, explored := sadd a.explored c }
          hI.hgrid hI.hstart hI.htarget hsr hI.hsuccess hckey
          (by rw [mem_sadd]; exact Or.inl rfl) hsex
          (fun v hv => hI.frKeys v (by rw [hfr]; exact List.mem_cons_of_mem c hv))
          (by
            intro v hv
            rw [mem_sadd] at hv
            rcases hv with rfl | hv
            · exact hckey
            · exact hI.exKeys v hv)
          (cfok_mono (fun x hx => by rw [mem_sadd]; exact Or.inr hx) hI.cfok)

/-- Extraction scheme: an invariant preserved by active ticks whose halts
satisfy Q on success forces Q at every successful run state. -/
theorem run_success_post (f : App → App) (Inv Q : App → Prop)
    (hsu : ∀ a, Inv a → a.success = false)
    (hstep : ∀ a, a.searching = true → Inv a →
      ((f a).searching = true ∧ Inv (f a)) ∨
      ((f a).searching = false ∧ ((f a).success = true → Q (f a))))
    (n : Nat) (a0 : App) (hs0 : a0.searching = true) (hI0 : Inv a0) :
    (run f n a0).success = true → Q (run f n a0) := by
  have hP := run_global f
    (fun a => (a.searching = true ∧ Inv a) ∨
      (a.searching = false ∧ (a.success = true → Q a)))
    (by
      intro a hPa
      rcases hPa with ⟨hs, hI⟩ | ⟨hs, hq⟩
      · rw [tick, if_pos hs]
        exact hstep a hs hI
      · rw [tick, if_neg (by simp [hs])]
        exact Or.inr ⟨hs, hq⟩)
    n a0 (Or.inl ⟨hs0, hI0⟩)
  intro hsucc
  rcases hP with ⟨hs, hI⟩ | ⟨hs, hq⟩
  · exact absurd hsucc (by simp [hsu _ hI])
  · exact hq hsucc

/-- start_search establishes the breadth-first predecessor invariant. -/
theorem start_search_cf_bfs (g : Grid) (s t : Node) (dl : Nat) :
    CfInv g s t App.frontier (start_search Algo.BFS g s t dl) := by
  refine ⟨rfl, rfl, rfl, rfl, Or.inl ⟨rfl, rfl⟩, ?_, ?_, ?_⟩
  · intro v hv
    have hv' : v ∈ [s] := hv
    rcases List.mem_singleton.mp hv' with rfl
    refine ⟨none, ?_⟩
    show lookupA [(v, none)] v = some none
    rw [lookupA, if_pos rfl]
  · intro v hv
    exact absurd hv (List.not_mem_nil v)
  · exact cfok_init g s []

/-- A successful breadth-first run reports a start-prefixed path whose
cost is one plus the cost of an actual legal walk. -/
theorem bfs_success_spec (g : Grid) (s t : Node) (dl n : Nat) :
    (run (algorithm_step Algo.BFS) n
      (start_search Algo.BFS g s t dl)).success = true →
    PostAny g s t (run (algorithm_step Algo.BFS) n
      (start_search Algo.BFS g s t dl)) :=
  run_success_post bfs_step (fun a => CfInv g s t App.frontier a)
    (PostAny g s t) (fun _ hI => hI.hsuccess)
    (fun a hs hI => bfs_cf_step g s t a hs hI)
    n _ rfl (start_search_cf_bfs g s t dl)

/-- The run-scoped structures dfs_push touches, by guard outcome: a fresh
push either records the parent (when the node has none) or leaves the
predecessor map alone. -/
theorem dfs_push_shape (c : Node) (A : App) (x : Node) :
    (x ∉ A.explored ∧ lookupA A.came_from x = none ∧
      (dfs_push c A x).came_from = (x, some c) :: A.came_from ∧
      (dfs_push c A x).frontier = x :: A.frontier)
    ∨ ((∃ q, lookupA A.came_from x = some q) ∧
       (dfs_push c A x).came_from = A.came_from ∧
       (dfs_push c A x).frontier = x :: A.frontier)
    ∨ ((dfs_push c A x).came_from = A.came_from ∧
       (dfs_push c A x).frontier = A.frontier) := by
  unfold dfs_push
  dsimp only
  split
  · rename_i hx1
    split
    · rename_i hx2
      split
      · rename_i hlk
        left
        exact ⟨hx1, hlk, by split <;> rfl, by split <;> rfl⟩
      · rename_i hlk
        right
        left
        refine ⟨?_, by split <;> rfl, by split <;> rfl⟩
        cases hq : lookupA A.came_from x with
        | none => exact absurd hq hlk
        | some q => exact ⟨q, rfl⟩
    · right
      right
      exact ⟨rfl, rfl⟩
  · right
    right
    exact ⟨rfl, rfl⟩

/-- The depth-first enqueue loop preserves the predecessor-structure
facts. -/
theorem dfs_cf_fold (g : Grid) (s c : Node) :
    ∀ (l : List Node) (A : App),
      (∀ x ∈ l, x ∈ get_neighbors g c) →
      (∃ q, lookupA A.came_from c = some q) →
      c ∈ A.explored →
      (∀ v ∈ A.frontier, ∃ q, lookupA A.came_from v = some q) →
      (∀ v ∈ A.explored, ∃ q, lookupA A.came_from v = some q) →
      CFOk g s A.came_from A.explored →
      ((∀ v ∈ (l.foldl (dfs_push c) A).frontier,
          ∃ q, lookupA (l.foldl (dfs_push c) A).came_from v = some q) ∧
       (∀ v ∈ (l.foldl (dfs_push c) A).explored,
          ∃ q, lookupA (l.foldl (dfs_push c) A).came_from v = some q) ∧
       CFOk g s (l.foldl (dfs_push c) A).came_from
         (l.foldl (dfs_push c) A).explored)
  | [], A, hl, hck, hcex, hfr, hex, hok => ⟨hfr, hex, hok⟩
  | x :: l, A, hl, hck, hcex, hfr, hex, hok => by
    rw [List.foldl_cons]
    have hxn : x ∈ get_neighbors g c := hl x (List.mem_cons_self x l)
    have hexp : (dfs_push c A x).explored = A.explored := dfs_push_explored c A x
    have hnext := fun h1 h2 h3 h4 =>
      dfs_cf_fold g s c l (dfs_push c A x)
        (fun y hy => hl y (List.mem_cons_of_mem x hy)) h1 h2 h3 h4
    rcases dfs_push_shape c A x with ⟨hxe, hlk, hcf, hfr2⟩ |
      ⟨⟨q0, hq0⟩, hcf, hfr2⟩ | ⟨hcf, hfr2⟩
    · have hcx : c ≠ x := fun h => hxe (h ▸ hcex)
      refine hnext ?_ (hexp ▸ hcex) ?_ ?_ ?_
      · rw [hcf]
        obtain ⟨q, hq⟩ := hck
        exact ⟨q, by rw [lookupA, if_neg hcx]; exact hq⟩
      · rw [hfr2, hcf]
        intro v hv
        by_cases hvx : v = x
        · subst hvx
          exact ⟨some c, by rw [lookupA, if_pos rfl]⟩
        · rcases List.mem_cons.mp hv with hv | hv
          · exact absurd hv hvx
          · obtain ⟨q, hq⟩ := hfr v hv
            exact ⟨q, by rw [lookupA, if_neg hvx]; exact hq⟩
      · rw [hexp, hcf]
        intro v hv
        have hvx : v ≠ x := fun h => hxe (h ▸ hv)
        obtain ⟨q, hq⟩ := hex v hv
        exact ⟨q, by rw [lookupA, if_neg hvx]; exact hq⟩
      · rw [hexp, hcf]
        exact cfok_insert c x hok hck hcex hxe hxn
    · refine hnext (hcf ▸ hck) (hexp ▸ hcex) ?_
        (fun v hv => hcf ▸ hex v (hexp ▸ hv)) (by rw [hcf, hexp]; exact hok)
      rw [hfr2, hcf]
      intro v hv
      rcases List.mem_cons.mp hv with rfl | hv
      · exact ⟨q0, hq0⟩
      · exact hfr v hv
    · exact hnext (hcf ▸ hck) (hexp ▸ hcex)
        (fun v hv => hcf ▸ hfr v (hfr2 ▸ hv))
        (fun v hv => hcf ▸ hex v (hexp ▸ hv)) (by rw [hcf, hexp]; exact hok)

/-- After a depth-first expansion of a visited node, the predecessor
invariant holds of the state with the bumped counter. -/
theorem dfs_post_expand (g : Grid) (s t c : Node) (A2 : App)
    (hg : A2.grid = g) (hst : A2.start = s) (htg : A2.target = t)
    (hsr : A2.searching = true) (hsu : A2.success = false)
    (hck : ∃ q, lookupA A2.came_from c = some q)
    (hcex : c ∈ A2.explored) (hsex : s ∈ A2.explored)
    (hfr : ∀ v ∈ A2.frontier, ∃ q, lookupA A2.came_from v = some q)
    (hex : ∀ v ∈ A2.explored, ∃ q, lookupA A2.came_from v = some q)
    (hok : CFOk g s A2.came_from A2.explored) :
    ({ dfs_expand A2 c with
        step_count := (dfs_expand A2 c).step_count + 1 } : App).searching = true
    ∧ CfInv g s t App.frontier
        { dfs_expand A2 c with
            step_count := (dfs_expand A2 c).step_count + 1 } := by
  have hfold := dfs_cf_fold g s c (get_neighbors A2.grid c).reverse A2
    (fun x hx => by
      rw [List.mem_reverse] at hx
      rw [hg] at hx
      exact hx) hck hcex hfr hex hok
  obtain ⟨f1, f2, f3⟩ := hfold
  have hexp : (dfs_expand A2 c).explored = A2.explored := dfs_expand_explored A2 c
  have hsearch : (dfs_expand A2 c).searching = true :=
    (foldl_preserves App.searching (dfs_push c) (dfs_push_searching c) _ A2).trans hsr
  refine ⟨hsearch, ⟨?_, ?_, ?_, ?_, ?_, ?_, ?_, ?_⟩⟩
  · show (dfs_expand A2 c).grid = g
    exact (foldl_preserves App.grid (dfs_push c) (dfs_push_grid c) _ A2).trans hg
  · show (dfs_expand A2 c).start = s
    exact (foldl_preserves App.start (dfs_push c) (dfs_push_start c) _ A2).trans hst
  · show (dfs_expand A2 c).target = t
    exact (foldl_preserves App.target (dfs_push c) (dfs_push_target c) _ A2).trans htg
  · show (dfs_expand A2 c).success = false
    exact (foldl_preserves App.success (dfs_push c) (dfs_push_success c) _ A2).trans hsu
  · refine Or.inr ?_
    show s ∈ (dfs_expand A2 c).explored
    rw [hexp]
    exact hsex
  · exact f1
  · show ∀ v ∈ (dfs_expand A2 c).explored, _
    rw [hexp]
    intro v hv
    exact f2 v (hexp ▸ hv)
  · show CFOk g s (dfs_expand A2 c).came_from (dfs_expand A2 c).explored
    exact f3

/-- One depth-first tick from an invariant-satisfying active state either
stays active with the invariant, or halts; a halt with success reports a
path of the promised shape and cost. -/
theorem dfs_cf_step (g : Grid) (s t : Node) (a : App)
    (hsr : a.searching = true) (hI : CfInv g s t App.frontier a) :
    ((dfs_step a).searching = true ∧ CfInv g s t App.frontier (dfs_step a))
    ∨ ((dfs_step a).searching = false ∧
        ((dfs_step a).success = true → PostAny g s t (dfs_step a))) := by
  cases hfr : a.frontier with
  | nil =>
    right
    unfold dfs_step
    rw [hfr]
    refine ⟨rfl, ?_⟩
    intro h
    simp [finish_search] at h
  | cons c rest =>
    have hcm : c ∈ a.frontier := by
      rw [hfr]; exact List.mem_cons_self _ _
    have hckey : ∃ q, lookupA a.came_from c = some q := hI.frKeys c hcm
    have hsex : s ∈ sadd a.explored c := by
      rcases hI.hinit with ⟨hel, hcfl⟩ | hsx
      · obtain ⟨q, hq⟩ := hckey
        rw [hcfl, lookupA] at hq
        by_cases hcs : c = s
        · rw [mem_sadd]
          exact Or.inl hcs.symm
        · rw [if_neg hcs] at hq
          exact absurd hq (by simp [lookupA])
      · rw [mem_sadd]
        exact Or.inr hsx
    unfold dfs_step
    rw [hfr]
    dsimp only
    split
    · -- stale pop: only the frontier shrinks
      left
      exact ⟨hsr, ⟨hI.hgrid, hI.hstart, hI.htarget, hI.hsuccess, hI.hinit,
        fun v hv => hI.frKeys v (by rw [hfr]; exact List.mem_cons_of_mem c hv),
        hI.exKeys, hI.cfok⟩⟩
    · rename_i hcf
      by_cases hct : c = a.target
      · right
        split
        · rename_i hcond
          exact absurd hct hcond.2
        · refine ⟨rfl, ?_⟩
          intro _
          obtain ⟨q, hq⟩ := hckey
          obtain ⟨W, hch, hnd, hwalk, _, _⟩ := hI.cfok c q hq
          have hfuel : W.length ≤ a.came_from.length + 1 :=
            le_trans (chains_length_le hch hnd) (Nat.le_succ _)
          have hwcf : walkCF a.came_from (a.came_from.length + 1)
              (some c) [] = W := by
            rw [chains_walkCF hch _ [] hfuel]
            exact List.append_nil W
          have hwt : IsWalk g s t W := by
            rw [← hI.htarget, ← hct]
            exact hwalk
          have hfp2 : (finish_search (reconstruct_path
              { a with frontier := rest, explored := sadd a.explored c })
                true).final_path = s :: W := by
            show a.start :: walkCF a.came_from (a.came_from.length + 1)
              (some a.target) [] = s :: W
            rw [← hct, hwcf, hI.hstart]
          have hcost : pathCost (finish_search (reconstruct_path
              { a with frontier := rest, explored := sadd a.explored c })
                true).final_path = 1 + pathCost W := by
            rw [hfp2]
            exact pathCost_cons_self s W hwalk.1
          constructor
          · rw [hcost]
            have := pathCost_nonneg W
            linarith
          · intro _
            exact ⟨W, hwt, by rw [hcost]⟩
      · left
        split
        · exact dfs_post_expand g s t c
            { a with frontier := rest, explored := sadd a.explored c,
                     cell_states := setCell a.cell_states c CellState.EXPLORED }
            hI.hgrid hI.hstart hI.htarget hsr hI.hsuccess hckey
            (by rw [mem_sadd]; exact Or.inl rfl) hsex
            (fun v hv => hI.frKeys v
              (by rw [hfr]; exact List.mem_cons_of_mem c hv))
            (by
              intro v hv
              rw [mem_sadd] at hv
              rcases hv with rfl | hv
              · exact hckey
              · exact hI.exKeys v hv)
            (cfok_mono (fun x hx => by rw [mem_sadd]; exact Or.inr hx) hI.cfok)
        · exact dfs_post_expand g s t c
            { a with frontier := rest, explored := sadd a.explored c }
            hI.hgrid hI.hstart hI.htarget hsr hI.hsuccess hckey
            (by rw [mem_sadd]; exact Or.inl rfl) hsex
            (fun v hv => hI.frKeys v
              (by rw [hfr]; exact List.mem_cons_of_mem c hv))
            (by
              intro v hv
              rw [mem_sadd] at hv
              rcases hv with rfl | hv
              · exact hckey
              · exact hI.exKeys v hv)
            (cfok_mono (fun x hx => by rw [mem_sadd]; exact Or.inr hx) hI.cfok)

/-- start_search establishes the depth-first predecessor invariant. -/
theorem start_search_cf_dfs (g : Grid) (s t : Node) (dl : Nat) :
    CfInv g s t App.frontier (start_search Algo.DFS g s t dl) := by
  refine ⟨rfl, rfl, rfl, rfl, Or.inl ⟨rfl, rfl⟩, ?_, ?_, ?_⟩
  · intro v hv
    have hv' : v ∈ [s] := hv
    rcases List.mem_singleton.mp hv' with rfl
    refine ⟨none, ?_⟩
    show lookupA [(v, none)] v = some none
    rw [lookupA, if_pos rfl]
  · intro v hv
    exact absurd hv (List.not_mem_nil v)
  · exact cfok_init g s []

/-- A successful depth-first run reports a start-prefixed path whose cost
is one plus the cost of an actual legal walk. -/
theorem dfs_success_spec (g : Grid) (s t : Node) (dl n : Nat) :
    (run (algorithm_step Algo.DFS) n
      (start_search Algo.DFS g s t dl)).success = true →
    PostAny g s t (run (algorithm_step Algo.DFS) n
      (start_search Algo.DFS g s t dl)) :=
  run_success_post dfs_step (fun a => CfInv g s t App.frontier a)
    (PostAny g s t) (fun _ hI => hI.hsuccess)
    (fun a hs hI => dfs_cf_step g s t a hs hI)
    n _ rfl (start_search_cf_dfs g s t dl)

/-- The run-scoped structures dls_push touches, by guard outcome. -/
theorem dls_push_shape (c : Node) (d : Nat) (A : App) (x : Node) :
    (x ∉ A.explored ∧ lookupA A.came_from x = none ∧
      (dls_push c d A x).came_from = (x, some c) :: A.came_from ∧
      (dls_push c d A x).frontier_d = (x, d + 1) :: A.frontier_d)
    ∨ ((∃ q, lookupA A.came_from x = some q) ∧
       (dls_push c d A x).came_from = A.came_from ∧
       (dls_push c d A x).frontier_d = (x, d + 1) :: A.frontier_d)
    ∨ ((dls_push c d A x).came_from = A.came_from ∧
       (dls_push c d A x).frontier_d = A.frontier_d) := by
  unfold dls_push
  dsimp only
  split
  · rename_i hx1
    split
    · rename_i hlk
      left
      exact ⟨hx1, hlk, by split <;> rfl, by split <;> rfl⟩
    · rename_i hlk
      right
      left
      refine ⟨?_, by split <;> rfl, by split <;> rfl⟩
      cases hq : lookupA A.came_from x with
      | none => exact absurd hq hlk
      | some q => exact ⟨q, rfl⟩
  · right
    right
    exact ⟨rfl, rfl⟩

/-- The depth-limited enqueue loop preserves the predecessor-structure
facts. -/
theorem dls_cf_fold (g : Grid) (s c : Node) (d : Nat) :
    ∀ (l : List Node) (A : App),
      (∀ x ∈ l, x ∈ get_neighbors g c) →
      (∃ q, lookupA A.came_from c = some q) →
      c ∈ A.explored →
      (∀ v ∈ A.frontier_d.map Prod.fst, ∃ q, lookupA A.came_from v = some q) →
      (∀ v ∈ A.explored, ∃ q, lookupA A.came_from v = some q) →
      CFOk g s A.came_from A.explored →
      ((∀ v ∈ (l.foldl (dls_push c d) A).frontier_d.map Prod.fst,
          ∃ q, lookupA (l.foldl (dls_push c d) A).came_from v = some q) ∧
       (∀ v ∈ (l.foldl (dls_push c d) A).explored,
          ∃ q, lookupA (l.foldl (dls_push c d) A).came_from v = some q) ∧
       CFOk g s (l.foldl (dls_push c d) A).came_from
         (l.foldl (dls_push c d) A).explored)
  | [], A, hl, hck, hcex, hfr, hex, hok => ⟨hfr, hex, hok⟩
  | x :: l, A, hl, hck, hcex, hfr, hex, hok => by
    rw [List.foldl_cons]
    have hxn : x ∈ get_neighbors g c := hl x (List.mem_cons_self x l)
    have hexp : (dls_push c d A x).explored = A.explored := dls_push_explored c d A x
    have hnext := fun h1 h2 h3 h4 =>
      dls_cf_fold g s c d l (dls_push c d A x)
        (fun y hy => hl y (List.mem_cons_of_mem x hy)) h1 h2 h3 h4
    rcases dls_push_shape c d A x with ⟨hxe, hlk, hcf, hfr2⟩ |
      ⟨⟨q0, hq0⟩, hcf, hfr2⟩ | ⟨hcf, hfr2⟩
    · have hcx : c ≠ x := fun h => hxe (h ▸ hcex)
      refine hnext ?_ (hexp ▸ hcex) ?_ ?_ ?_
      · rw [hcf]
        obtain ⟨q, hq⟩ := hck
        exact ⟨q, by rw [lookupA, if_neg hcx]; exact hq⟩
      · rw [hfr2, hcf]
        intro v hv
        simp only [List.map_cons, List.mem_cons] at hv
        by_cases hvx : v = x
        · subst hvx
          exact ⟨some c, by rw [lookupA, if_pos rfl]⟩
        · rcases hv with hv | hv
          · exact absurd hv hvx
          · obtain ⟨q, hq⟩ := hfr v hv
            exact ⟨q, by rw [lookupA, if_neg hvx]; exact hq⟩
      · rw [hexp, hcf]
        intro v hv
        have hvx : v ≠ x := fun h => hxe (h ▸ hv)
        obtain ⟨q, hq⟩ := hex v hv
        exact ⟨q, by rw [lookupA, if_neg hvx]; exact hq⟩
      · rw [hexp, hcf]
        exact cfok_insert c x hok hck hcex hxe hxn
    · refine hnext (hcf ▸ hck) (hexp ▸ hcex) ?_
        (fun v hv => hcf ▸ hex v (hexp ▸ hv)) (by rw [hcf, hexp]; exact hok)
      rw [hfr2, hcf]
      intro v hv
      simp only [List.map_cons, List.mem_cons] at hv
      rcases hv with rfl | hv
      · exact ⟨q0, hq0⟩
      · exact hfr v hv
    · exact hnext (hcf ▸ hck) (hexp ▸ hcex)
        (fun v hv => hcf ▸ hfr v (hfr2 ▸ hv))
        (fun v hv => hcf ▸ hex v (hexp ▸ hv)) (by rw [hcf, hexp]; exact hok)

/-- After a depth-limited expansion of a visited node, the predecessor
invariant holds of the state with the bumped counter. -/
theorem dls_post_expand (g : Grid) (s t c : Node) (d : Nat) (A2 : App)
    (hg : A2.grid = g) (hst : A2.start = s) (htg : A2.target = t)
    (hsr : A2.searching = true) (hsu : A2.success = false)
    (hck : ∃ q, lookupA A2.came_from c = some q)
    (hcex : c ∈ A2.explored) (hsex : s ∈ A2.explored)
    (hfr : ∀ v ∈ A2.frontier_d.map Prod.fst,
      ∃ q, lookupA A2.came_from v = some q)
    (hex : ∀ v ∈ A2.explored, ∃ q, lookupA A2.came_from v = some q)
    (hok : CFOk g s A2.came_from A2.explored) :
    ({ dls_expand A2 c d with
        step_count := (dls_expand A2 c d).step_count + 1 } : App).searching = true
    ∧ CfInv g s t (fun b => b.frontier_d.map Prod.fst)
        { dls_expand A2 c d with
            step_count := (dls_expand A2 c d).step_count + 1 } := by
  have hfold := dls_cf_fold g s c d (get_neighbors A2.grid c).reverse A2
    (fun x hx => by
      rw [List.mem_reverse] at hx
      rw [hg] at hx
      exact hx) hck hcex hfr hex hok
  obtain ⟨f1, f2, f3⟩ := hfold
  have hexp : (dls_expand A2 c d).explored = A2.explored :=
    dls_expand_explored A2 c d
  have hsearch : (dls_expand A2 c d).searching = true :=
    (foldl_preserves App.searching (dls_push c d)
      (dls_push_searching c d) _ A2).trans hsr
  refine ⟨hsearch, ⟨?_, ?_, ?_, ?_, ?_, ?_, ?_, ?_⟩⟩
  · show (dls_expand A2 c d).grid = g
    exact (foldl_preserves App.grid (dls_push c d)
      (dls_push_grid c d) _ A2).trans hg
  · show (dls_expand A2 c d).start = s
    exact (foldl_preserves App.start (dls_push c d)
      (dls_push_start c d) _ A2).trans hst
  · show (dls_expand A2 c d).target = t
    exact (foldl_preserves App.target (dls_push c d)
      (dls_push_target c d) _ A2).trans htg
  · show (dls_expand A2 c d).success = false
    exact (foldl_preserves App.success (dls_push c d)
      (dls_push_success c d) _ A2).trans hsu
  · refine Or.inr ?_
    show s ∈ (dls_expand A2 c d).explored
    rw [hexp]
    exact hsex
  · exact f1
  · show ∀ v ∈ (dls_expand A2 c d).explored, _
    rw [hexp]
    intro v hv
    exact f2 v (hexp ▸ hv)
  · show CFOk g s (dls_expand A2 c d).came_from (dls_expand A2 c d).explored
    exact f3

/-- One depth-limited tick from an invariant-satisfying active state
either stays active with the invariant, or halts; a halt with success
reports a path of the promised shape and cost. -/
theorem dls_cf_step (g : Grid) (s t : Node) (a : App)
    (hsr : a.searching = true)
    (hI : CfInv g s t (fun b => b.frontier_d.map Prod.fst) a) :
    ((dls_step a).searching = true
      ∧ CfInv g s t (fun b => b.frontier_d.map Prod.fst) (dls_step a))
    ∨ ((dls_step a).searching = false ∧
        ((dls_step a).success = true → PostAny g s t (dls_step a))) := by
  cases hfr : a.frontier_d with
  | nil =>
    right
    unfold dls_step
    rw [hfr]
    refine ⟨rfl, ?_⟩
    intro h
    simp [finish_search] at h
  | cons cd rest =>
    obtain ⟨c, d0⟩ := cd
    have hcm : c ∈ a.frontier_d.map Prod.fst := by
      rw [hfr]
      exact List.mem_map.mpr ⟨(c, d0), List.mem_cons_self _ _, rfl⟩
    have hckey : ∃ q, lookupA a.came_from c = some q := hI.frKeys c hcm
    have hrest : ∀ v ∈ rest.map Prod.fst,
        ∃ q, lookupA a.came_from v = some q := by
      intro v hv
      refine hI.frKeys v ?_
      rw [hfr]
      simp only [List.map_cons, List.mem_cons]
      exact Or.inr hv
    have hsex : s ∈ sadd a.explored c := by
      rcases hI.hinit with ⟨hel, hcfl⟩ | hsx
      · obtain ⟨q, hq⟩ := hckey
        rw [hcfl, lookupA] at hq
        by_cases hcs : c = s
        · rw [mem_sadd]
          exact Or.inl hcs.symm
        · rw [if_neg hcs] at hq
          exact absurd hq (by simp [lookupA])
      · rw [mem_sadd]
        exact Or.inr hsx
    have hexKeys2 : ∀ v ∈ sadd a.explored c,
        ∃ q, lookupA a.came_from v = some q := by
      intro v hv
      rw [mem_sadd] at hv
      rcases hv with rfl | hv
      · exact hckey
      · exact hI.exKeys v hv
    unfold dls_step
    rw [hfr]
    dsimp only
    split
    · left
      exact ⟨hsr, ⟨hI.hgrid, hI.hstart, hI.htarget, hI.hsuccess, hI.hinit,
        hrest, hI.exKeys, hI.cfok⟩⟩
    · rename_i hcf2
      by_cases hct : c = a.target
      · right
        split
        · rename_i hcond
          exact absurd hct hcond.2
        · refine ⟨rfl, ?_⟩
          intro _
          obtain ⟨q, hq⟩ := hckey
          obtain ⟨W, hch, hnd, hwalk, _, _⟩ := hI.cfok c q hq
          have hfuel : W.length ≤ a.came_from.length + 1 :=
            le_trans (chains_length_le hch hnd) (Nat.le_succ _)
          have hwcf : walkCF a.came_from (a.came_from.length + 1)
              (some c) [] = W := by
            rw [chains_walkCF hch _ [] hfuel]
            exact List.append_nil W
          have hwt : IsWalk g s t W := by
            rw [← hI.htarget, ← hct]
            exact hwalk
          have hfp2 : (finish_search (reconstruct_path
              { a with frontier_d := rest, explored := sadd a.explored c })
                true).final_path = s :: W := by
            show a.start :: walkCF a.came_from (a.came_from.length + 1)
              (some a.target) [] = s :: W
            rw [← hct, hwcf, hI.hstart]
          have hcost : pathCost (finish_search (reconstruct_path
              { a with frontier_d := rest, explored := sadd a.explored c })
                true).final_path = 1 + pathCost W := by
            rw [hfp2]
            exact pathCost_cons_self s W hwalk.1
          constructor
          · rw [hcost]
            have := pathCost_nonneg W
            linarith
          · intro _
            exact ⟨W, hwt, by rw [hcost]⟩
      · left
        split
        · split
          · exact dls_post_expand g s t c d0
              { a with frontier_d := rest, explored := sadd a.explored c,
                       cell_states := setCell a.cell_states c CellState.EXPLORED }
              hI.hgrid hI.hstart hI.htarget hsr hI.hsuccess hckey
              (by rw [mem_sadd]; exact Or.inl rfl) hsex hrest hexKeys2
              (cfok_mono (fun x hx => by rw [mem_sadd]; exact Or.inr hx) hI.cfok)
          · exact ⟨hsr, ⟨hI.hgrid, hI.hstart, hI.htarget, hI.hsuccess,
              Or.inr hsex, hrest, hexKeys2,
              cfok_mono (fun x hx => by rw [mem_sadd]; exact Or.inr hx) hI.cfok⟩⟩
        · split
          · exact dls_post_expand g s t c d0
              { a with frontier_d := rest, explored := sadd a.explored c }
              hI.hgrid hI.hstart hI.htarget hsr hI.hsuccess hckey
              (by rw [mem_sadd]; exact Or.inl rfl) hsex hrest hexKeys2
              (cfok_mono (fun x hx => by rw [mem_sadd]; exact Or.inr hx) hI.cfok)
          · exact ⟨hsr, ⟨hI.hgrid, hI.hstart, hI.htarget, hI.hsuccess,
              Or.inr hsex, hrest, hexKeys2,
              cfok_mono (fun x hx => by rw [mem_sadd]; exact Or.inr hx) hI.cfok⟩⟩

/-- One iterative-deepening tick from an invariant-satisfying active
state either stays active with the invariant (including the restart
transition, which reinitialises the structures), or halts; a halt with
success reports a path of the promised shape and cost. -/
theorem iddfs_cf_step (g : Grid) (s t : Node) (a : App)
    (hsr : a.searching = true)
    (hI : CfInv g s t (fun b => b.frontier_d.map Prod.fst) a) :
    ((iddfs_step a).searching = true
      ∧ CfInv g s t (fun b => b.frontier_d.map Prod.fst) (iddfs_step a))
    ∨ ((iddfs_step a).searching = false ∧
        ((iddfs_step a).success = true → PostAny g s t (iddfs_step a))) := by
  cases hfr : a.frontier_d with
  | nil =>
    unfold iddfs_step
    rw [hfr]
    dsimp only
    split
    · right
      refine ⟨rfl, ?_⟩
      intro h
      simp [finish_search] at h
    · left
      refine ⟨hsr, ⟨hI.hgrid, hI.hstart, hI.htarget, hI.hsuccess,
        Or.inl ⟨rfl, ?_⟩, ?_, ?_, ?_⟩⟩
      · show ([(a.start, none)] : CameFrom) = [(s, none)]
        rw [hI.hstart]
      · intro v hv
        have hv' : v ∈ [a.start] := hv
        rcases List.mem_singleton.mp hv' with rfl
        refine ⟨none, ?_⟩
        show lookupA [(a.start, none)] a.start = some none
        rw [lookupA, if_pos rfl]
      · intro v hv
        exact absurd hv (List.not_mem_nil v)
      · show CFOk g s [(a.start, none)] []
        rw [hI.hstart]
        exact cfok_init g s []
  | cons cd rest =>
    obtain ⟨c, d0⟩ := cd
    have hcm : c ∈ a.frontier_d.map Prod.fst := by
      rw [hfr]
      exact List.mem_map.mpr ⟨(c, d0), List.mem_cons_self _ _, rfl⟩
    have hckey : ∃ q, lookupA a.came_from c = some q := hI.frKeys c hcm
    have hrest : ∀ v ∈ rest.map Prod.fst,
        ∃ q, lookupA a.came_from v = some q := by
      intro v hv
      refine hI.frKeys v ?_
      rw [hfr]
      simp only [List.map_cons, List.mem_cons]
      exact Or.inr hv
    have hsex : s ∈ sadd a.explored c := by
      rcases hI.hinit with ⟨hel, hcfl⟩ | hsx
      · obtain ⟨q, hq⟩ := hckey
        rw [hcfl, lookupA] at hq
        by_cases hcs : c = s
        · rw [mem_sadd]
          exact Or.inl hcs.symm
        · rw [if_neg hcs] at hq
          exact absurd hq (by simp [lookupA])
      · rw [mem_sadd]
        exact Or.inr hsx
    have hexKeys2 : ∀ v ∈ sadd a.explored c,
        ∃ q, lookupA a.came_from v = some q := by
      intro v hv
      rw [mem_sadd] at hv
      rcases hv with rfl | hv
      · exact hckey
      · exact hI.exKeys v hv
    unfold iddfs_step
    rw [hfr]
    dsimp only
    split
    · left
      exact ⟨hsr, ⟨hI.hgrid, hI.hstart, hI.htarget, hI.hsuccess, hI.hinit,
        hrest, hI.exKeys, hI.cfok⟩⟩
    · rename_i hcf2
      by_cases hct : c = a.target
      · right
        split
        · rename_i hcond
          exact absurd hct hcond.2
        · refine ⟨rfl, ?_⟩
          intro _
          obtain ⟨q, hq⟩ := hckey
          obtain ⟨W, hch, hnd, hwalk, _, _⟩ := hI.cfok c q hq
          have hfuel : W.length ≤ a.came_from.length + 1 :=
            le_trans (chains_length_le hch hnd) (Nat.le_succ _)
          have hwcf : walkCF a.came_from (a.came_from.length + 1)
              (some c) [] = W := by
            rw [chains_walkCF hch _ [] hfuel]
            exact List.append_nil W
          have hwt : IsWalk g s t W := by
            rw [← hI.htarget, ← hct]
            exact hwalk
          have hfp2 : (finish_search (reconstruct_path
              { a with frontier_d := rest, explored := sadd a.explored c })
                true).final_path = s :: W := by
            show a.start :: walkCF a.came_from (a.came_from.length + 1)
              (some a.target) [] = s :: W
            rw [← hct, hwcf, hI.hstart]
          have hcost : pathCost (finish_search (reconstruct_path
              { a with frontier_d := rest, explored := sadd a.explored c })
                true).final_path = 1 + pathCost W := by
            rw [hfp2]
            exact pathCost_cons_self s W hwalk.1
          constructor
          · rw [hcost]
            have := pathCost_nonneg W
            linarith
          · intro _
            exact ⟨W, hwt, by rw [hcost]⟩
      · left
        split
        · split
          · exact dls_post_expand g s t c d0
              { a with frontier_d := rest, explored := sadd a.explored c,
                       cell_states := setCell a.cell_states c CellState.EXPLORED }
              hI.hgrid hI.hstart hI.htarget hsr hI.hsuccess hckey
              (by rw [mem_sadd]; exact Or.inl rfl) hsex hrest hexKeys2
              (cfok_mono (fun x hx => by rw [mem_sadd]; exact Or.inr hx) hI.cfok)
          · exact ⟨hsr, ⟨hI.hgrid, hI.hstart, hI.htarget, hI.hsuccess,
              Or.inr hsex, hrest, hexKeys2,
              cfok_mono (fun x hx => by rw [mem_sadd]; exact Or.inr hx) hI.cfok⟩⟩
        · split
          · exact dls_post_expand g s t c d0
              { a with frontier_d := rest, explored := sadd a.explored c }
              hI.hgrid hI.hstart hI.htarget hsr hI.hsuccess hckey
              (by rw [mem_sadd]; exact Or.inl rfl) hsex hrest hexKeys2
              (cfok_mono (fun x hx => by rw [mem_sadd]; exact Or.inr hx) hI.cfok)
          · exact ⟨hsr, ⟨hI.hgrid, hI.hstart, hI.htarget, hI.hsuccess,
              Or.inr hsex, hrest, hexKeys2,
              cfok_mono (fun x hx => by rw [mem_sadd]; exact Or.inr hx) hI.cfok⟩⟩

/-- start_search establishes the depth-limited predecessor invariant. -/
theorem start_search_cf_dls (g : Grid) (s t : Node) (dl : Nat) :
    CfInv g s t (fun b => b.frontier_d.map Prod.fst)
      (start_search Algo.DLS g s t dl) := by
  refine ⟨rfl, rfl, rfl, rfl, Or.inl ⟨rfl, rfl⟩, ?_, ?_, ?_⟩
  · intro v hv
    have hv' : v ∈ [s] := hv
    rcases List.mem_singleton.mp hv' with rfl
    refine ⟨none, ?_⟩
    show lookupA [(v, none)] v = some none
    rw [lookupA, if_pos rfl]
  · intro v hv
    exact absurd hv (List.not_mem_nil v)
  · exact cfok_init g s []

/-- start_search establishes the iterative-deepening predecessor
invariant. -/
theorem start_search_cf_iddfs (g : Grid) (s t : Node) (dl : Nat) :
    CfInv g s t (fun b => b.frontier_d.map Prod.fst)
      (start_search Algo.IDDFS g s t dl) := by
  refine ⟨rfl, rfl, rfl, rfl, Or.inl ⟨rfl, rfl⟩, ?_, ?_, ?_⟩
  · intro v hv
    have hv' : v ∈ [s] := hv
    rcases List.mem_singleton.mp hv' with rfl
    refine ⟨none, ?_⟩
    show lookupA [(v, none)] v = some none
    rw [lookupA, if_pos rfl]
  · intro v hv
    exact absurd hv (List.not_mem_nil v)
  · exact cfok_init g s []

/-- A successful depth-limited run reports a start-prefixed path whose
cost is one plus the cost of an actual legal walk. -/
theorem dls_success_spec (g : Grid) (s t : Node) (dl n : Nat) :
    (run (algorithm_step Algo.DLS) n
      (start_search Algo.DLS g s t dl)).success = true →
    PostAny g s t (run (algorithm_step Algo.DLS) n
      (start_search Algo.DLS g s t dl)) :=
  run_success_post dls_step
    (fun a => CfInv g s t (fun b => b.frontier_d.map Prod.fst) a)
    (PostAny g s t) (fun _ hI => hI.hsuccess)
    (fun a hs hI => dls_cf_step g s t a hs hI)
    n _ rfl (start_search_cf_dls g s t dl)

/-- A successful iterative-deepening run reports a start-prefixed path
whose cost is one plus the cost of an actual legal walk. -/
theorem iddfs_success_spec (g : Grid) (s t : Node) (dl n : Nat) :
    (run (algorithm_step Algo.IDDFS) n
      (start_search Algo.IDDFS g s t dl)).success = true →
    PostAny g s t (run (algorithm_step Algo.IDDFS) n
      (start_search Algo.IDDFS g s t dl)) :=
  run_success_post iddfs_step
    (fun a => CfInv g s t (fun b => b.frontier_d.map Prod.fst) a)
    (PostAny g s t) (fun _ hI => hI.hsuccess)
    (fun a hs hI => iddfs_cf_step g s t a hs hI)
    n _ rfl (start_search_cf_iddfs g s t dl)

/-- The heap order is irreflexive. -/
theorem tupLt_irrefl (a : ℚ × Node) : ¬ tupLt a a := by
  unfold tupLt
  rintro (h | ⟨_, h | ⟨_, h⟩⟩)
  · exact lt_irrefl _ h
  · exact lt_irrefl _ h
  · exact lt_irrefl _ h

/-- The heap order is transitive. -/
theorem tupLt_trans {a b c : ℚ × Node} (h1 : tupLt a b) (h2 : tupLt b c) :
    tupLt a c := by
  unfold tupLt at h1 h2 ⊢
  rcases h1 with h1 | ⟨e1, h1 | ⟨e1b, h1⟩⟩ <;>
    rcases h2 with h2 | ⟨e2, h2 | ⟨e2b, h2⟩⟩
  · exact Or.inl (lt_trans h1 h2)
  · exact Or.inl (e2 ▸ h1)
  · exact Or.inl (e2 ▸ h1)
  · exact Or.inl (e1 ▸ h2)
  · exact Or.inr ⟨e1.trans e2, Or.inl (lt_trans h1 h2)⟩
  · exact Or.inr ⟨e1.trans e2, Or.inl (e2b ▸ h1)⟩
  · exact Or.inl (e1 ▸ h2)
  · exact Or.inr ⟨e1.trans e2, Or.inl (e1b ▸ h2)⟩
  · exact Or.inr ⟨e1.trans e2, Or.inr ⟨e1b.trans e2b, lt_trans h1 h2⟩⟩

/-- The heap order is total. -/
theorem tupLt_total (a b : ℚ × Node) : tupLt a b ∨ a = b ∨ tupLt b a := by
  unfold tupLt
  rcases lt_trichotomy a.1 b.1 with h | h | h
  · exact Or.inl (Or.inl h)
  · rcases lt_trichotomy a.2.1 b.2.1 with h2 | h2 | h2
    · exact Or.inl (Or.inr ⟨h, Or.inl h2⟩)
    · rcases lt_trichotomy a.2.2 b.2.2 with h3 | h3 | h3
      · exact Or.inl (Or.inr ⟨h, Or.inr ⟨h2, h3⟩⟩)
      · refine Or.inr (Or.inl ?_)
        obtain ⟨a1, a2, a3⟩ := a
        obtain ⟨b1, b2, b3⟩ := b
        simp only at h h2 h3
        rw [h, h2, h3]
      · exact Or.inr (Or.inr (Or.inr ⟨h.symm, Or.inr ⟨h2.symm, h3⟩⟩))
    · exact Or.inr (Or.inr (Or.inr ⟨h.symm, Or.inl h2⟩))
  · exact Or.inr (Or.inr (Or.inl h))

/-- The leftmost minimal heap entry is below no other entry. -/
theorem heapFindMin_min : ∀ (l : List (ℚ × Node)) (m : ℚ × Node),
    heapFindMin l = some m → ∀ x ∈ l, ¬ tupLt x m
  | [], m, h => by simp [heapFindMin] at h
  | x :: rest, m, h => by
    unfold heapFindMin at h
    cases hr : heapFindMin rest with
    | none =>
      rw [hr] at h
      simp only [Option.some.injEq] at h
      subst h
      intro y hy
      rcases List.mem_cons.mp hy with rfl | hy
      · exact tupLt_irrefl y
      · rw [heapFindMin_none rest hr] at hy
        exact absurd hy (List.not_mem_nil y)
    | some m2 =>
      rw [hr] at h
      dsimp only at h
      have ih := heapFindMin_min rest m2 hr
      split at h
      · rename_i hlt
        simp only [Option.some.injEq] at h
        subst h
        intro y hy
        rcases List.mem_cons.mp hy with rfl | hy
        · intro hcon
          exact tupLt_irrefl m2 (tupLt_trans hlt hcon)
        · exact ih y hy
      · rename_i hlt
        simp only [Option.some.injEq] at h
        subst h
        intro y hy
        rcases List.mem_cons.mp hy with rfl | hy
        · exact tupLt_irrefl y
        · intro hcon
          rcases tupLt_total m2 y with h2 | h2 | h2
          · exact hlt (tupLt_trans h2 hcon)
          · exact hlt (h2 ▸ hcon)
          · exact ih y hy h2
  
/-- A minimal popped key bounds every heap key from below. -/
theorem heapFindMin_key_le (l : List (ℚ × Node)) (d : ℚ) (c : Node)
    (h : heapFindMin l = some (d, c)) :
    ∀ e v, (e, v) ∈ l → d ≤ e := by
  intro e v hv
  have hnot := heapFindMin_min l (d, c) h (e, v) hv
  by_contra hcon
  exact hnot (Or.inl (by linarith [lt_of_not_le hcon]))

/-- Entries other than the removed one survive removeFirst. -/
theorem mem_removeFirst_of_ne : ∀ (l : List (ℚ × Node)) (x y : ℚ × Node),
    x ∈ l → x ≠ y → x ∈ removeFirst l y
  | [], x, y, h, _ => absurd h (List.not_mem_nil _)
  | z :: rest, x, y, h, hne => by
    unfold removeFirst
    split
    · rename_i hz
      rcases List.mem_cons.mp h with rfl | h
      · exact absurd hz hne
      · exact h
    · rcases List.mem_cons.mp h with rfl | h
      · exact List.mem_cons_self _ _
      · exact List.mem_cons_of_mem z (mem_removeFirst_of_ne rest x y h hne)

/-- A successful pop returns the leftmost minimal entry. -/
theorem heappop_findMin (l : List (ℚ × Node)) (m : ℚ × Node)
    (rest : List (ℚ × Node)) (h : heappop l = some (m, rest)) :
    heapFindMin l = some m := by
  unfold heappop at h
  cases hr : heapFindMin l with
  | none => rw [hr] at h; simp at h
  | some m2 =>
    rw [hr] at h
    simp only [Option.some.injEq, Prod.mk.injEq] at h
    rw [h.1]

/-- The run-scoped structures ucs_push touches, by guard outcome: a
relaxation requires a strict improvement and rewrites cost, heap and
predecessor together. -/
theorem ucs_push_shape (c : Node) (A : App) (x : Node) :
    (x ∉ A.explored ∧
      (∀ cx, lookupA A.cost_so_far x = some cx →
        (lookupA A.cost_so_far c).getD 0 + get_move_cost c x < cx) ∧
      (ucs_push c A x).cost_so_far =
        (x, (lookupA A.cost_so_far c).getD 0 + get_move_cost c x)
          :: A.cost_so_far ∧
      (ucs_push c A x).frontier_pq =
        ((lookupA A.cost_so_far c).getD 0 + get_move_cost c x, x)
          :: A.frontier_pq ∧
      (ucs_push c A x).came_from = (x, some c) :: A.came_from)
    ∨ ((x ∈ A.explored ∨ ∃ cx, lookupA A.cost_so_far x = some cx ∧
          cx ≤ (lookupA A.cost_so_far c).getD 0 + get_move_cost c x) ∧
       (ucs_push c A x).cost_so_far = A.cost_so_far ∧
       (ucs_push c A x).frontier_pq = A.frontier_pq ∧
       (ucs_push c A x).came_from = A.came_from) := by
  unfold ucs_push
  dsimp only
  split
  · rename_i hx1
    split
    · rename_i himp
      left
      refine ⟨hx1, ?_, by split <;> rfl, by split <;> rfl, by split <;> rfl⟩
      intro cx hcx
      rw [hcx] at himp
      dsimp only at himp
      exact of_decide_eq_true himp
    · rename_i himp
      right
      refine ⟨?_, rfl, rfl, rfl⟩
      cases hq : lookupA A.cost_so_far x with
      | none =>
        rw [hq] at himp
        simp at himp
      | some cx =>
        rw [hq] at himp
        dsimp only at himp
        refine Or.inr ⟨cx, rfl, le_of_not_lt ?_⟩
        intro hlt
        exact himp (decide_eq_true hlt)
  · rename_i hx1
    right
    exact ⟨Or.inl (not_not.mp hx1), rfl, rfl, rfl⟩

/-- A relaxation step never increases recorded costs, and keeps every
recorded node recorded. -/
theorem ucs_push_csf_mono (c : Node) (A : App) (x : Node) (v : Node) (cv : ℚ)
    (h : lookupA A.cost_so_far v = some cv) :
    ∃ cv', lookupA (ucs_push c A x).cost_so_far v = some cv' ∧ cv' ≤ cv := by
  rcases ucs_push_shape c A x with ⟨hx1, himp, hcsf, _, _⟩ | ⟨_, hcsf, _, _⟩
  · rw [hcsf]
    by_cases hvx : v = x
    · subst hvx
      refine ⟨(lookupA A.cost_so_far c).getD 0 + get_move_cost c v, ?_, ?_⟩
      · rw [lookupA, if_pos rfl]
      · exact le_of_lt (himp cv h)
    · exact ⟨cv, by rw [lookupA, if_neg hvx]; exact h, le_refl cv⟩
  · rw [hcsf]
    exact ⟨cv, h, le_refl cv⟩

/-- The whole relaxation loop never increases recorded costs. -/
theorem ucs_fold_csf_mono (c : Node) :
    ∀ (l : List Node) (A : App) (v : Node) (cv : ℚ),
      lookupA A.cost_so_far v = some cv →
      ∃ cv', lookupA (l.foldl (ucs_push c) A).cost_so_far v = some cv'
        ∧ cv' ≤ cv
  | [], A, v, cv, h => ⟨cv, h, le_refl cv⟩
  | x :: l, A, v, cv, h => by
    rw [List.foldl_cons]
    obtain ⟨cv1, h1, hle1⟩ := ucs_push_csf_mono c A x v cv h
    obtain ⟨cv2, h2, hle2⟩ := ucs_fold_csf_mono c l (ucs_push c A x) v cv1 h1
    exact ⟨cv2, h2, le_trans hle2 hle1⟩

/-- One relaxation iteration preserves the loop invariant, and leaves the
processed fresh neighbor with a recorded cost dominated by the expanded
node's cost plus the move. -/
theorem ucs_push_aux (g : Grid) (s c : Node) (cu : ℚ) (A : App) (x : Node)
    (hcex : c ∈ A.explored) (hadj : x ∈ get_neighbors g c)
    (hA : UcsAux g s c cu A) :
    UcsAux g s c cu (ucs_push c A x) ∧
    (x ∉ A.explored → ∃ cv, lookupA (ucs_push c A x).cost_so_far x = some cv
      ∧ cv ≤ cu + get_move_cost c x) := by
  obtain ⟨hcu, hent, hfre, hchn, hexc, hnb⟩ := hA
  have hexp : (ucs_push c A x).explored = A.explored := ucs_push_explored c A x
  have hnc : (lookupA A.cost_so_far c).getD 0 = cu := by rw [hcu]; rfl
  rcases ucs_push_shape c A x with ⟨hx1, himp, hcsf, hpq, hcf⟩ |
    ⟨hcase, hcsf, hpq, hcf⟩
  · have hcx : c ≠ x := fun h => hx1 (h ▸ hcex)
    constructor
    · refine ⟨?_, ?_, ?_, ?_, ?_, ?_⟩
      · rw [hcsf, lookupA, if_neg hcx]
        exact hcu
      · intro e v hv
        rw [hpq] at hv
        rcases List.mem_cons.mp hv with he | hv
        · rw [Prod.mk.injEq] at he
          obtain ⟨he1, he2⟩ := he
          subst he2
          refine ⟨(lookupA A.cost_so_far c).getD 0 + get_move_cost c v, ?_, ?_⟩
          · rw [hcsf, lookupA, if_pos rfl]
          · rw [he1]
        · obtain ⟨cv, hcv, hle⟩ := hent e v hv
          by_cases hvx : v = x
          · subst hvx
            refine ⟨(lookupA A.cost_so_far c).getD 0 + get_move_cost c v, ?_, ?_⟩
            · rw [hcsf, lookupA, if_pos rfl]
            · exact le_of_lt (lt_of_lt_of_le (himp cv hcv) hle)
          · exact ⟨cv, by rw [hcsf, lookupA, if_neg hvx]; exact hcv, hle⟩
      · intro v cv hv hvex
        rw [hexp] at hvex
        rw [hcsf] at hv
        rw [hpq]
        by_cases hvx : v = x
        · subst hvx
          rw [lookupA, if_pos rfl] at hv
          simp only [Option.some.injEq] at hv
          rw [← hv]
          exact List.mem_cons_self _ _
        · rw [lookupA, if_neg hvx] at hv
          exact List.mem_cons_of_mem _ (hfre v cv hv hvex)
      · show CFCost g s (ucs_push c A x).came_from
          (ucs_push c A x).cost_so_far (ucs_push c A x).explored
        rw [hcsf, hcf, hexp]
        have h2 := cfcost_insert c x cu hchn hcu hcex hx1 hadj
        rw [← hnc] at h2
        exact h2
      · intro u hu
        rw [hexp] at hu
        have hux : u ≠ x := fun h => hx1 (h ▸ hu)
        obtain ⟨c2, hc2, hopt⟩ := hexc u hu
        exact ⟨c2, by rw [hcsf, lookupA, if_neg hux]; exact hc2, hopt⟩
      · intro u hu hunc c2 hc2 v hv hvex
        rw [hexp] at hu hvex
        have hux : u ≠ x := fun h => hx1 (h ▸ hu)
        rw [hcsf, lookupA, if_neg hux] at hc2
        obtain ⟨cv, hcv, hle⟩ := hnb u hu hunc c2 hc2 v hv hvex
        by_cases hvx : v = x
        · subst hvx
          refine ⟨(lookupA A.cost_so_far c).getD 0 + get_move_cost c v, ?_, ?_⟩
          · rw [hcsf, lookupA, if_pos rfl]
          · exact le_of_lt (lt_of_lt_of_le (himp cv hcv) hle)
        · exact ⟨cv, by rw [hcsf, lookupA, if_neg hvx]; exact hcv, hle⟩
    · intro hx2
      refine ⟨(lookupA A.cost_so_far c).getD 0 + get_move_cost c x, ?_, ?_⟩
      · rw [hcsf, lookupA, if_pos rfl]
      · rw [hnc]
  · constructor
    · refine ⟨?_, ?_, ?_, ?_, ?_, ?_⟩
      · rw [hcsf]
        exact hcu
      · intro e v hv
        rw [hpq] at hv
        rw [hcsf]
        exact hent e v hv
      · intro v cv hv hvex
        rw [hexp] at hvex
        rw [hcsf] at hv
        rw [hpq]
        exact hfre v cv hv hvex
      · show CFCost g s (ucs_push c A x).came_from
          (ucs_push c A x).cost_so_far (ucs_push c A x).explored
        rw [hcsf, hcf, hexp]
        exact hchn
      · intro u hu
        rw [hexp] at hu
        rw [hcsf]
        exact hexc u hu
      · intro u hu hunc c2 hc2 v hv hvex
        rw [hexp] at hu hvex
        rw [hcsf] at hc2 ⊢
        exact hnb u hu hunc c2 hc2 v hv hvex
    · intro hx2
      rcases hcase with hx3 | ⟨cx, hcx, hle⟩
      · exact absurd hx3 hx2
      · refine ⟨cx, by rw [hcsf]; exact hcx, ?_⟩
        rw [hnc] at hle
        exact hle

/-- The relaxation loop preserves the loop invariant, and leaves every
processed fresh neighbor with a recorded cost dominated by the expanded
node's cost plus the move. -/
theorem ucs_relax_fold (g : Grid) (s c : Node) (cu : ℚ) :
    ∀ (l : List Node) (A : App),
      (∀ x ∈ l, x ∈ get_neighbors g c) →
      c ∈ A.explored →
      UcsAux g s c cu A →
      UcsAux g s c cu (l.foldl (ucs_push c) A) ∧
      (∀ x ∈ l, x ∉ A.explored →
        ∃ cv, lookupA (l.foldl (ucs_push c) A).cost_so_far x = some cv
          ∧ cv ≤ cu + get_move_cost c x)
  | [], A, hl, hcex, hA => ⟨hA, fun x hx => absurd hx (List.not_mem_nil x)⟩
  | x :: l, A, hl, hcex, hA => by
    rw [List.foldl_cons]
    have hxn : x ∈ get_neighbors g c := hl x (List.mem_cons_self x l)
    have hexp : (ucs_push c A x).explored = A.explored := ucs_push_explored c A x
    obtain ⟨hA1, hx8⟩ := ucs_push_aux g s c cu A x hcex hxn hA
    obtain ⟨hB, hF8⟩ := ucs_relax_fold g s c cu l (ucs_push c A x)
      (fun y hy => hl y (List.mem_cons_of_mem x hy)) (hexp ▸ hcex) hA1
    refine ⟨hB, ?_⟩
    intro y hy hyex
    rcases List.mem_cons.mp hy with rfl | hy
    · obtain ⟨cv, hcv, hle⟩ := hx8 hyex
      obtain ⟨cv2, hcv2, hle2⟩ := ucs_fold_csf_mono c l (ucs_push c A y) y cv hcv
      exact ⟨cv2, hcv2, le_trans hle2 hle⟩
    · exact hF8 y hy (hexp ▸ hyex)

/-- The cut argument of Dijkstra's algorithm: when the start is visited,
visited costs are optimal, boundary moves are covered, recorded unvisited
nodes have live entries, and `d` bounds every heap key from below, then
`d` lower-bounds the cost of every walk that leaves the visited set. -/
theorem ucs_cut (g : Grid) (s : Node) (ex : List Node)
    (csf : List (Node × ℚ)) (pq : List (ℚ × Node)) (d : ℚ)
    (hsex : s ∈ ex)
    (hexc : ∀ u ∈ ex, ∃ c2, lookupA csf u = some c2 ∧
      ∀ W0, IsWalk g s u W0 → c2 ≤ pathCost W0)
    (hnb : ∀ u ∈ ex, ∀ c2, lookupA csf u = some c2 →
      ∀ v ∈ get_neighbors g u, v ∉ ex →
        ∃ cv, lookupA csf v = some cv ∧ cv ≤ c2 + get_move_cost u v)
    (hfre : ∀ v cv, lookupA csf v = some cv → v ∉ ex → (cv, v) ∈ pq)
    (hmin : ∀ e v, (e, v) ∈ pq → d ≤ e) :
    ∀ (W : List Node) (v : Node), IsWalk g s v W → v ∉ ex → d ≤ pathCost W := by
  intro W
  induction W using List.reverseRecOn with
  | nil =>
    intro v hW _
    exact absurd hW.1 (by simp)
  | append_singleton W0 y ih =>
    intro v hW hvex
    have hyv : y = v := by
      have h := hW.2.1
      rw [List.getLast?_append_of_ne_nil _ (by simp : [y] ≠ [])] at h
      simpa using h
    subst hyv
    by_cases hW0e : W0 = []
    · subst hW0e
      have hhd := hW.1
      simp only [List.nil_append, List.head?_cons, Option.some.injEq] at hhd
      rw [hhd] at hvex
      exact absurd hsex hvex
    · obtain ⟨a, l0, rfl⟩ := List.exists_cons_of_ne_nil hW0e
      have hne : (a :: l0) ≠ [] := by simp
      have hu0 : (a :: l0).getLast? = some ((a :: l0).getLast hne) :=
        List.getLast?_eq_getLast (a :: l0) hne
      have hchain := hW.2.2
      rw [List.chain'_append] at hchain
      obtain ⟨hc0, _, hcross⟩ := hchain
      have hadj : Adj g ((a :: l0).getLast hne) y := by
        refine hcross ((a :: l0).getLast hne) ?_ y ?_
        · rw [Option.mem_def]
          exact hu0
        · rw [Option.mem_def]
          rfl
      have hhead : (a :: l0).head? = some s := by
        have h := hW.1
        simpa using h
      have hwalk0 : IsWalk g s ((a :: l0).getLast hne) (a :: l0) :=
        ⟨hhead, hu0, hc0⟩
      have hcost : pathCost ((a :: l0) ++ [y]) =
          pathCost (a :: l0) + get_move_cost ((a :: l0).getLast hne) y :=
        pathCost_snoc (a :: l0) ((a :: l0).getLast hne) y hu0
      by_cases hu0ex : (a :: l0).getLast hne ∈ ex
      · obtain ⟨c2, hc2, hopt⟩ := hexc _ hu0ex
        obtain ⟨cv, hcv, hle⟩ := hnb _ hu0ex c2 hc2 y hadj hvex
        have hpq := hfre y cv hcv hvex
        have hd := hmin cv y hpq
        have hopt0 := hopt (a :: l0) hwalk0
        rw [hcost]
        linarith
      · have hih := ih _ hwalk0 hu0ex
        have hmv := get_move_cost_nonneg ((a :: l0).getLast hne) y
        rw [hcost]
        linarith

/-- After a uniform-cost expansion of a visited node whose relaxation
loop invariant holds, the full invariant holds of the state with the
bumped counter. -/
theorem ucs_post_relax (g : Grid) (s t c : Node) (cc : ℚ) (A2 : App)
    (hg : A2.grid = g) (hst : A2.start = s) (htg : A2.target = t)
    (hsr : A2.searching = true) (hsu : A2.success = false)
    (hcex : c ∈ A2.explored) (hsex : s ∈ A2.explored)
    (hAux : UcsAux g s c cc A2) :
    ({ ucs_relax A2 c with
        step_count := (ucs_relax A2 c).step_count + 1 } : App).searching = true
    ∧ UcsInv g s t
        { ucs_relax A2 c with
            step_count := (ucs_relax A2 c).step_count + 1 } := by
  have hfold := ucs_relax_fold g s c cc (get_neighbors A2.grid c) A2
    (fun x hx => by rw [hg] at hx; exact hx) hcex hAux
  obtain ⟨⟨f1, f2, f3, f4, f5, f6⟩, f8⟩ := hfold
  have k1 : lookupA (ucs_relax A2 c).cost_so_far c = some cc := f1
  have k2 : ∀ e v, (e, v) ∈ (ucs_relax A2 c).frontier_pq →
      ∃ cv, lookupA (ucs_relax A2 c).cost_so_far v = some cv ∧ cv ≤ e := f2
  have k3 : ∀ v cv, lookupA (ucs_relax A2 c).cost_so_far v = some cv →
      v ∉ (ucs_relax A2 c).explored →
      (cv, v) ∈ (ucs_relax A2 c).frontier_pq := f3
  have k4 : CFCost g s (ucs_relax A2 c).came_from
      (ucs_relax A2 c).cost_so_far (ucs_relax A2 c).explored := f4
  have k5 : ∀ u ∈ (ucs_relax A2 c).explored,
      ∃ c2, lookupA (ucs_relax A2 c).cost_so_far u = some c2 ∧
        ∀ W, IsWalk g s u W → c2 ≤ pathCost W := f5
  have k6 : ∀ u ∈ (ucs_relax A2 c).explored, u ≠ c →
      ∀ c2, lookupA (ucs_relax A2 c).cost_so_far u = some c2 →
      ∀ v ∈ get_neighbors g u, v ∉ (ucs_relax A2 c).explored →
        ∃ cv, lookupA (ucs_relax A2 c).cost_so_far v = some cv ∧
          cv ≤ c2 + get_move_cost u v := f6
  have k8 : ∀ x ∈ get_neighbors A2.grid c, x ∉ A2.explored →
      ∃ cv, lookupA (ucs_relax A2 c).cost_so_far x = some cv ∧
        cv ≤ cc + get_move_cost c x := f8
  have hexp : (ucs_relax A2 c).explored = A2.explored := ucs_relax_explored A2 c
  have hsearch : (ucs_relax A2 c).searching = true :=
    (foldl_preserves App.searching (ucs_push c)
      (ucs_push_searching c) _ A2).trans hsr
  refine ⟨hsearch, ⟨?_, ?_, ?_, ?_, ?_, ?_, ?_, ?_, ?_, ?_⟩⟩
  · show (ucs_relax A2 c).grid = g
    exact (foldl_preserves App.grid (ucs_push c)
      (ucs_push_grid c) _ A2).trans hg
  · show (ucs_relax A2 c).start = s
    exact (foldl_preserves App.start (ucs_push c)
      (ucs_push_start c) _ A2).trans hst
  · show (ucs_relax A2 c).target = t
    exact (foldl_preserves App.target (ucs_push c)
      (ucs_push_target c) _ A2).trans htg
  · show (ucs_relax A2 c).success = false
    exact (foldl_preserves App.success (ucs_push c)
      (ucs_push_success c) _ A2).trans hsu
  · refine Or.inr ?_
    show s ∈ (ucs_relax A2 c).explored
    rw [hexp]
    exact hsex
  · exact k5
  · intro u hu c2 hc2 v hv hvex
    by_cases huc : u = c
    · subst huc
      have hc2c : c2 = cc := by
        rw [k1] at hc2
        exact (Option.some.injEq _ _ |>.mp hc2).symm
      have hvl : v ∈ get_neighbors A2.grid u := by
        rw [hg]
        exact hv
      obtain ⟨cv, hcv, hle⟩ := k8 v hvl (by rw [← hexp]; exact hvex)
      exact ⟨cv, hcv, by rw [hc2c]; exact hle⟩
    · exact k6 u hu huc c2 hc2 v hv hvex
  · exact k2
  · exact k3
  · exact k4

/-- One uniform-cost tick from an invariant-satisfying active state
either stays active with the invariant, or halts; a halt with success
reports a start-prefixed path at 1 plus an optimal cost. -/
theorem ucs_cf_step (g : Grid) (s t : Node) (a : App)
    (hsr : a.searching = true) (hI : UcsInv g s t a) :
    ((ucs_step a).searching = true ∧ UcsInv g s t (ucs_step a))
    ∨ ((ucs_step a).searching = false ∧
        ((ucs_step a).success = true → PostUcs g s t (ucs_step a))) := by
  cases hpop : heappop a.frontier_pq with
  | none =>
    right
    unfold ucs_step
    rw [hpop]
    refine ⟨rfl, ?_⟩
    intro h
    simp [finish_search] at h
  | some mr =>
    obtain ⟨⟨d, c⟩, rest2⟩ := mr
    have hfm := heappop_findMin _ _ _ hpop
    obtain ⟨hmem, hrest, _⟩ := heappop_some _ _ _ hpop
    have hminkey : ∀ e v, (e, v) ∈ a.frontier_pq → d ≤ e :=
      heapFindMin_key_le _ d c hfm
    obtain ⟨cc, hcc, hccd⟩ := hI.entries d c hmem
    unfold ucs_step
    rw [hpop]
    dsimp only
    split
    · rename_i hcex
      left
      refine ⟨hsr, ⟨hI.hgrid, hI.hstart, hI.htarget, hI.hsuccess, ?_, hI.exCost,
        hI.nb, ?_, ?_, hI.chains⟩⟩
      · rcases hI.hinit with ⟨hel, _⟩ | hsx
        · rw [hel] at hcex
          exact absurd hcex (List.not_mem_nil c)
        · exact Or.inr hsx
      · intro e v hv
        have hv1 : (e, v) ∈ rest2 := hv
        rw [hrest] at hv1
        exact hI.entries e v (removeFirst_subset _ _ _ hv1)
      · intro v cv hv hvex
        have hvc : v ≠ c := fun h => hvex (h ▸ hcex)
        have h1 := hI.freshEntry v cv hv hvex
        show (cv, v) ∈ rest2
        rw [hrest]
        refine mem_removeFirst_of_ne _ _ _ h1 ?_
        intro he
        rw [Prod.mk.injEq] at he
        exact hvc he.2
    · rename_i hcex
      have hexc_c : ∀ W, IsWalk g s c W → cc ≤ pathCost W := by
        rcases hI.hinit with ⟨hel, hpq0, hcsf0, hcf0⟩ | hsx
        · have hmem0 : (d, c) ∈ [((0 : ℚ), s)] := by rw [← hpq0]; exact hmem
          have he := List.mem_singleton.mp hmem0
          rw [Prod.mk.injEq] at he
          obtain ⟨hd0, hcs⟩ := he
          have hcc0 : cc = 0 := by
            rw [hcsf0, hcs] at hcc
            rw [lookupA, if_pos rfl] at hcc
            exact (Option.some.injEq _ _ |>.mp hcc).symm
          intro W hW
          rw [hcc0]
          exact pathCost_nonneg W
        · intro W hW
          have hcut := ucs_cut g s a.explored a.cost_so_far a.frontier_pq d
            hsx hI.exCost
            (fun u hu c2 hc2 v hv hvex => hI.nb u hu c2 hc2 v hv hvex)
            hI.freshEntry hminkey W c hW hcex
          linarith
      have hsex : s ∈ sadd a.explored c := by
        rcases hI.hinit with ⟨hel, hpq0, _, _⟩ | hsx
        · have hmem0 : (d, c) ∈ [((0 : ℚ), s)] := by rw [← hpq0]; exact hmem
          have he := List.mem_singleton.mp hmem0
          rw [Prod.mk.injEq] at he
          rw [mem_sadd]
          exact Or.inl he.2.symm
        · rw [mem_sadd]
          exact Or.inr hsx
      have hAux : ∀ ex2, ex2 = sadd a.explored c → UcsAux g s c cc
          { a with frontier_pq := rest2, explored := ex2 } := by
        intro ex2 hex2
        refine ⟨hcc, ?_, ?_, ?_, ?_, ?_⟩
        · intro e v hv
          have hv1 : (e, v) ∈ rest2 := hv
          rw [hrest] at hv1
          exact hI.entries e v (removeFirst_subset _ _ _ hv1)
        · intro v cv hv hvex
          rw [hex2, mem_sadd] at hvex
          push_neg at hvex
          have h1 := hI.freshEntry v cv hv hvex.2
          show (cv, v) ∈ rest2
          rw [hrest]
          refine mem_removeFirst_of_ne _ _ _ h1 ?_
          intro he
          rw [Prod.mk.injEq] at he
          exact hvex.1 he.2
        · show CFCost g s a.came_from a.cost_so_far ex2
          rw [hex2]
          exact cfcost_mono (fun x hx => by rw [mem_sadd]; exact Or.inr hx)
            hI.chains
        · intro u hu
          rw [hex2, mem_sadd] at hu
          rcases hu with rfl | hu
          · exact ⟨cc, hcc, hexc_c⟩
          · exact hI.exCost u hu
        · intro u hu hunc c2 hc2 v hv hvex
          rw [hex2, mem_sadd] at hu hvex
          rcases hu with rfl | hu
          · exact absurd rfl hunc
          · push_neg at hvex
            exact hI.nb u hu c2 hc2 v hv hvex.2
      by_cases hct : c = a.target
      · right
        split
        · rename_i hcond
          exact absurd hct hcond.2
        · refine ⟨rfl, ?_⟩
          intro _
          obtain ⟨W, hch, hnd, hwalk, hcostW, hdrop, hbound⟩ :=
            hI.chains c cc hcc
          have hfuel : W.length ≤ a.came_from.length + 1 :=
            le_trans (chains_length_le hch hnd) (Nat.le_succ _)
          have hwcf : walkCF a.came_from (a.came_from.length + 1)
              (some c) [] = W := by
            rw [chains_walkCF hch _ [] hfuel]
            exact List.append_nil W
          have hfp2 : (finish_search (reconstruct_path
              { a with frontier_pq := rest2, explored := sadd a.explored c })
                true).final_path = s :: W := by
            show a.start :: walkCF a.came_from (a.came_from.length + 1)
              (some a.target) [] = s :: W
            rw [← hct, hwcf, hI.hstart]
          have hcost2 : pathCost (finish_search (reconstruct_path
              { a with frontier_pq := rest2, explored := sadd a.explored c })
                true).final_path = 1 + cc := by
            rw [hfp2, pathCost_cons_self s W hwalk.1, hcostW]
          have hwt : IsWalk g s t W := by
            rw [← hI.htarget, ← hct]
            exact hwalk
          refine ⟨cc, hcost2, ?_, ?_, ?_, ⟨W, hwt, hcostW⟩⟩
          · rw [← hcostW]
            exact pathCost_nonneg W
          · intro W2 hW2
            rw [← hI.htarget, ← hct] at hW2
            exact hexc_c W2 hW2
          · have hcW : c ∈ W := List.mem_of_mem_getLast? (chains_getLast hch)
            rcases hbound c hcW with h | h
            · left
              rw [← hI.htarget, ← hct]
              exact h
            · right
              rw [← hI.htarget, ← hct]
              exact h
      · left
        split
        · exact ucs_post_relax g s t c cc
            { a with frontier_pq := rest2, explored := sadd a.explored c,
                     cell_states := setCell a.cell_states c CellState.EXPLORED }
            hI.hgrid hI.hstart hI.htarget hsr hI.hsuccess
            (by rw [mem_sadd]; exact Or.inl rfl) hsex
            (hAux _ rfl)
        · exact ucs_post_relax g s t c cc
            { a with frontier_pq := rest2, explored := sadd a.explored c }
            hI.hgrid hI.hstart hI.htarget hsr hI.hsuccess
            (by rw [mem_sadd]; exact Or.inl rfl) hsex
            (hAux _ rfl)

/-- start_search establishes the uniform-cost invariant. -/
theorem start_search_cf_ucs (g : Grid) (s t : Node) (dl : Nat) :
    UcsInv g s t (start_search Algo.UCS g s t dl) := by
  refine ⟨rfl, rfl, rfl, rfl, Or.inl ⟨rfl, rfl, rfl, rfl⟩, ?_, ?_, ?_, ?_, ?_⟩
  · intro u hu
    exact absurd hu (List.not_mem_nil u)
  · intro u hu
    exact absurd hu (List.not_mem_nil u)
  · intro e v hv
    have hv1 : (e, v) ∈ [((0 : ℚ), s)] := hv
    have he := List.mem_singleton.mp hv1
    rw [Prod.mk.injEq] at he
    obtain ⟨he1, he2⟩ := he
    subst he2
    refine ⟨0, ?_, by rw [← he1]⟩
    show lookupA [(v, (0 : ℚ))] v = some 0
    rw [lookupA, if_pos rfl]
  · intro v cv hv hvex
    have hv1 : lookupA [(s, (0 : ℚ))] v = some cv := hv
    rw [lookupA] at hv1
    by_cases hvs : v = s
    · subst hvs
      rw [if_pos rfl] at hv1
      have : cv = 0 := (Option.some.injEq _ _ |>.mp hv1).symm
      subst this
      show ((0 : ℚ), v) ∈ [((0 : ℚ), v)]
      exact List.mem_singleton_self _
    · rw [if_neg hvs] at hv1
      exact absurd hv1 (by simp [lookupA])
  · show CFCost g s [(s, none)] [(s, 0)] []
    exact cfcost_init g s []

/-- A successful uniform-cost run reports a start-prefixed path at 1 plus
a cost that lower-bounds every legal Start-to-Target walk. -/
theorem ucs_success_spec (g : Grid) (s t : Node) (dl n : Nat) :
    (run (algorithm_step Algo.UCS) n
      (start_search Algo.UCS g s t dl)).success = true →
    PostUcs g s t (run (algorithm_step Algo.UCS) n
      (start_search Algo.UCS g s t dl)) :=
  run_success_post ucs_step (fun a => UcsInv g s t a)
    (PostUcs g s t) (fun _ hI => hI.hsuccess)
    (fun a hs hI => ucs_cf_step g s t a hs hI)
    n _ rfl (start_search_cf_ucs g s t dl)

theorem bidi_push_forward_came_from_backward (c : Node) (a : App) (n : Node) :
    (bidi_push_forward c a n).came_from_backward = a.came_from_backward := by
  unfold bidi_push_forward
  dsimp only
  repeat' split
  all_goals rfl

theorem bidi_push_backward_came_from_forward (c : Node) (a : App) (n : Node) :
    (bidi_push_backward c a n).came_from_forward = a.came_from_forward := by
  unfold bidi_push_backward
  dsimp only
  repeat' split
  all_goals rfl

/-- The run-scoped structures bidi_push_forward touches, by guard
outcome. -/
theorem bidi_push_forward_shape (c : Node) (A : App) (x : Node) :
    (x ∉ A.explored_forward ∧ x ∉ A.frontier_forward ∧
      (bidi_push_forward c A x).came_from_forward =
        (x, some c) :: A.came_from_forward ∧
      (bidi_push_forward c A x).frontier_forward = A.frontier_forward ++ [x])
    ∨ ((bidi_push_forward c A x).came_from_forward = A.came_from_forward ∧
       (bidi_push_forward c A x).frontier_forward = A.frontier_forward) := by
  unfold bidi_push_forward
  dsimp only
  split
  · rename_i h
    left
    exact ⟨h.1, h.2, by split <;> rfl, by split <;> rfl⟩
  · right
    exact ⟨rfl, rfl⟩

/-- The run-scoped structures bidi_push_backward touches, by guard
outcome. -/
theorem bidi_push_backward_shape (c : Node) (A : App) (x : Node) :
    (x ∉ A.explored_backward ∧ x ∉ A.frontier_backward ∧
      (bidi_push_backward c A x).came_from_backward =
        (x, some c) :: A.came_from_backward ∧
      (bidi_push_backward c A x).frontier_backward = A.frontier_backward ++ [x])
    ∨ ((bidi_push_backward c A x).came_from_backward = A.came_from_backward ∧
       (bidi_push_backward c A x).frontier_backward = A.frontier_backward) := by
  unfold bidi_push_backward
  dsimp only
  split
  · rename_i h
    left
    exact ⟨h.1, h.2, by split <;> rfl, by split <;> rfl⟩
  · right
    exact ⟨rfl, rfl⟩

/-- The forward enqueue loop of bidirectional search preserves the
forward predecessor-structure facts. -/
theorem bidi_fwd_cf_fold (g : Grid) (s c : Node) :
    ∀ (l : List Node) (A : App),
      (∀ x ∈ l, x ∈ get_neighbors g c) →
      (∃ q, lookupA A.came_from_forward c = some q) →
      c ∈ A.explored_forward →
      (∀ v ∈ A.frontier_forward,
        ∃ q, lookupA A.came_from_forward v = some q) →
      (∀ v ∈ A.explored_forward,
        ∃ q, lookupA A.came_from_forward v = some q) →
      CFOk g s A.came_from_forward A.explored_forward →
      ((∀ v ∈ (l.foldl (bidi_push_forward c) A).frontier_forward,
          ∃ q, lookupA (l.foldl (bidi_push_forward c) A).came_from_forward v
            = some q) ∧
       (∀ v ∈ (l.foldl (bidi_push_forward c) A).explored_forward,
          ∃ q, lookupA (l.foldl (bidi_push_forward c) A).came_from_forward v
            = some q) ∧
       CFOk g s (l.foldl (bidi_push_forward c) A).came_from_forward
         (l.foldl (bidi_push_forward c) A).explored_forward)
  | [], A, hl, hck, hcex, hfr, hex, hok => ⟨hfr, hex, hok⟩
  | x :: l, A, hl, hck, hcex, hfr, hex, hok => by
    rw [List.foldl_cons]
    have hxn : x ∈ get_neighbors g c := hl x (List.mem_cons_self x l)
    have hexp : (bidi_push_forward c A x).explored_forward =
        A.explored_forward := bidi_push_forward_explored_forward c A x
    rcases bidi_push_forward_shape c A x with ⟨hxe, hxf, hcf, hfr2⟩ | ⟨hcf, hfr2⟩
    · have hcx : c ≠ x := fun h => hxe (h ▸ hcex)
      have hck1 : ∃ q, lookupA (bidi_push_forward c A x).came_from_forward c
          = some q := by
        rw [hcf]
        obtain ⟨q, hq⟩ := hck
        exact ⟨q, by rw [lookupA, if_neg hcx]; exact hq⟩
      have hfr1 : ∀ v ∈ (bidi_push_forward c A x).frontier_forward,
          ∃ q, lookupA (bidi_push_forward c A x).came_from_forward v
            = some q := by
        rw [hfr2, hcf]
        intro v hv
        by_cases hvx : v = x
        · subst hvx
          exact ⟨some c, by rw [lookupA, if_pos rfl]⟩
        · rcases List.mem_append.mp hv with hv | hv
          · obtain ⟨q, hq⟩ := hfr v hv
            exact ⟨q, by rw [lookupA, if_neg hvx]; exact hq⟩
          · exact absurd (List.mem_singleton.mp hv) hvx
      have hex1 : ∀ v ∈ (bidi_push_forward c A x).explored_forward,
          ∃ q, lookupA (bidi_push_forward c A x).came_from_forward v
            = some q := by
        rw [hexp, hcf]
        intro v hv
        have hvx : v ≠ x := fun h => hxe (h ▸ hv)
        obtain ⟨q, hq⟩ := hex v hv
        exact ⟨q, by rw [lookupA, if_neg hvx]; exact hq⟩
      have hok1 : CFOk g s (bidi_push_forward c A x).came_from_forward
          (bidi_push_forward c A x).explored_forward := by
        rw [hexp, hcf]
        exact cfok_insert c x hok hck hcex hxe hxn
      exact bidi_fwd_cf_fold g s c l (bidi_push_forward c A x)
        (fun y hy => hl y (List.mem_cons_of_mem x hy))
        hck1 (hexp ▸ hcex) hfr1 hex1 hok1
    · exact bidi_fwd_cf_fold g s c l (bidi_push_forward c A x)
        (fun y hy => hl y (List.mem_cons_of_mem x hy))
        (hcf ▸ hck) (hexp ▸ hcex) (fun v hv => hcf ▸ hfr v (hfr2 ▸ hv))
        (fun v hv => hcf ▸ hex v (hexp ▸ hv)) (by rw [hcf, hexp]; exact hok)

/-- The backward enqueue loop of bidirectional search preserves the
backward predecessor-structure facts. -/
theorem bidi_bwd_cf_fold (g : Grid) (t c : Node) :
    ∀ (l : List Node) (A : App),
      (∀ x ∈ l, x ∈ get_neighbors g c) →
      (∃ q, lookupA A.came_from_backward c = some q) →
      c ∈ A.explored_backward →
      (∀ v ∈ A.frontier_backward,
        ∃ q, lookupA A.came_from_backward v = some q) →
      (∀ v ∈ A.explored_backward,
        ∃ q, lookupA A.came_from_backward v = some q) →
      CFOk g t A.came_from_backward A.explored_backward →
      ((∀ v ∈ (l.foldl (bidi_push_backward c) A).frontier_backward,
          ∃ q, lookupA (l.foldl (bidi_push_backward c) A).came_from_backward v
            = some q) ∧
       (∀ v ∈ (l.foldl (bidi_push_backward c) A).explored_backward,
          ∃ q, lookupA (l.foldl (bidi_push_backward c) A).came_from_backward v
            = some q) ∧
       CFOk g t (l.foldl (bidi_push_backward c) A).came_from_backward
         (l.foldl (bidi_push_backward c) A).explored_backward)
  | [], A, hl, hck, hcex, hfr, hex, hok => ⟨hfr, hex, hok⟩
  | x :: l, A, hl, hck, hcex, hfr, hex, hok => by
    rw [List.foldl_cons]
    have hxn : x ∈ get_neighbors g c := hl x (List.mem_cons_self x l)
    have hexp : (bidi_push_backward c A x).explored_backward =
        A.explored_backward := bidi_push_backward_explored_backward c A x
    rcases bidi_push_backward_shape c A x with ⟨hxe, hxf, hcf, hfr2⟩ | ⟨hcf, hfr2⟩
    · have hcx : c ≠ x := fun h => hxe (h ▸ hcex)
      have hck1 : ∃ q, lookupA (bidi_push_backward c A x).came_from_backward c
          = some q := by
        rw [hcf]
        obtain ⟨q, hq⟩ := hck
        exact ⟨q, by rw [lookupA, if_neg hcx]; exact hq⟩
      have hfr1 : ∀ v ∈ (bidi_push_backward c A x).frontier_backward,
          ∃ q, lookupA (bidi_push_backward c A x).came_from_backward v
            = some q := by
        rw [hfr2, hcf]
        intro v hv
        by_cases hvx : v = x
        · subst hvx
          exact ⟨some c, by rw [lookupA, if_pos rfl]⟩
        · rcases List.mem_append.mp hv with hv | hv
          · obtain ⟨q, hq⟩ := hfr v hv
            exact ⟨q, by rw [lookupA, if_neg hvx]; exact hq⟩
          · exact absurd (List.mem_singleton.mp hv) hvx
      have hex1 : ∀ v ∈ (bidi_push_backward c A x).explored_backward,
          ∃ q, lookupA (bidi_push_backward c A x).came_from_backward v
            = some q := by
        rw [hexp, hcf]
        intro v hv
        have hvx : v ≠ x := fun h => hxe (h ▸ hv)
        obtain ⟨q, hq⟩ := hex v hv
        exact ⟨q, by rw [lookupA, if_neg hvx]; exact hq⟩
      have hok1 : CFOk g t (bidi_push_backward c A x).came_from_backward
          (bidi_push_backward c A x).explored_backward := by
        rw [hexp, hcf]
        exact cfok_insert c x hok hck hcex hxe hxn
      exact bidi_bwd_cf_fold g t c l (bidi_push_backward c A x)
        (fun y hy => hl y (List.mem_cons_of_mem x hy))
        hck1 (hexp ▸ hcex) hfr1 hex1 hok1
    · exact bidi_bwd_cf_fold g t c l (bidi_push_backward c A x)
        (fun y hy => hl y (List.mem_cons_of_mem x hy))
        (hcf ▸ hck) (hexp ▸ hcex) (fun v hv => hcf ▸ hfr v (hfr2 ▸ hv))
        (fun v hv => hcf ▸ hex v (hexp ▸ hv)) (by rw [hcf, hexp]; exact hok)

/-- After a forward bidirectional expansion of a visited node, the
two-sided predecessor invariant holds of the state with the bumped
counter. -/
theorem bidi_fwd_post_expand (g : Grid) (s t c : Node) (A2 : App)
    (hg : A2.grid = g) (hst : A2.start = s) (htg : A2.target = t)
    (hsr : A2.searching = true) (hsu : A2.success = false)
    (hck : ∃ q, lookupA A2.came_from_forward c = some q)
    (hcex : c ∈ A2.explored_forward) (hsex : s ∈ A2.explored_forward)
    (hinB : (A2.explored_backward = [] ∧ A2.came_from_backward = [(t, none)])
            ∨ t ∈ A2.explored_backward)
    (hfrF : ∀ v ∈ A2.frontier_forward,
      ∃ q, lookupA A2.came_from_forward v = some q)
    (hexF : ∀ v ∈ A2.explored_forward,
      ∃ q, lookupA A2.came_from_forward v = some q)
    (hokF : CFOk g s A2.came_from_forward A2.explored_forward)
    (hfrB : ∀ v ∈ A2.frontier_backward,
      ∃ q, lookupA A2.came_from_backward v = some q)
    (hexB : ∀ v ∈ A2.explored_backward,
      ∃ q, lookupA A2.came_from_backward v = some q)
    (hokB : CFOk g t A2.came_from_backward A2.explored_backward) :
    ({ bidi_expand_forward A2 c with
        step_count := (bidi_expand_forward A2 c).step_count + 1 } :
      App).searching = true
    ∧ BidiCfInv g s t
        { bidi_expand_forward A2 c with
            step_count := (bidi_expand_forward A2 c).step_count + 1 } := by
  have hfold := bidi_fwd_cf_fold g s c (get_neighbors A2.grid c) A2
    (fun x hx => by rw [hg] at hx; exact hx) hck hcex hfrF hexF hokF
  obtain ⟨f1, f2, f3⟩ := hfold
  have hexp : (bidi_expand_forward A2 c).explored_forward =
      A2.explored_forward := bidi_expand_forward_explored_forward A2 c
  have hexb : (bidi_expand_forward A2 c).explored_backward =
      A2.explored_backward := bidi_expand_forward_explored_backward A2 c
  have hfrb : (bidi_expand_forward A2 c).frontier_backward =
      A2.frontier_backward := bidi_expand_forward_frontier_backward A2 c
  have hcfb : (bidi_expand_forward A2 c).came_from_backward =
      A2.came_from_backward :=
    foldl_preserves App.came_from_backward (bidi_push_forward c)
      (bidi_push_forward_came_from_backward c) _ A2
  have hsearch : (bidi_expand_forward A2 c).searching = true :=
    (foldl_preserves App.searching (bidi_push_forward c)
      (bidi_push_forward_searching c) _ A2).trans hsr
  refine ⟨hsearch, ⟨?_, ?_, ?_, ?_, ?_, ?_, ?_, ?_, ?_, ?_, ?_, ?_⟩⟩
  · show (bidi_expand_forward A2 c).grid = g
    exact (foldl_preserves App.grid (bidi_push_forward c)
      (bidi_push_forward_grid c) _ A2).trans hg
  · show (bidi_expand_forward A2 c).start = s
    exact (foldl_preserves App.start (bidi_push_forward c)
      (bidi_push_forward_start c) _ A2).trans hst
  · show (bidi_expand_forward A2 c).target = t
    exact (foldl_preserves App.target (bidi_push_forward c)
      (bidi_push_forward_target c) _ A2).trans htg
  · show (bidi_expand_forward A2 c).success = false
    exact (foldl_preserves App.success (bidi_push_forward c)
      (bidi_push_forward_success c) _ A2).trans hsu
  · refine Or.inr ?_
    show s ∈ (bidi_expand_forward A2 c).explored_forward
    rw [hexp]
    exact hsex
  · show (((bidi_expand_forward A2 c).explored_backward = [] ∧
        (bidi_expand_forward A2 c).came_from_backward = [(t, none)])
      ∨ t ∈ (bidi_expand_forward A2 c).explored_backward)
    rw [hexb, hcfb]
    exact hinB
  · exact f1
  · show ∀ v ∈ (bidi_expand_forward A2 c).explored_forward, _
    rw [hexp]
    intro v hv
    exact f2 v (hexp ▸ hv)
  · show ∀ v ∈ (bidi_expand_forward A2 c).frontier_backward, _
    rw [hfrb, hcfb]
    exact hfrB
  · show ∀ v ∈ (bidi_expand_forward A2 c).explored_backward, _
    rw [hexb, hcfb]
    exact hexB
  · exact f3
  · show CFOk g t (bidi_expand_forward A2 c).came_from_backward
      (bidi_expand_forward A2 c).explored_backward
    rw [hexb, hcfb]
    exact hokB

/-- After a backward bidirectional expansion of a visited node, the
two-sided predecessor invariant holds of the state with the bumped
counter. -/
theorem bidi_bwd_post_expand (g : Grid) (s t c : Node) (A2 : App)
    (hg : A2.grid = g) (hst : A2.start = s) (htg : A2.target = t)
    (hsr : A2.searching = true) (hsu : A2.success = false)
    (hck : ∃ q, lookupA A2.came_from_backward c = some q)
    (hcex : c ∈ A2.explored_backward) (htex : t ∈ A2.explored_backward)
    (hinF : (A2.explored_forward = [] ∧ A2.came_from_forward = [(s, none)])
            ∨ s ∈ A2.explored_forward)
    (hfrB : ∀ v ∈ A2.frontier_backward,
      ∃ q, lookupA A2.came_from_backward v = some q)
    (hexB : ∀ v ∈ A2.explored_backward,
      ∃ q, lookupA A2.came_from_backward v = some q)
    (hokB : CFOk g t A2.came_from_backward A2.explored_backward)
    (hfrF : ∀ v ∈ A2.frontier_forward,
      ∃ q, lookupA A2.came_from_forward v = some q)
    (hexF : ∀ v ∈ A2.explored_forward,
      ∃ q, lookupA A2.came_from_forward v = some q)
    (hokF : CFOk g s A2.came_from_forward A2.explored_forward) :
    ({ bidi_expand_backward A2 c with
        step_count := (bidi_expand_backward A2 c).step_count + 1 } :
      App).searching = true
    ∧ BidiCfInv g s t
        { bidi_expand_backward A2 c with
            step_count := (bidi_expand_backward A2 c).step_count + 1 } := by
  have hfold := bidi_bwd_cf_fold g t c (get_neighbors A2.grid c) A2
    (fun x hx => by rw [hg] at hx; exact hx) hck hcex hfrB hexB hokB
  obtain ⟨f1, f2, f3⟩ := hfold
  have hexp : (bidi_expand_backward A2 c).explored_backward =
      A2.explored_backward := bidi_expand_backward_explored_backward A2 c
  have hexf : (bidi_expand_backward A2 c).explored_forward =
      A2.explored_forward := bidi_expand_backward_explored_forward A2 c
  have hfrf : (bidi_expand_backward A2 c).frontier_forward =
      A2.frontier_forward := bidi_expand_backward_frontier_forward A2 c
  have hcff : (bidi_expand_backward A2 c).came_from_forward =
      A2.came_from_forward :=
    foldl_preserves App.came_from_forward (bidi_push_backward c)
      (bidi_push_backward_came_from_forward c) _ A2
  have hsearch : (bidi_expand_backward A2 c).searching = true :=
    (foldl_preserves App.searching (bidi_push_backward c)
      (bidi_push_backward_searching c) _ A2).trans hsr
  refine ⟨hsearch, ⟨?_, ?_, ?_, ?_, ?_, ?_, ?_, ?_, ?_, ?_, ?_, ?_⟩⟩
  · show (bidi_expand_backward A2 c).grid = g
    exact (foldl_preserves App.grid (bidi_push_backward c)
      (bidi_push_backward_grid c) _ A2).trans hg
  · show (bidi_expand_backward A2 c).start = s
    exact (foldl_preserves App.start (bidi_push_backward c)
      (bidi_push_backward_start c) _ A2).trans hst
  · show (bidi_expand_backward A2 c).target = t
    exact (foldl_preserves App.target (bidi_push_backward c)
      (bidi_push_backward_target c) _ A2).trans htg
  · show (bidi_expand_backward A2 c).success = false
    exact (foldl_preserves App.success (bidi_push_backward c)
      (bidi_push_backward_success c) _ A2).trans hsu
  · show (((bidi_expand_backward A2 c).explored_forward = [] ∧
        (bidi_expand_backward A2 c).came_from_forward = [(s, none)])
      ∨ s ∈ (bidi_expand_backward A2 c).explored_forward)
    rw [hexf, hcff]
    exact hinF
  · refine Or.inr ?_
    show t ∈ (bidi_expand_backward A2 c).explored_backward
    rw [hexp]
    exact htex
  · show ∀ v ∈ (bidi_expand_backward A2 c).frontier_forward, _
    rw [hfrf, hcff]
    exact hfrF
  · show ∀ v ∈ (bidi_expand_backward A2 c).explored_forward, _
    rw [hexf, hcff]
    exact hexF
  · exact f1
  · show ∀ v ∈ (bidi_expand_backward A2 c).explored_backward, _
    rw [hexp]
    intro v hv
    exact f2 v (hexp ▸ hv)
  · show CFOk g s (bidi_expand_backward A2 c).came_from_forward
      (bidi_expand_backward A2 c).explored_forward
    rw [hexf, hcff]
    exact hokF
  · exact f3

/-- What a bidirectional meet reports: the reconstructed path is the
start-prefixed forward chain to the meeting node, followed (when the
meeting node has a backward predecessor) by the reversed backward chain
and a duplicated target.  Its cost is at least one, and dominates 1 plus
the cost of the stitched legal walk whenever the target cell is in
bounds and not a wall. -/
theorem bidi_reconstruct_post (g : Grid) (s t m : Node) (A3 : App)
    (hst : A3.start = s) (htg : A3.target = t)
    (hmp : A3.meeting_point = some m)
    (hmkF : ∃ q, lookupA A3.came_from_forward m = some q)
    (hmkB : ∃ q, lookupA A3.came_from_backward m = some q)
    (hokF : CFOk g s A3.came_from_forward A3.explored_forward)
    (hokB : CFOk g t A3.came_from_backward A3.explored_backward) :
    PostAny g s t (finish_search (reconstruct_bidirectional_path A3) true) := by
  obtain ⟨qF, hqF⟩ := hmkF
  obtain ⟨WF, hchF, hndF, hwalkF, _, hboundF⟩ := hokF m qF hqF
  have hfuelF : WF.length ≤ A3.came_from_forward.length + 1 :=
    le_trans (chains_length_le hchF hndF) (Nat.le_succ _)
  have hwcfF : walkCF A3.came_from_forward (A3.came_from_forward.length + 1)
      (some m) [] = WF := by
    rw [chains_walkCF hchF _ [] hfuelF]
    exact List.append_nil WF
  obtain ⟨qB, hqB⟩ := hmkB
  obtain ⟨WB, hchB, hndB, hwalkB, _, hboundB⟩ := hokB m qB hqB
  have hfp0 : (finish_search (reconstruct_bidirectional_path A3)
      true).final_path = (reconstruct_bidirectional_path A3).final_path := rfl
  have h2 : (reconstruct_bidirectional_path A3).final_path =
      (A3.start :: walkCF A3.came_from_forward
        (A3.came_from_forward.length + 1) (some m) []) ++
      (match lookupA A3.came_from_backward m with
        | some (some p) => walkBack A3.came_from_backward
            (A3.came_from_backward.length + 1) (some p) ++ [A3.target]
        | _ => []) := by
    unfold reconstruct_bidirectional_path
    rw [hmp]
    rfl
  cases qB with
  | none =>
    have hmt : m = t := by
      cases hchB with
      | root _ _ =>
        have h := hwalkB.1
        simp only [List.head?_cons, Option.some.injEq] at h
        exact h
      | step _ p W hlk _ =>
        rw [hqB] at hlk
        simp at hlk
    rw [hqB] at h2
    dsimp only at h2
    rw [List.append_nil, hwcfF, hst] at h2
    have hfp : (finish_search (reconstruct_bidirectional_path A3)
        true).final_path = s :: WF := by rw [hfp0, h2]
    have hcost : pathCost (finish_search (reconstruct_bidirectional_path A3)
        true).final_path = 1 + pathCost WF := by
      rw [hfp]
      exact pathCost_cons_self s WF hwalkF.1
    have hwt : IsWalk g s t WF := hmt ▸ hwalkF
    constructor
    · rw [hcost]
      have := pathCost_nonneg WF
      linarith
    · intro _
      exact ⟨WF, hwt, by rw [hcost]⟩
  | some p =>
    -- the backward chain steps from its root to m through p
    have hstep : ∃ WB2, WB = WB2 ++ [m] ∧ Chains A3.came_from_backward p WB2 := by
      cases hchB with
      | root _ hlk =>
        rw [hqB] at hlk
        simp at hlk
      | step _ p2 W2 hlk hch2 =>
        rw [hqB] at hlk
        simp only [Option.some.injEq] at hlk
        rw [← hlk] at hch2
        exact ⟨W2, rfl, hch2⟩
    obtain ⟨WB2, hWB2, hchB2⟩ := hstep
    have hB2ne : WB2 ≠ [] := chains_ne_nil hchB2
    have hfuelB : WB2.length ≤ A3.came_from_backward.length + 1 := by
      have h1 : WB.length ≤ A3.came_from_backward.length :=
        chains_length_le hchB hndB
      rw [hWB2] at h1
      simp only [List.length_append, List.length_cons, List.length_nil] at h1
      omega
    have hwbk : walkBack A3.came_from_backward
        (A3.came_from_backward.length + 1) (some p) = WB2.reverse :=
      chains_walkBack hchB2 _ hfuelB
    rw [hqB] at h2
    dsimp only at h2
    rw [hwcfF, hwbk, hst, htg] at h2
    have hfp : (finish_search (reconstruct_bidirectional_path A3)
        true).final_path = s :: (WF ++ (WB2.reverse ++ [t])) := by
      rw [hfp0, h2]
      rfl
    -- pieces of the backward walk
    have hheadB2 : WB2.head? = some t := by
      have h := hwalkB.1
      rw [hWB2] at h
      cases WB2 with
      | nil => exact absurd rfl hB2ne
      | cons a l0 => simpa using h
    have hlastB2 : WB2.getLast? = some p := chains_getLast hchB2
    have hchainB2 : List.Chain' (Adj g) WB2 := by
      have h := hwalkB.2.2
      rw [hWB2, List.chain'_append] at h
      exact h.1
    have hwalkB2 : IsWalk g t p WB2 := ⟨hheadB2, hlastB2, hchainB2⟩
    have hadjpm : Adj g p m := by
      have h := hwalkB.2.2
      rw [hWB2, List.chain'_append] at h
      refine h.2.2 p ?_ m ?_
      · rw [Option.mem_def]
        exact hlastB2
      · rw [Option.mem_def]
        rfl
    have hsubB2 : ∀ x ∈ WB2, x ∈ WB := by
      intro x hx
      rw [hWB2]
      exact List.mem_append_left _ hx
    -- the cost of the reported path
    have hheadWF : WF.head? = some s := hwalkF.1
    have hne_tail : (WF ++ (WB2.reverse ++ [t])).head? = some s := by
      cases WF with
      | nil => exact absurd hheadWF (by simp)
      | cons a l0 => simpa using hheadWF
    have hcost1 : pathCost (s :: (WF ++ (WB2.reverse ++ [t]))) =
        1 + pathCost (WF ++ (WB2.reverse ++ [t])) :=
      pathCost_cons_self s _ hne_tail
    constructor
    · rw [hfp, hcost1]
      have := pathCost_nonneg (WF ++ (WB2.reverse ++ [t]))
      linarith
    · rintro ⟨ht1, ht2⟩
      -- with the target in bounds and not a wall, every backward-chain
      -- node is in bounds and not a wall, so the chain reverses
      have hokall : ∀ x ∈ WB2, InBounds g x ∧ g.cell x.1 x.2 ≠ CellType.WALL := by
        intro x hx
        rcases hboundB x (hsubB2 x hx) with rfl | h
        · exact ⟨ht1, ht2⟩
        · exact h
      have hwalkrev : IsWalk g p t WB2.reverse :=
        isWalk_reverse g t p WB2 hokall hwalkB2
      have hadjmp : Adj g m p := by
        have hpm : p ∈ WB2 := List.mem_of_mem_getLast? hlastB2
        exact adj_symm g p m (hokall p hpm).1 (hokall p hpm).2 hadjpm
      have hcomb : IsWalk g s t (WF ++ WB2.reverse) :=
        isWalk_append g s m p t WF WB2.reverse hwalkF hwalkrev hadjmp
      have hlastcomb : (WF ++ WB2.reverse).getLast? = some t := hcomb.2.1
      have hcost2 : pathCost ((WF ++ WB2.reverse) ++ [t]) =
          pathCost (WF ++ WB2.reverse) + get_move_cost t t :=
        pathCost_snoc _ t t hlastcomb
      refine ⟨WF ++ WB2.reverse, hcomb, ?_⟩
      rw [hfp, hcost1]
      have hassoc : WF ++ (WB2.reverse ++ [t]) = (WF ++ WB2.reverse) ++ [t] :=
        (List.append_assoc WF WB2.reverse [t]).symm
      rw [hassoc, hcost2, get_move_cost_self]
      linarith

/-- One bidirectional tick from an invariant-satisfying active state
either stays active with the invariant (including the counter-only tick),
or halts; a halt with success reports a stitched path of the promised
shape and cost. -/
theorem bidi_cf_step (g : Grid) (s t : Node) (a : App)
    (hsr : a.searching = true) (hI : BidiCfInv g s t a) :
    ((bidirectional_step a).searching = true
      ∧ BidiCfInv g s t (bidirectional_step a))
    ∨ ((bidirectional_step a).searching = false ∧
        ((bidirectional_step a).success = true →
          PostAny g s t (bidirectional_step a))) := by
  by_cases hboth : a.frontier_forward = [] ∧ a.frontier_backward = []
  · right
    unfold bidirectional_step
    rw [if_pos hboth]
    refine ⟨rfl, ?_⟩
    intro h
    simp [finish_search] at h
  · unfold bidirectional_step
    rw [if_neg hboth]
    by_cases hfwd : a.step_count % 2 = 0 ∧ a.frontier_forward ≠ []
    · rw [if_pos hfwd]
      cases hff : a.frontier_forward with
      | nil => exact absurd hff hfwd.2
      | cons c rest =>
        have hckF : ∃ q, lookupA a.came_from_forward c = some q :=
          hI.frKeysF c (by rw [hff]; exact List.mem_cons_self _ _)
        have hsex : s ∈ sadd a.explored_forward c := by
          rcases hI.hinitF with ⟨hel, hcfl⟩ | hsx
          · obtain ⟨q, hq⟩ := hckF
            rw [hcfl, lookupA] at hq
            by_cases hcs : c = s
            · rw [mem_sadd]
              exact Or.inl hcs.symm
            · rw [if_neg hcs] at hq
              exact absurd hq (by simp [lookupA])
          · rw [mem_sadd]
            exact Or.inr hsx
        have hexKeys2 : ∀ v ∈ sadd a.explored_forward c,
            ∃ q, lookupA a.came_from_forward v = some q := by
          intro v hv
          rw [mem_sadd] at hv
          rcases hv with rfl | hv
          · exact hckF
          · exact hI.exKeysF v hv
        have hfrKeys2 : ∀ v ∈ rest,
            ∃ q, lookupA a.came_from_forward v = some q := fun v hv =>
          hI.frKeysF v (by rw [hff]; exact List.mem_cons_of_mem c hv)
        have hokmono : CFOk g s a.came_from_forward
            (sadd a.explored_forward c) :=
          cfok_mono (fun x hx => by rw [mem_sadd]; exact Or.inr hx) hI.cfokF
        unfold bidi_forward
        rw [hff]
        dsimp only
        split
        · split
          · rename_i hmeet
            right
            refine ⟨rfl, ?_⟩
            intro _
            exact bidi_reconstruct_post g s t c _ hI.hstart hI.htarget rfl
              hckF (hI.exKeysB c hmeet) hokmono hI.cfokB
          · rename_i hmeet
            left
            exact bidi_fwd_post_expand g s t c
              { a with frontier_forward := rest,
                       explored_forward := sadd a.explored_forward c,
                       cell_states := setCell a.cell_states c CellState.EXPLORED }
              hI.hgrid hI.hstart hI.htarget hsr hI.hsuccess hckF
              (by rw [mem_sadd]; exact Or.inl rfl) hsex hI.hinitB
              hfrKeys2 hexKeys2 hokmono hI.frKeysB hI.exKeysB hI.cfokB
        · split
          · rename_i hmeet
            right
            refine ⟨rfl, ?_⟩
            intro _
            exact bidi_reconstruct_post g s t c _ hI.hstart hI.htarget rfl
              hckF (hI.exKeysB c hmeet) hokmono hI.cfokB
          · rename_i hmeet
            left
            exact bidi_fwd_post_expand g s t c
              { a with frontier_forward := rest,
                       explored_forward := sadd a.explored_forward c }
              hI.hgrid hI.hstart hI.htarget hsr hI.hsuccess hckF
              (by rw [mem_sadd]; exact Or.inl rfl) hsex hI.hinitB
              hfrKeys2 hexKeys2 hokmono hI.frKeysB hI.exKeysB hI.cfokB
    · rw [if_neg hfwd]
      by_cases hbk : a.frontier_backward ≠ []
      · rw [if_pos hbk]
        cases hfb : a.frontier_backward with
        | nil => exact absurd hfb hbk
        | cons c rest =>
          have hckB : ∃ q, lookupA a.came_from_backward c = some q :=
            hI.frKeysB c (by rw [hfb]; exact List.mem_cons_self _ _)
          have htex : t ∈ sadd a.explored_backward c := by
            rcases hI.hinitB with ⟨hel, hcfl⟩ | htx
            · obtain ⟨q, hq⟩ := hckB
              rw [hcfl, lookupA] at hq
              by_cases hct : c = t
              · rw [mem_sadd]
                exact Or.inl hct.symm
              · rw [if_neg hct] at hq
                exact absurd hq (by simp [lookupA])
            · rw [mem_sadd]
              exact Or.inr htx
          have hexKeys2 : ∀ v ∈ sadd a.explored_backward c,
              ∃ q, lookupA a.came_from_backward v = some q := by
            intro v hv
            rw [mem_sadd] at hv
            rcases hv with rfl | hv
            · exact hckB
            · exact hI.exKeysB v hv
          have hfrKeys2 : ∀ v ∈ rest,
              ∃ q, lookupA a.came_from_backward v = some q := fun v hv =>
            hI.frKeysB v (by rw [hfb]; exact List.mem_cons_of_mem c hv)
          have hokmono : CFOk g t a.came_from_backward
              (sadd a.explored_backward c) :=
            cfok_mono (fun x hx => by rw [mem_sadd]; exact Or.inr hx) hI.cfokB
          unfold bidi_backward
          rw [hfb]
          dsimp only
          split
          · split
            · rename_i hmeet
              right
              refine ⟨rfl, ?_⟩
              intro _
              exact bidi_reconstruct_post g s t c _ hI.hstart hI.htarget rfl
                (hI.exKeysF c hmeet) hckB hI.cfokF hokmono
            · rename_i hmeet
              left
              exact bidi_bwd_post_expand g s t c
                { a with frontier_backward := rest,
                         explored_backward := sadd a.explored_backward c,
                         cell_states := setCell a.cell_states c
                           CellState.EXPLORED2 }
                hI.hgrid hI.hstart hI.htarget hsr hI.hsuccess hckB
                (by rw [mem_sadd]; exact Or.inl rfl) htex hI.hinitF
                hfrKeys2 hexKeys2 hokmono hI.frKeysF hI.exKeysF hI.cfokF
          · split
            · rename_i hmeet
              right
              refine ⟨rfl, ?_⟩
              intro _
              exact bidi_reconstruct_post g s t c _ hI.hstart hI.htarget rfl
                (hI.exKeysF c hmeet) hckB hI.cfokF hokmono
            · rename_i hmeet
              left
              exact bidi_bwd_post_expand g s t c
                { a with frontier_backward := rest,
                         explored_backward := sadd a.explored_backward c }
                hI.hgrid hI.hstart hI.htarget hsr hI.hsuccess hckB
                (by rw [mem_sadd]; exact Or.inl rfl) htex hI.hinitF
                hfrKeys2 hexKeys2 hokmono hI.frKeysF hI.exKeysF hI.cfokF
      · rw [if_neg hbk]
        left
        exact ⟨hsr, ⟨hI.hgrid, hI.hstart, hI.htarget, hI.hsuccess, hI.hinitF,
          hI.hinitB, hI.frKeysF, hI.exKeysF, hI.frKeysB, hI.exKeysB,
          hI.cfokF, hI.cfokB⟩⟩

/-- start_search establishes the bidirectional predecessor invariant. -/
theorem start_search_cf_bidi (g : Grid) (s t : Node) (dl : Nat) :
    BidiCfInv g s t (start_search Algo.Bidirectional g s t dl) := by
  refine ⟨rfl, rfl, rfl, rfl, Or.inl ⟨rfl, rfl⟩, Or.inl ⟨rfl, rfl⟩,
    ?_, ?_, ?_, ?_, ?_, ?_⟩
  · intro v hv
    have hv' : v ∈ [s] := hv
    rcases List.mem_singleton.mp hv' with rfl
    refine ⟨none, ?_⟩
    show lookupA [(v, none)] v = some none
    rw [lookupA, if_pos rfl]
  · intro v hv
    exact absurd hv (List.not_mem_nil v)
  · intro v hv
    have hv' : v ∈ [t] := hv
    rcases List.mem_singleton.mp hv' with rfl
    refine ⟨none, ?_⟩
    show lookupA [(v, none)] v = some none
    rw [lookupA, if_pos rfl]
  · intro v hv
    exact absurd hv (List.not_mem_nil v)
  · exact cfok_init g s []
  · exact cfok_init g t []

/-- A successful bidirectional run reports a path of cost at least one
whose cost, for an in-bounds non-wall target, dominates 1 plus the cost
of an actual legal walk. -/
theorem bidi_success_spec (g : Grid) (s t : Node) (dl n : Nat) :
    (run (algorithm_step Algo.Bidirectional) n
      (start_search Algo.Bidirectional g s t dl)).success = true →
    PostAny g s t (run (algorithm_step Algo.Bidirectional) n
      (start_search Algo.Bidirectional g s t dl)) :=
  run_success_post bidirectional_step (fun a => BidiCfInv g s t a)
    (PostAny g s t) (fun _ hI => hI.hsuccess)
    (fun a hs hI => bidi_cf_step g s t a hs hI)
    n _ rfl (start_search_cf_bidi g s t dl)

/-- C2: whenever uniform-cost search and any of the six algorithms both
terminate with success on the same grid and Start/Target pair, the total
cost of uniform-cost's reported path (the sum of per-step move costs
along final_path) is at most the total cost of the other algorithm's
reported path.  Both reports carry the same duplicated-start unit step,
and uniform-cost's remaining cost is optimal over legal walks. -/
theorem ucs_reported_cost_minimal (algo : Algo) (g : Grid) (s t : Node)
    (dl1 dl2 n1 n2 : Nat)
    (h1 : (run (algorithm_step Algo.UCS) n1
      (start_search Algo.UCS g s t dl1)).success = true)
    (h2 : (run (algorithm_step algo) n2
      (start_search algo g s t dl2)).success = true) :
    pathCost (run (algorithm_step Algo.UCS) n1
        (start_search Algo.UCS g s t dl1)).final_path
    ≤ pathCost (run (algorithm_step algo) n2
        (start_search algo g s t dl2)).final_path := by
  obtain ⟨ct, hcostU, hct0, hmin, htb, hWu⟩ := ucs_success_spec g s t dl1 n1 h1
  have hother : PostAny g s t (run (algorithm_step algo) n2
      (start_search algo g s t dl2)) := by
    cases algo with
    | BFS => exact bfs_success_spec g s t dl2 n2 h2
    | DFS => exact dfs_success_spec g s t dl2 n2 h2
    | UCS =>
      obtain ⟨ct2, hc2, hct20, _, _, W2, hW2, hcW2⟩ :=
        ucs_success_spec g s t dl2 n2 h2
      constructor
      · rw [hc2]
        linarith
      · intro _
        exact ⟨W2, hW2, by rw [hc2, hcW2]⟩
    | DLS => exact dls_success_spec g s t dl2 n2 h2
    | IDDFS => exact iddfs_success_spec g s t dl2 n2 h2
    | Bidirectional => exact bidi_success_spec g s t dl2 n2 h2
  rcases htb with hts | ⟨ht1, ht2⟩
  · have hwts : IsWalk g s t [s] := by
      refine ⟨rfl, ?_, List.chain'_singleton s⟩
      rw [hts]
      rfl
    have hct00 : ct = 0 := by
      have h := hmin [s] hwts
      have h0 : pathCost [s] = 0 := rfl
      rw [h0] at h
      linarith
    have hother1 := hother.1
    rw [hcostU, hct00]
    linarith
  · obtain ⟨W, hW, hle⟩ := hother.2 ⟨ht1, ht2⟩
    have h3 := hmin W hW
    rw [hcostU]
    linarith

/-- Concrete instance of the cost-minimality guarantee: on the 1x1 grid
with Start = Target = (0,0), the uniform-cost run and the breadth-first
run both succeed after one tick, and uniform-cost's reported cost is
dominated by breadth-first's. -/
theorem ucs_reported_cost_minimal_witness :
    (run (algorithm_step Algo.UCS) 1
      (start_search Algo.UCS grid1x1 (0, 0) (0, 0) 20)).success = true
    ∧ (run (algorithm_step Algo.BFS) 1
      (start_search Algo.BFS grid1x1 (0, 0) (0, 0) 20)).success = true
    ∧ pathCost (run (algorithm_step Algo.UCS) 1
        (start_search Algo.UCS grid1x1 (0, 0) (0, 0) 20)).final_path
      ≤ pathCost (run (algorithm_step Algo.BFS) 1
        (start_search Algo.BFS grid1x1 (0, 0) (0, 0) 20)).final_path :=
  ⟨by decide, by decide,
    ucs_reported_cost_minimal Algo.BFS grid1x1 (0, 0) (0, 0) 20 20 1 1
      (by decide) (by decide)⟩

end Pathfinder
